import Mathlib

/-!
# E20 cache simulator (`simcache.cpp`): embedding and verified properties

The simulator keeps its whole state in global variables and mutates them from
`execute_instruction`.  Here the globals are the fields of `State`, and every
function of the source that touches them takes the state as its last argument
and returns the new one.

Conventions of the embedding:

* `unsigned` values are natural numbers, with an explicit `% 2^32` wherever the
  source arithmetic can wrap; `int` values are integers.  `toUnsigned` is the
  conversion `int → unsigned`.
* An operation whose behaviour is undefined in C++ (division by zero, a vector
  or array index out of range, `front()` of an empty deque) yields `none`; the
  functions that can reach one return `Option`.
* The six cache globals `L1cache, L1blockdata, L1MRU, L2cache, L2blockdata,
  L2MRU` are grouped, per level, in a `CacheLevel`; the code of the source that
  exists once per level (textually duplicated for L1 and L2) is embedded once,
  as a function of the `CacheLevel`.
* Text written to standard output is the list `State.out`.
-/

namespace E20

/-! ## Constants and conversions -/

/-- Number of registers (`NUM_REGS`). -/
def NUM_REGS : Nat := 8

/-- Number of memory cells (`MEM_SIZE = 1<<13`). -/
def MEM_SIZE : Nat := 1 <<< 13

/-- Register range (`REG_SIZE = 1<<16`). -/
def REG_SIZE : Nat := 1 <<< 16

/-- Conversion of an `int` to `unsigned` (32 bits): reduction modulo `2^32`. -/
def toUnsigned (x : Int) : Nat := (x % 4294967296).toNat

/-- Conversion of an `unsigned` to `int` (32 bits, two's complement). -/
def toInt (x : Nat) : Int :=
  if x % 4294967296 < 2147483648 then ((x % 4294967296 : Nat) : Int)
  else ((x % 4294967296 : Nat) : Int) - 4294967296

/-- The operator `&` on `int`: bitwise and of the 32-bit two's complement
representations. -/
def int_and (x y : Int) : Int := toInt (toUnsigned x &&& toUnsigned y)

/-- The operator `|` on `int`: bitwise or of the 32-bit two's complement
representations. -/
def int_or (x y : Int) : Int := toInt (toUnsigned x ||| toUnsigned y)

/-- The operator `^` on `int`: bitwise exclusive or of the 32-bit two's
complement representations. -/
def int_xor (x y : Int) : Int := toInt (toUnsigned x ^^^ toUnsigned y)

def op_add : Nat := 0
def op_sub : Nat := 0
def op_or : Nat := 0
def op_and : Nat := 0
def op_slt : Nat := 0
def op_jr : Nat := 0
def op_slti : Nat := 7
def op_lw : Nat := 4
def op_sw : Nat := 5
def op_jeq : Nat := 6
def op_addi : Nat := 1
def op_j : Nat := 2
def op_jal : Nat := 3

/-! ## State -/

/-- One entry of `L1cache` / `L2cache`: the `vector<int>` with columns
"Row", "V" and "Tag" (indices 0, 1, 2). -/
structure Way where
  row : Nat
  valid : Nat
  tag : Nat
deriving DecidableEq, Repr

/-- The tables of one cache level: `cache` is `L1cache` (resp. `L2cache`),
`blockdata` is `L1blockdata`, `MRU` is `L1MRU` (one deque per row, least
recently used at the front).  `touches` is a history variable that the source
does not have: the `block_in_row` argument of every `updateMRU` call made on
this level so far, newest first.  No code reads it. -/
structure CacheLevel where
  cache : List Way
  blockdata : List (List Nat)
  MRU : List (List Nat)
  touches : List Nat
deriving DecidableEq, Repr

/-- The `cache_name` argument of `print_log_entry`: "L1" or "L2". -/
inductive CacheName where
  | L1 : CacheName
  | L2 : CacheName
deriving DecidableEq, Repr

/-- The `status` argument of `print_log_entry`: "HIT", "MISS" or "SW". -/
inductive Status where
  | HIT : Status
  | MISS : Status
  | SW : Status
deriving DecidableEq, Repr

/-- One line written to standard output while instructions execute: a cache
log entry (`print_log_entry`) or the invalid-instruction diagnostic. -/
inductive Output where
  | log (cache_name : CacheName) (status : Status) (pc addr row : Nat) : Output
  | invalid_instruction (pc : Nat) : Output
deriving DecidableEq, Repr

/-- The global variables of the simulator, and its standard output. -/
structure State where
  pc : Nat
  registers : Nat → Nat
  memory : Nat → Nat
  L1 : CacheLevel
  L2 : CacheLevel
  out : List Output

/-! ## Helpers of the source -/

/-- `find_opcode`: the bits above the low 13. -/
def find_opcode (instruction : Nat) : Nat := instruction >>> 13

/-- `to_signed_binary`: the negative value of a 7-bit immediate whose sign bit
is set. -/
def to_signed_binary (imm : Int) : Int :=
  let res := ~~~imm
  let res := int_and res 127
  let res := res + 1
  (-1 : Int) * res

/-- `increment_pc`: `pc += inc` on the unsigned `pc`, then reduction modulo
`MEM_SIZE` when out of range. -/
def increment_pc (inc : Int) (s : State) : State :=
  let pc := (s.pc + toUnsigned inc) % 4294967296
  { s with pc := if pc > MEM_SIZE - 1 then pc % MEM_SIZE else pc }

/-- `set_pc`: `pc = new_pc`, then reduction modulo `MEM_SIZE` when out of
range. -/
def set_pc (new_pc : Int) (s : State) : State :=
  let pc := toUnsigned new_pc
  { s with pc := if pc > MEM_SIZE - 1 then pc % MEM_SIZE else pc }

/-- `print_log_entry`: one log line on standard output. -/
def print_log_entry (cache_name : CacheName) (status : Status) (pc addr row : Nat)
    (s : State) : State :=
  { s with out := s.out ++ [Output.log cache_name status pc addr row] }

/-- `updateMRU` for the level selected by `cache_num` (the callers pass 1 or 2
only): erase every occurrence of `block_in_row` from the row's deque, push it
at the back, and pop the front if the deque is longer than `assoc`. -/
def updateMRU (c : CacheLevel) (row block_in_row assoc : Nat) : Option CacheLevel := do
  let d ← c.MRU[row]?
  let d := d.filter (fun x => x ≠ block_in_row)
  let d := d ++ [block_in_row]
  let d := if d.length > assoc then d.tail else d
  pure { c with MRU := c.MRU.set row d, touches := block_in_row :: c.touches }

/-! ## The pieces of `execute_instruction` that exist once per cache level -/

/-- The 7-bit immediate of `lw`, `sw`, `jeq` and `addi`:
`imm = instruction & 127; if (imm > 63) imm = to_signed_binary(imm);`. -/
def signed_imm (instruction : Nat) : Int :=
  let imm : Int := ((instruction &&& 127 : Nat) : Int)
  if imm > 63 then to_signed_binary imm else imm

/-- The effective address of `lw` and `sw`:
`(registers[regSrcA] + imm) & 8191`, computed on `unsigned`. -/
def pointer_of (instruction : Nat) (s : State) : Nat :=
  ((s.registers ((instruction >>> 10) &&& 7) + toUnsigned (signed_imm instruction))
    % 4294967296) &&& 8191

/-- Row and tag of an address:
`row = (pointer / blocks) % (cache.size() / assoc)` and
`tag = (pointer / blocks) / (cache.size() / assoc)`.  Each of the three
divisors being zero is a division by zero. -/
def row_and_tag (pointer blocks cache_size assoc : Nat) : Option (Nat × Nat) :=
  if blocks = 0 ∨ assoc = 0 ∨ cache_size / assoc = 0 then none
  else some ((pointer / blocks) % (cache_size / assoc),
             (pointer / blocks) / (cache_size / assoc))

/-- A loop `for (i = 0; i < assoc; i++)` over the ways `cache[base + i]` of a
row that stops at the first way satisfying `p`: the result is that `i`
(`some i`), or `none` when the loop runs to its end.  The loop is at counter
`i` with `n` iterations left. -/
def scan_ways (p : Way → Bool) (cache : List Way) (base : Nat) :
    Nat → Nat → Option (Option Nat)
  | 0, _ => some none
  | n + 1, i => do
    let w ← cache[base + i]?
    if p w then pure (some i) else scan_ways p cache base n (i + 1)

/-- The hit loop: the first way with `cache[base + i][1] != 0` whose tag
`cache[base + i][2]` equals `tag`. -/
def scan_hit (cache : List Way) (base tag n i : Nat) : Option (Option Nat) :=
  scan_ways (fun w => decide (w.valid ≠ 0 ∧ w.tag = tag)) cache base n i

/-- The free-way loop: the first way with `cache[base + i][1] == 0`. -/
def scan_free (cache : List Way) (base n i : Nat) : Option (Option Nat) :=
  scan_ways (fun w => decide (w.valid = 0)) cache base n i

/-- The block fetch loop: `memory[start + i]` for `i < blocks`, in order.  An
index at or beyond `MEM_SIZE` is out of the array. -/
def fetch_block (memory : Nat → Nat) (start blocks : Nat) : Option (List Nat) :=
  if ∀ i, i < blocks → start + i < MEM_SIZE then
    some ((List.range blocks).map (fun i => memory (start + i)))
  else none

/-- Install a block in a row: into the first free way if there is one
(`valid = 1`, tag, block data), otherwise over the way at the front of the
row's deque (tag and block data only); then `updateMRU` on the written way. -/
def install (c : CacheLevel) (row assoc tag : Nat) (block : List Nat) : Option CacheLevel := do
  let free ← scan_free c.cache (row * assoc) assoc 0
  match free with
  | some i =>
    let w ← c.cache[row * assoc + i]?
    let _ ← c.blockdata[row * assoc + i]?
    updateMRU
      { c with cache := c.cache.set (row * assoc + i) { w with valid := 1, tag := tag },
               blockdata := c.blockdata.set (row * assoc + i) block }
      row (row * assoc + i) assoc
  | none =>
    let d ← c.MRU[row]?
    let LRU_data ← d.head?
    let w ← c.cache[LRU_data]?
    let _ ← c.blockdata[LRU_data]?
    updateMRU
      { c with cache := c.cache.set LRU_data { w with tag := tag },
               blockdata := c.blockdata.set LRU_data block }
      row LRU_data assoc

/-- The body of a cache hit on way `i` of `row`: read the register from the
cached block (unless `regDst` is 0), then `updateMRU`. -/
def hit_read (c : CacheLevel) (row assoc i pointer blocks regDst : Nat)
    (registers : Nat → Nat) : Option ((Nat → Nat) × CacheLevel) := do
  let registers ←
    if regDst ≠ 0 then do
      let b ← c.blockdata[row * assoc + i]?
      let v ← b[pointer % blocks]?
      pure (Function.update registers regDst v)
    else pure registers
  let c ← updateMRU c row (row * assoc + i) assoc
  pure (registers, c)

/-- The assignment `registers[regDst] = v`. -/
def set_register (regDst v : Nat) (s : State) : State :=
  { s with registers := Function.update s.registers regDst v }

/-! ## `execute_instruction` -/

/-- The miss path of `lw` (lines 398-475): load the register from memory, then
install the block in L2 (when `blocks2 != 0`) and in L1, and advance `pc`. -/
def lw_fill (pointer regDst blocks1 assoc1 blocks2 assoc2 L1row L1tag : Nat) (s : State) :
    Option (Bool × State) := do
  let s := if regDst ≠ 0 then set_register regDst (s.memory pointer) s else s
  let s ←
    if blocks2 ≠ 0 then do
      let rt ← row_and_tag pointer blocks2 s.L2.cache.length assoc2
      let L2row := rt.1
      let L2tag := rt.2
      let blockdata_for_L2 ← fetch_block s.memory ((pointer / blocks2) * blocks2) blocks2
      let l2 ← install s.L2 L2row assoc2 L2tag blockdata_for_L2
      pure { s with L2 := l2 }
    else pure s
  let blockdata_for_L1 ← fetch_block s.memory ((pointer / blocks1) * blocks1) blocks1
  let l1 ← install s.L1 L1row assoc1 L1tag blockdata_for_L1
  pure (false, increment_pc 1 { s with L1 := l1 })

/-- The L2 part of the `lw` branch after an L1 miss (lines 372-396, then the
fill): an L2 hit reads the register from L2 and returns; an L2 miss is logged
and followed by the fill. -/
def lw_L2 (pointer regDst blocks1 assoc1 blocks2 assoc2 L1row L1tag : Nat) (s : State) :
    Option (Bool × State) := do
  let rt ← row_and_tag pointer blocks2 s.L2.cache.length assoc2
  let L2row := rt.1
  let L2tag := rt.2
  let hit ← scan_hit s.L2.cache (L2row * assoc2) L2tag assoc2 0
  match hit with
  | some i =>
    let s := print_log_entry CacheName.L2 Status.HIT s.pc pointer L2row s
    let r ← hit_read s.L2 L2row assoc2 i pointer blocks2 regDst s.registers
    pure (false, increment_pc 1 { s with registers := r.1, L2 := r.2 })
  | none =>
    let s := print_log_entry CacheName.L2 Status.MISS s.pc pointer L2row s
    lw_fill pointer regDst blocks1 assoc1 blocks2 assoc2 L1row L1tag s

/-- The `lw` branch (lines 335-476). -/
def exec_lw (instruction blocks1 assoc1 blocks2 assoc2 : Nat) (s : State) :
    Option (Bool × State) := do
  let regDst := (instruction >>> 7) &&& 7
  let pointer := pointer_of instruction s
  let rt ← row_and_tag pointer blocks1 s.L1.cache.length assoc1
  let L1row := rt.1
  let L1tag := rt.2
  let hit ← scan_hit s.L1.cache (L1row * assoc1) L1tag assoc1 0
  match hit with
  | some i =>
    let s := print_log_entry CacheName.L1 Status.HIT s.pc pointer L1row s
    let r ← hit_read s.L1 L1row assoc1 i pointer blocks1 regDst s.registers
    pure (false, increment_pc 1 { s with registers := r.1, L1 := r.2 })
  | none =>
    let s := print_log_entry CacheName.L1 Status.MISS s.pc pointer L1row s
    if blocks2 ≠ 0 then
      lw_L2 pointer regDst blocks1 assoc1 blocks2 assoc2 L1row L1tag s
    else
      lw_fill pointer regDst blocks1 assoc1 blocks2 assoc2 L1row L1tag s

/-- The `sw` branch (lines 478-571): write memory, then install the block,
fetched after the write, in L1 and (when `blocks2 != 0`) in L2, with one `SW`
log entry per level. -/
def exec_sw (instruction blocks1 assoc1 blocks2 assoc2 : Nat) (s : State) :
    Option (Bool × State) := do
  let regDst := (instruction >>> 7) &&& 7
  let pointer := pointer_of instruction s
  let s := { s with memory := Function.update s.memory pointer (s.registers regDst) }
  let rt ← row_and_tag pointer blocks1 s.L1.cache.length assoc1
  let L1row := rt.1
  let L1tag := rt.2
  let blockdata_for_L1 ← fetch_block s.memory ((pointer / blocks1) * blocks1) blocks1
  let l1 ← install s.L1 L1row assoc1 L1tag blockdata_for_L1
  let s := print_log_entry CacheName.L1 Status.SW s.pc pointer L1row { s with L1 := l1 }
  let s ←
    if blocks2 ≠ 0 then do
      let rt ← row_and_tag pointer blocks2 s.L2.cache.length assoc2
      let L2row := rt.1
      let L2tag := rt.2
      let blockdata_for_L2 ← fetch_block s.memory ((pointer / blocks2) * blocks2) blocks2
      let l2 ← install s.L2 L2row assoc2 L2tag blockdata_for_L2
      pure (print_log_entry CacheName.L2 Status.SW s.pc pointer L2row { s with L2 := l2 })
    else pure s
  pure (false, increment_pc 1 s)

/-- The `add` branch (lines 246-256). -/
def exec_add (instruction : Nat) (s : State) : Bool × State :=
  let regSrcA := (instruction >>> 10) &&& 7
  let regSrcB := (instruction >>> 7) &&& 7
  let regDst := (instruction >>> 4) &&& 7
  let s :=
    if regDst ≠ 0 then
      set_register regDst
        (((s.registers regSrcA + s.registers regSrcB) % 4294967296) &&& 65535) s
    else s
  (false, increment_pc 1 s)

/-- The `sub` branch (lines 258-268); the subtraction is on `unsigned`. -/
def exec_sub (instruction : Nat) (s : State) : Bool × State :=
  let regSrcA := (instruction >>> 10) &&& 7
  let regSrcB := (instruction >>> 7) &&& 7
  let regDst := (instruction >>> 4) &&& 7
  let s :=
    if regDst ≠ 0 then
      set_register regDst
        (toUnsigned ((s.registers regSrcA : Int) - (s.registers regSrcB : Int)) &&& 65535) s
    else s
  (false, increment_pc 1 s)

/-- The `or` branch (lines 270-280). -/
def exec_or (instruction : Nat) (s : State) : Bool × State :=
  let regSrcA := (instruction >>> 10) &&& 7
  let regSrcB := (instruction >>> 7) &&& 7
  let regDst := (instruction >>> 4) &&& 7
  let s :=
    if regDst ≠ 0 then
      set_register regDst ((s.registers regSrcA ||| s.registers regSrcB) &&& 65535) s
    else s
  (false, increment_pc 1 s)

/-- The `and` branch (lines 282-292). -/
def exec_and (instruction : Nat) (s : State) : Bool × State :=
  let regSrcA := (instruction >>> 10) &&& 7
  let regSrcB := (instruction >>> 7) &&& 7
  let regDst := (instruction >>> 4) &&& 7
  let s :=
    if regDst ≠ 0 then
      set_register regDst ((s.registers regSrcA &&& s.registers regSrcB) &&& 65535) s
    else s
  (false, increment_pc 1 s)

/-- The `slt` branch (lines 294-308); the comparison is on `unsigned`. -/
def exec_slt (instruction : Nat) (s : State) : Bool × State :=
  let regSrcA := (instruction >>> 10) &&& 7
  let regSrcB := (instruction >>> 7) &&& 7
  let regDst := (instruction >>> 4) &&& 7
  let s :=
    if regDst ≠ 0 then
      if s.registers regSrcA < s.registers regSrcB then set_register regDst 1 s
      else set_register regDst 0 s
    else s
  (false, increment_pc 1 s)

/-- The `jr` branch (lines 310-314): `set_pc` takes an `int`. -/
def exec_jr (instruction : Nat) (s : State) : Bool × State :=
  let regSrcA := (instruction >>> 10) &&& 7
  (false, set_pc (toInt (s.registers regSrcA)) s)

/-- The `slti` branch (lines 316-333): the immediate is sign-extended with the
mask 65408 and compared as `unsigned`. -/
def exec_slti (instruction : Nat) (s : State) : Bool × State :=
  let regSrcA := (instruction >>> 10) &&& 7
  let regDst := (instruction >>> 7) &&& 7
  let imm : Int := ((instruction &&& 127 : Nat) : Int)
  let imm := if imm > 63 then int_or imm 65408 else imm
  let s :=
    if regDst ≠ 0 then
      if s.registers regSrcA < toUnsigned imm then set_register regDst 1 s
      else set_register regDst 0 s
    else s
  (false, increment_pc 1 s)

/-- The `jeq` branch (lines 573-587). -/
def exec_jeq (instruction : Nat) (s : State) : Bool × State :=
  let regSrcA := (instruction >>> 10) &&& 7
  let regSrcB := (instruction >>> 7) &&& 7
  let imm := signed_imm instruction
  if s.registers regSrcA = s.registers regSrcB then (false, increment_pc (1 + imm) s)
  else (false, increment_pc 1 s)

/-- The `addi` branch (lines 589-602); the addition is on `unsigned`. -/
def exec_addi (instruction : Nat) (s : State) : Bool × State :=
  let regSrcA := (instruction >>> 10) &&& 7
  let regDst := (instruction >>> 7) &&& 7
  let imm := signed_imm instruction
  let s :=
    if regDst ≠ 0 then
      set_register regDst
        (((s.registers regSrcA + toUnsigned imm) % 4294967296) &&& 65535) s
    else s
  (false, increment_pc 1 s)

/-- The `j` branch (lines 604-613): a jump to the current `pc` is halt. -/
def exec_j (instruction : Nat) (s : State) : Bool × State :=
  let imm : Int := ((instruction &&& 8191 : Nat) : Int)
  if s.pc = toUnsigned imm then (true, s)
  else (false, set_pc imm s)

/-- The `jal` branch (lines 615-621). -/
def exec_jal (instruction : Nat) (s : State) : Bool × State :=
  let imm : Int := ((instruction &&& 8191 : Nat) : Int)
  let s := set_register 7 ((s.pc + 1) % 4294967296) s
  (false, set_pc imm s)

/-- The final `else` (lines 623-626): the diagnostic is printed and nothing
else changes. -/
def exec_invalid (s : State) : Bool × State :=
  (false, { s with out := s.out ++ [Output.invalid_instruction s.pc] })

/-- `execute_instruction`: executes one instruction word on the global state;
the boolean is the return value (true when the instruction is halt). -/
def execute_instruction (instruction blocks1 assoc1 blocks2 assoc2 : Nat) (s : State) :
    Option (Bool × State) :=
  let op_code := find_opcode instruction
  if op_code = op_add ∧ instruction &&& 15 = 0 then some (exec_add instruction s)
  else if op_code = op_sub ∧ instruction &&& 15 = 1 then some (exec_sub instruction s)
  else if op_code = op_or ∧ instruction &&& 15 = 2 then some (exec_or instruction s)
  else if op_code = op_and ∧ instruction &&& 15 = 3 then some (exec_and instruction s)
  else if op_code = op_slt ∧ instruction &&& 15 = 4 then some (exec_slt instruction s)
  else if op_code = op_jr ∧ instruction &&& 15 = 8 then some (exec_jr instruction s)
  else if op_code = op_slti then some (exec_slti instruction s)
  else if op_code = op_lw then exec_lw instruction blocks1 assoc1 blocks2 assoc2 s
  else if op_code = op_sw then exec_sw instruction blocks1 assoc1 blocks2 assoc2 s
  else if op_code = op_jeq then some (exec_jeq instruction s)
  else if op_code = op_addi then some (exec_addi instruction s)
  else if op_code = op_j then some (exec_j instruction s)
  else if op_code = op_jal then some (exec_jal instruction s)
  else some (exec_invalid s)

/-! ## `main`: cache construction and the run loop -/

/-- One `size,associativity,blocksize` triple of the `--cache` argument. -/
structure CacheParams where
  size : Nat
  assoc : Nat
  blocksize : Nat
deriving DecidableEq, Repr

/-- The parsed `--cache` argument: three numbers (`L2 = none`) or six. -/
structure Config where
  L1 : CacheParams
  L2 : Option CacheParams
deriving DecidableEq, Repr

/-- The tables `main` builds for a level of `rows` rows: `assoc` entries
`{i, 0, 0}` and as many empty block vectors for every row `i`, and one empty
deque per row. -/
def make_level (rows assoc : Nat) : CacheLevel :=
  { cache := (List.range rows).flatMap
      (fun i => List.replicate assoc { row := i, valid := 0, tag := 0 }),
    blockdata := (List.range rows).flatMap (fun _ => List.replicate assoc []),
    MRU := (List.range rows).map (fun _ => []),
    touches := [] }

/-- The tables of a level that `main` does not build (L2 with a three-number
configuration): the globals stay empty. -/
def no_level : CacheLevel :=
  { cache := [], blockdata := [], MRU := [], touches := [] }

/-- The state in which `main` enters the run loop, for the memory left by
`load_machine_code`.  `rows = size / (assoc * blocksize)` is a division by
zero when the product is zero. -/
def main_init (cfg : Config) (memory : Nat → Nat) : Option State :=
  if cfg.L1.assoc * cfg.L1.blocksize = 0 then none
  else
    let L1rows := cfg.L1.size / (cfg.L1.assoc * cfg.L1.blocksize)
    match cfg.L2 with
    | none =>
      some { pc := 0, registers := fun _ => 0, memory := memory,
             L1 := make_level L1rows cfg.L1.assoc, L2 := no_level, out := [] }
    | some l2 =>
      if l2.assoc * l2.blocksize = 0 then none
      else
        let L2rows := l2.size / (l2.assoc * l2.blocksize)
        some { pc := 0, registers := fun _ => 0, memory := memory,
               L1 := make_level L1rows cfg.L1.assoc,
               L2 := make_level L2rows l2.assoc, out := [] }

/-- The `blocks2` argument `main` passes: `L2blocksize`, or the default 0. -/
def Config.blocks2 (cfg : Config) : Nat :=
  match cfg.L2 with
  | none => 0
  | some l2 => l2.blocksize

/-- The `assoc2` argument `main` passes: `L2assoc`, or the default 0. -/
def Config.assoc2 (cfg : Config) : Nat :=
  match cfg.L2 with
  | none => 0
  | some l2 => l2.assoc

/-- The call `execute_instruction(instruction, L1blocksize, L1assoc, ...)` of
the run loop. -/
def step (cfg : Config) (instruction : Nat) (s : State) : Option (Bool × State) :=
  execute_instruction instruction cfg.L1.blocksize cfg.L1.assoc cfg.blocks2 cfg.assoc2 s

/-- Execute a sequence of instruction words, one after the other. -/
def run_words (cfg : Config) : List Nat → State → Option State
  | [], s => some s
  | w :: ws, s => do
    let r ← step cfg w s
    run_words cfg ws r.2

/-- The states reached from the start of the run loop by executing any
sequence of instruction words. -/
def Reachable (cfg : Config) (s : State) : Prop :=
  ∃ memory s0 ws, main_init cfg memory = some s0 ∧ run_words cfg ws s0 = some s

/-! ## Predicates used in the statements -/

/-- The consistency of the tables of one cache level of associativity `assoc`
and block size `blocks`: the table sizes agree (`rows * assoc` ways, one deque
per row); the deque of every row has no duplicates and holds exactly the
indices `row * assoc + i`, `i < assoc`, of the valid ways of the row; and
every valid way has `blocks` words of block data. -/
structure LevelInv (c : CacheLevel) (assoc blocks : Nat) : Prop where
  cache_length : c.cache.length = c.MRU.length * assoc
  blockdata_length : c.blockdata.length = c.cache.length
  mru_nodup : ∀ (r : Nat) (d : List Nat), c.MRU[r]? = some d → d.Nodup
  mru_mem : ∀ (r : Nat) (d : List Nat), c.MRU[r]? = some d → ∀ k : Nat, k ∈ d ↔
    (r * assoc ≤ k ∧ k < r * assoc + assoc ∧ ∃ w, c.cache[k]? = some w ∧ w.valid ≠ 0)
  data_length : ∀ (k : Nat) (w : Way), c.cache[k]? = some w → w.valid ≠ 0 →
    ∃ b : List Nat, c.blockdata[k]? = some b ∧ b.length = blocks

/-- The start state used by the concrete examples: `pc = 0`, registers and
memory zero, L1 with `rows1` rows of `assoc1` ways, L2 with `rows2` rows of
`assoc2` ways, no output. -/
def example_state (rows1 assoc1 rows2 assoc2 : Nat) : State :=
  { pc := 0, registers := fun _ => 0, memory := fun _ => 0,
    L1 := make_level rows1 assoc1, L2 := make_level rows2 assoc2, out := [] }

/-- The state after executing the words `ws` from `s` (`s` itself when the
execution is not defined); used to name the states of the concrete
examples. -/
def state_after (cfg : Config) (ws : List Nat) (s : State) : State :=
  (run_words cfg ws s).getD s

/-- The level `c` holds the block of address `addr` as its most recently used
way: some way `k` of the row `rt.1` is valid with the tag `rt.2`, its block
data are the `blocks` memory words of the block containing `addr`, and `k` is
the back of the deque of the row. -/
def HoldsMRU (c : CacheLevel) (memory : Nat → Nat) (addr blocks assoc : Nat)
    (rt : Nat × Nat) : Prop :=
  ∃ (k : Nat) (w : Way) (blk d : List Nat),
    rt.1 * assoc ≤ k ∧ k < rt.1 * assoc + assoc ∧
    c.cache[k]? = some w ∧ w.valid ≠ 0 ∧ w.tag = rt.2 ∧
    c.blockdata[k]? = some blk ∧ blk.length = blocks ∧
    (∀ i, i < blocks → blk[i]? = some (memory (addr / blocks * blocks + i))) ∧
    c.MRU[rt.1]? = some d ∧ d.getLast? = some k

/-- The deques are ordered by recency of use: in the deque of every row, a way
in front of another was touched (hit or installed, that is, passed to
`updateMRU`) less recently, and every way in a deque has been touched.
`touches` is newest first, so the position of the first occurrence of a way
in it (`indexOf`) is the number of touches of the level since the last touch
of that way. -/
def RecencyInv (c : CacheLevel) : Prop :=
  ∀ (r : Nat) (d : List Nat), c.MRU[r]? = some d →
    d.Pairwise (fun x y => c.touches.indexOf y < c.touches.indexOf x) ∧
    ∀ x ∈ d, x ∈ c.touches

/-- The victim rule for the installs on level `c` (associativity `assoc`,
blocks of `blocks` words): every defined `install` of a block into a row
writes exactly one way `k` of the cache table and of the block data, and

* either `k` is the lowest-indexed way of the row with `valid == 0`, and it
  becomes valid with the new tag,
* or every way of the row is valid, `k` is the front of the deque of the row,
  `k` is a way of the row whose last touch is older than the last touch of
  every other way of the row, and it keeps its valid flag and gets the new tag;

in both cases `k` receives the block, becomes the back of the deque of the row
and is recorded as the newest touch. -/
def VictimRule (c : CacheLevel) (assoc blocks : Nat) : Prop :=
  ∀ (row tag : Nat) (block : List Nat) (c' : CacheLevel),
    block.length = blocks → install c row assoc tag block = some c' →
    ∃ (k : Nat) (w : Way), c.cache[k]? = some w ∧
      ((∃ i, i < assoc ∧ k = row * assoc + i ∧ w.valid = 0 ∧
          (∀ j, j < i → ∃ wj, c.cache[row * assoc + j]? = some wj ∧ wj.valid ≠ 0) ∧
          c'.cache = c.cache.set k { w with valid := 1, tag := tag }) ∨
       ((∀ j, j < assoc → ∃ wj, c.cache[row * assoc + j]? = some wj ∧ wj.valid ≠ 0) ∧
          (∃ d, c.MRU[row]? = some d ∧ d.head? = some k) ∧
          row * assoc ≤ k ∧ k < row * assoc + assoc ∧ k ∈ c.touches ∧
          (∀ k', row * assoc ≤ k' → k' < row * assoc + assoc → k' ≠ k →
            c.touches.indexOf k' < c.touches.indexOf k) ∧
          c'.cache = c.cache.set k { w with tag := tag })) ∧
      c'.blockdata = c.blockdata.set k block ∧
      (∃ d', c'.MRU[row]? = some d' ∧ d'.getLast? = some k) ∧
      c'.touches = k :: c.touches

/-- The run loop of `main`: `while (!halt) halt = execute_instruction(memory[pc], ...)`,
for at most `n` iterations.  The result is the value of `halt` and the state
when the loop exits, or after `n` iterations if it has not exited by then.
A `pc` at or beyond `MEM_SIZE` would index outside `memory`. -/
def run_loop (cfg : Config) : Nat → State → Option (Bool × State)
  | 0, s => some (false, s)
  | n + 1, s => do
    let instruction ← if s.pc < MEM_SIZE then some (s.memory s.pc) else none
    let r ← step cfg instruction s
    if r.1 then pure (true, r.2) else run_loop cfg n r.2

/-! ## The assembler (`asm.cpp`) -/

/-- `reg_to_int`: the number of a register name; every name other than `$0` to
`$6` gives 7. -/
def reg_to_int (reg : String) : Nat :=
  if reg = "$0" then 0
  else if reg = "$1" then 1
  else if reg = "$2" then 2
  else if reg = "$3" then 3
  else if reg = "$4" then 4
  else if reg = "$5" then 5
  else if reg = "$6" then 6
  else 7

/-- The operands of one line as `program_to_int` reads them from `input[i]`:
register names are the strings passed to `reg_to_int`, and an immediate is the
integer `stoi` returns for its token (`stoi` and the `substr` slicing of
`imm($reg)` are library calls and stay outside the embedding).
`rrr` is `input[i][1..3]` of add, sub, or, and, slt; `r` of jr; `rri` of slti,
addi and jeq; `rm` is `$a, imm($reg)` of lw and sw; `ri` of movi; `i` of j, jal
and .fill; `nothing` of nop and halt. -/
inductive Operands where
  | rrr (a b c : String) : Operands
  | r (a : String) : Operands
  | rri (a b : String) (imm : Int) : Operands
  | rm (a : String) (imm : Int) (reg : String) : Operands
  | ri (a : String) (imm : Int) : Operands
  | i (imm : Int) : Operands
  | nothing : Operands
deriving DecidableEq, Repr

/-- One line of the program: `convert_lower(input[i][0])` and the operands. -/
structure Line where
  operation : String
  operands : Operands
deriving DecidableEq, Repr

/-- The mask `(imm < 0) ? 511 << 7 : 0` of the immediate encodings. -/
def imm_mask (imm : Int) : Int := if imm < 0 then 65408 else 0

/-- The R-type encoding shared by add, sub, or, and, slt: opcode 0, then
`input[i][2]`, `input[i][3]`, `input[i][1]`, shifted left by 4. -/
def encode_rrr (a b c : String) : Nat :=
  (((((0 <<< 3) ||| reg_to_int b) <<< 3) ||| reg_to_int c) <<< 3 ||| reg_to_int a) <<< 4

/-- The I-type encoding of slti, lw, sw and addi: opcode, source register,
destination register, then `| (imm ^ mask)` with the `int` converted to
`unsigned`. -/
def encode_imm (op : Nat) (src dst : String) (imm : Int) : Nat :=
  ((((op <<< 3) ||| reg_to_int src) <<< 3 ||| reg_to_int dst) <<< 7)
    ||| toUnsigned (int_xor imm (imm_mask imm))

/-- The body of the loop of `program_to_int` for line `i`: the value pushed on
`result`.  A line whose operation is none of those tested leaves
`instruction_val` uninitialized, and operands of another shape than the
operation reads are an index out of range or a failing `stoi`. -/
def encode_line (i : Nat) (l : Line) : Option Nat :=
  if l.operation = "add" then
    match l.operands with
    | Operands.rrr a b c => some (encode_rrr a b c)
    | _ => none
  else if l.operation = "sub" then
    match l.operands with
    | Operands.rrr a b c => some (encode_rrr a b c ||| 1)
    | _ => none
  else if l.operation = "or" then
    match l.operands with
    | Operands.rrr a b c => some (encode_rrr a b c ||| 2)
    | _ => none
  else if l.operation = "and" then
    match l.operands with
    | Operands.rrr a b c => some (encode_rrr a b c ||| 3)
    | _ => none
  else if l.operation = "slt" then
    match l.operands with
    | Operands.rrr a b c => some (encode_rrr a b c ||| 4)
    | _ => none
  else if l.operation = "jr" then
    match l.operands with
    | Operands.r a => some ((((0 <<< 3) ||| reg_to_int a) <<< 10) ||| 8)
    | _ => none
  else if l.operation = "slti" then
    match l.operands with
    | Operands.rri a b imm => some (encode_imm 7 b a imm)
    | _ => none
  else if l.operation = "lw" then
    match l.operands with
    | Operands.rm a imm reg => some (encode_imm 4 reg a imm)
    | _ => none
  else if l.operation = "sw" then
    match l.operands with
    | Operands.rm a imm reg => some (encode_imm 5 reg a imm)
    | _ => none
  else if l.operation = "jeq" then
    match l.operands with
    | Operands.rri a b imm =>
      let rel_imm := toInt (toUnsigned (imm - (i : Int) - 1))
      some (((((6 <<< 3) ||| reg_to_int a) <<< 3 ||| reg_to_int b) <<< 7)
        ||| toUnsigned (int_xor rel_imm (imm_mask rel_imm)))
    | _ => none
  else if l.operation = "addi" then
    match l.operands with
    | Operands.rri a b imm => some (encode_imm 1 b a imm)
    | _ => none
  else if l.operation = "j" then
    match l.operands with
    | Operands.i imm => some ((2 <<< 13) ||| toUnsigned imm)
    | _ => none
  else if l.operation = "jal" then
    match l.operands with
    | Operands.i imm => some ((3 <<< 13) ||| toUnsigned imm)
    | _ => none
  else if l.operation = "movi" then
    match l.operands with
    | Operands.ri a imm =>
      some ((((1 <<< 6) ||| reg_to_int a) <<< 7) ||| toUnsigned (int_xor imm (imm_mask imm)))
    | _ => none
  else if l.operation = "nop" then some (0 <<< 13)
  else if l.operation = "halt" then some (((2 <<< 13) ||| i) % 4294967296)
  else if l.operation = ".fill" then
    match l.operands with
    | Operands.i imm => some ((0 <<< 13) ||| toUnsigned imm)
    | _ => none
  else none

/-- The loop of `program_to_int` from line `i` on. -/
def program_to_int_from (i : Nat) : List Line → Option (List Nat)
  | [] => some []
  | l :: ls => do
    let v ← encode_line i l
    let vs ← program_to_int_from (i + 1) ls
    pure (v :: vs)

/-- `program_to_int`: the instruction values of the lines of a program. -/
def program_to_int (input : List Line) : Option (List Nat) :=
  program_to_int_from 0 input

/-- `print_machine_code`: the 16 binary digits of `bitset<16>(num)`, read as
the number they denote: the low 16 bits of `num`. -/
def print_machine_code (num : Nat) : Nat := num % 65536

/-- The fourteen branches of `execute_instruction`: the thirteen instruction
kinds and the final `else`. -/
inductive Kind where
  | add : Kind
  | sub : Kind
  | or : Kind
  | and : Kind
  | slt : Kind
  | jr : Kind
  | slti : Kind
  | lw : Kind
  | sw : Kind
  | jeq : Kind
  | addi : Kind
  | j : Kind
  | jal : Kind
  | invalid : Kind
deriving DecidableEq, Repr

/-- The branch `execute_instruction` takes for a word: the conditions of its
`if` / `else if` chain, in the order of the source. -/
def branch_of (instruction : Nat) : Kind :=
  let op_code := find_opcode instruction
  if op_code = op_add ∧ instruction &&& 15 = 0 then Kind.add
  else if op_code = op_sub ∧ instruction &&& 15 = 1 then Kind.sub
  else if op_code = op_or ∧ instruction &&& 15 = 2 then Kind.or
  else if op_code = op_and ∧ instruction &&& 15 = 3 then Kind.and
  else if op_code = op_slt ∧ instruction &&& 15 = 4 then Kind.slt
  else if op_code = op_jr ∧ instruction &&& 15 = 8 then Kind.jr
  else if op_code = op_slti then Kind.slti
  else if op_code = op_lw then Kind.lw
  else if op_code = op_sw then Kind.sw
  else if op_code = op_jeq then Kind.jeq
  else if op_code = op_addi then Kind.addi
  else if op_code = op_j then Kind.j
  else if op_code = op_jal then Kind.jal
  else Kind.invalid

/-- The body of the branch of a kind. -/
def exec_kind (k : Kind) (instruction blocks1 assoc1 blocks2 assoc2 : Nat) (s : State) :
    Option (Bool × State) :=
  match k with
  | Kind.add => some (exec_add instruction s)
  | Kind.sub => some (exec_sub instruction s)
  | Kind.or => some (exec_or instruction s)
  | Kind.and => some (exec_and instruction s)
  | Kind.slt => some (exec_slt instruction s)
  | Kind.jr => some (exec_jr instruction s)
  | Kind.slti => some (exec_slti instruction s)
  | Kind.lw => exec_lw instruction blocks1 assoc1 blocks2 assoc2 s
  | Kind.sw => exec_sw instruction blocks1 assoc1 blocks2 assoc2 s
  | Kind.jeq => some (exec_jeq instruction s)
  | Kind.addi => some (exec_addi instruction s)
  | Kind.j => some (exec_j instruction s)
  | Kind.jal => some (exec_jal instruction s)
  | Kind.invalid => some (exec_invalid s)

/-- The decoding table as the specification words it, for an opcode and a
function code: opcode 0 with function code 0, 1, 2, 3, 4, 8 is add, sub, or,
and, slt, jr; opcode 1 is addi, 2 is j, 3 is jal, 4 is lw, 5 is sw, 6 is jeq,
7 is slti; every other combination is an invalid instruction. -/
def spec_table (opcode fn : Nat) : Kind :=
  match opcode, fn with
  | 0, 0 => Kind.add
  | 0, 1 => Kind.sub
  | 0, 2 => Kind.or
  | 0, 3 => Kind.and
  | 0, 4 => Kind.slt
  | 0, 8 => Kind.jr
  | 1, _ => Kind.addi
  | 2, _ => Kind.j
  | 3, _ => Kind.jal
  | 4, _ => Kind.lw
  | 5, _ => Kind.sw
  | 6, _ => Kind.jeq
  | 7, _ => Kind.slti
  | _, _ => Kind.invalid

/-- The kind the specification gives a word: the table at the opcode (the word
shifted right by 13) and the function code (its low 4 bits). -/
def spec_decode (w : Nat) : Kind := spec_table (w >>> 13) (w &&& 15)

/-- The assembly name `$a` of register `a`. -/
def reg_name (a : Nat) : String := "$" ++ toString a

/-- Every word of every block the level holds is below `2^16`. -/
def Blocks16 (c : CacheLevel) : Prop :=
  ∀ blk ∈ c.blockdata, ∀ v ∈ blk, v < 65536

/-- All architectural values are 16-bit: every register, every memory word
(`memory` has `MEM_SIZE` cells) and every cached block word is below `2^16`. -/
def Values16 (s : State) : Prop :=
  (∀ r, s.registers r < 65536) ∧ (∀ a, a < MEM_SIZE → s.memory a < 65536) ∧
  Blocks16 s.L1 ∧ Blocks16 s.L2

/-- The result of the ALU operations as the specification words it, for the
function code `fn` (0 add, 1 sub, 2 or, 3 and, 4 slt) and the 16-bit operands
`a` and `b`: the sum modulo `2^16`, the difference modulo `2^16` (wrapped to a
non-negative value when `a < b`), the bitwise OR, the bitwise AND, and 1 or 0
for the unsigned comparison `a < b`. -/
def alu_spec (fn a b : Nat) : Nat :=
  match fn with
  | 0 => (a + b) % 65536
  | 1 => if b ≤ a then a - b else a + 65536 - b
  | 2 => a ||| b
  | 3 => a &&& b
  | _ => if a < b then 1 else 0

/-! ## `load_machine_code` -/

/-- The fatal errors of `load_machine_code` (each is a message on `cerr`
followed by `exit(1)`). -/
inductive LoadError where
  | cant_parse : LoadError
  | out_of_sequence (addr : Nat) : LoadError
  | too_big : LoadError
deriving DecidableEq, Repr

/-- The loop of `load_machine_code` with `expectedaddr` as it stands, over the
remaining lines and the memory so far.  A line is what the regular expression
and the two `stoi` calls (library code, outside the embedding) make of it:
`none` when the line does not match, `some (addr, instr)` when it does.  The
result is the error the function exits with, if any, and the memory at that
point. -/
def load_machine_code_from (expectedaddr : Nat) :
    List (Option (Nat × Nat)) → (Nat → Nat) → Option LoadError × (Nat → Nat)
  | [], mem => (none, mem)
  | none :: _, mem => (some LoadError.cant_parse, mem)
  | some (addr, instr) :: rest, mem =>
    if addr ≠ expectedaddr then (some (LoadError.out_of_sequence addr), mem)
    else if addr ≥ MEM_SIZE then (some LoadError.too_big, mem)
    else load_machine_code_from (expectedaddr + 1) rest (Function.update mem addr instr)

/-- `load_machine_code`: `expectedaddr` starts at 0. -/
def load_machine_code (lines : List (Option (Nat × Nat))) (mem : Nat → Nat) :
    Option LoadError × (Nat → Nat) :=
  load_machine_code_from 0 lines mem

/-- The memory after storing the first `j` lines of an image whose line `k`
has the word `(lines[k]).2`: cell `k < j` holds word `k`, every other cell is
as before. -/
def stored (lines : List (Nat × Nat)) (j : Nat) (mem : Nat → Nat) : Nat → Nat :=
  fun a => if a < j then (lines.getD a (0, 0)).2 else mem a

/-- The direct-mapped level `c` (associativity 1: the way of row `r` is entry
`r` of the tables, and the number of rows is the length of the cache table),
with blocks of `blocks` words, is coherent with `memory`: the block data of
every valid way, of row `r` and tag `t`, are the memory words
`memory[(t * rowCount + r) * blocks + i]`, `i < blocks`. -/
def Coherent (c : CacheLevel) (memory : Nat → Nat) (blocks : Nat) : Prop :=
  ∀ (r : Nat) (w : Way) (b : List Nat), c.cache[r]? = some w → w.valid ≠ 0 →
    c.blockdata[r]? = some b →
    ∀ i, i < blocks → b[i]? = some (memory ((w.tag * c.cache.length + r) * blocks + i))

/-- A valid level: consistent tables, associativity at least 1, a block size
among 1, 2, 4, 8, 16, 32, 64 and at least one row. -/
def ValidLevel (c : CacheLevel) (assoc blocks : Nat) : Prop :=
  LevelInv c assoc blocks ∧ 0 < assoc ∧ blocks ∈ [1, 2, 4, 8, 16, 32, 64] ∧ 1 ≤ c.MRU.length

/-- All the indices the level `c` (associativity `assoc`, block size `B`,
`rows` rows) uses for the address `addr` are in range: the row and tag are
computed without a division by zero, the row is below `rows`, every way index
`row * assoc + i`, `i < assoc`, is below `rows * assoc` and inside the cache
table and the block data table, every index `(addr / B) * B + i`, `i < B`, of
the block fetch is below 8192 (the fetch is defined), and on a hit of way `i`
the offset `addr mod B` is below the length of the block data of the way. -/
def IndexingInRange (c : CacheLevel) (memory : Nat → Nat) (assoc B rows addr : Nat) : Prop :=
  ∃ rt, row_and_tag addr B c.cache.length assoc = some rt ∧
    rt.1 = addr / B % rows ∧ rt.2 = addr / B / rows ∧ rt.1 < rows ∧
    (∀ i, i < assoc → rt.1 * assoc + i < rows * assoc ∧
      rt.1 * assoc + i < c.cache.length ∧ rt.1 * assoc + i < c.blockdata.length) ∧
    (∀ i, i < B → addr / B * B + i < 8192) ∧
    (∃ blk, fetch_block memory (addr / B * B) B = some blk) ∧
    (∀ i, scan_hit c.cache (rt.1 * assoc) rt.2 assoc 0 = some (some i) →
      i < assoc ∧ ∃ b, c.blockdata[rt.1 * assoc + i]? = some b ∧ addr % B < b.length)

/-! # Theorems -/


/-! ## Basic facts about the helpers -/

theorem MEM_SIZE_eq : MEM_SIZE = 8192 := rfl

@[simp] theorem increment_pc_registers (n : Int) (s : State) :
    (increment_pc n s).registers = s.registers := rfl
@[simp] theorem increment_pc_memory (n : Int) (s : State) :
    (increment_pc n s).memory = s.memory := rfl
@[simp] theorem increment_pc_L1 (n : Int) (s : State) : (increment_pc n s).L1 = s.L1 := rfl
@[simp] theorem increment_pc_L2 (n : Int) (s : State) : (increment_pc n s).L2 = s.L2 := rfl
@[simp] theorem increment_pc_out (n : Int) (s : State) : (increment_pc n s).out = s.out := rfl

@[simp] theorem set_pc_registers (n : Int) (s : State) : (set_pc n s).registers = s.registers := rfl
@[simp] theorem set_pc_memory (n : Int) (s : State) : (set_pc n s).memory = s.memory := rfl
@[simp] theorem set_pc_L1 (n : Int) (s : State) : (set_pc n s).L1 = s.L1 := rfl
@[simp] theorem set_pc_L2 (n : Int) (s : State) : (set_pc n s).L2 = s.L2 := rfl
@[simp] theorem set_pc_out (n : Int) (s : State) : (set_pc n s).out = s.out := rfl

@[simp] theorem print_log_entry_pc (n : CacheName) (st : Status) (a b c : Nat) (s : State) :
    (print_log_entry n st a b c s).pc = s.pc := rfl
@[simp] theorem print_log_entry_registers (n : CacheName) (st : Status) (a b c : Nat)
    (s : State) : (print_log_entry n st a b c s).registers = s.registers := rfl
@[simp] theorem print_log_entry_memory (n : CacheName) (st : Status) (a b c : Nat)
    (s : State) : (print_log_entry n st a b c s).memory = s.memory := rfl
@[simp] theorem print_log_entry_L1 (n : CacheName) (st : Status) (a b c : Nat) (s : State) :
    (print_log_entry n st a b c s).L1 = s.L1 := rfl
@[simp] theorem print_log_entry_L2 (n : CacheName) (st : Status) (a b c : Nat) (s : State) :
    (print_log_entry n st a b c s).L2 = s.L2 := rfl
@[simp] theorem print_log_entry_out (n : CacheName) (st : Status) (a b c : Nat) (s : State) :
    (print_log_entry n st a b c s).out = s.out ++ [Output.log n st a b c] := rfl

@[simp] theorem set_register_pc (d v : Nat) (s : State) : (set_register d v s).pc = s.pc := rfl
@[simp] theorem set_register_registers (d v : Nat) (s : State) :
    (set_register d v s).registers = Function.update s.registers d v := rfl
@[simp] theorem set_register_memory (d v : Nat) (s : State) :
    (set_register d v s).memory = s.memory := rfl
@[simp] theorem set_register_L1 (d v : Nat) (s : State) : (set_register d v s).L1 = s.L1 := rfl
@[simp] theorem set_register_L2 (d v : Nat) (s : State) : (set_register d v s).L2 = s.L2 := rfl
@[simp] theorem set_register_out (d v : Nat) (s : State) : (set_register d v s).out = s.out := rfl

/-- The value `increment_pc` leaves in `pc`, as an integer. -/
theorem increment_pc_pc (n : Int) (s : State) :
    ((increment_pc n s).pc : Int) = ((s.pc : Int) + n) % 8192 := by
  simp only [increment_pc, toUnsigned, MEM_SIZE_eq]
  split <;> omega

theorem increment_pc_one (s : State) : (increment_pc 1 s).pc = (s.pc + 1) % 8192 := by
  have := increment_pc_pc 1 s
  omega

/-! ## What one cache hit, one fill and one instruction do to the state -/

theorem hit_read_eq_some {c : CacheLevel} {row assoc i pointer blocks regDst : Nat}
    {regs : Nat → Nat} {r : (Nat → Nat) × CacheLevel} :
    hit_read c row assoc i pointer blocks regDst regs = some r ↔
      updateMRU c row (row * assoc + i) assoc = some r.2 ∧
      ((regDst = 0 ∧ r.1 = regs) ∨
       (regDst ≠ 0 ∧ ∃ b v, c.blockdata[row * assoc + i]? = some b ∧
          b[pointer % blocks]? = some v ∧ r.1 = Function.update regs regDst v)) := by
  obtain ⟨regs', c'⟩ := r
  unfold hit_read
  by_cases hd : regDst = 0
  · simp [hd, Option.bind_eq_some]
    intro _
    exact eq_comm
  · simp [hd, Option.bind_eq_some]
    constructor
    · rintro ⟨b, hb, v, hv, h, rfl⟩; exact ⟨h, b, hb, v, hv, rfl⟩
    · rintro ⟨h, b, hb, v, hv, rfl⟩; exact ⟨b, hb, v, hv, h, rfl⟩

theorem hit_read_registers_zero {c : CacheLevel} {row assoc i pointer blocks regDst : Nat}
    {regs : Nat → Nat} {r : (Nat → Nat) × CacheLevel}
    (h : hit_read c row assoc i pointer blocks regDst regs = some r) (h0 : regs 0 = 0) :
    r.1 0 = 0 := by
  rcases (hit_read_eq_some.1 h).2 with ⟨-, h1⟩ | ⟨hd, b, v, -, -, h1⟩
  · rw [h1]; exact h0
  · rw [h1, Function.update_noteq (Ne.symm hd)]; exact h0

theorem lw_fill_some {p d b1 a1 b2 a2 r1 t1 : Nat} {s : State} {r : Bool × State}
    (h : lw_fill p d b1 a1 b2 a2 r1 t1 s = some r) :
    r.1 = false ∧ r.2.pc = (increment_pc 1 s).pc ∧
    r.2.registers = (if d ≠ 0 then Function.update s.registers d (s.memory p) else s.registers) ∧
    r.2.memory = s.memory ∧ r.2.out = s.out ∧
    (∃ blk, fetch_block s.memory (p / b1 * b1) b1 = some blk ∧
      install s.L1 r1 a1 t1 blk = some r.2.L1) ∧
    (b2 = 0 → r.2.L2 = s.L2) ∧
    (b2 ≠ 0 → ∃ rt blk, row_and_tag p b2 s.L2.cache.length a2 = some rt ∧
      fetch_block s.memory (p / b2 * b2) b2 = some blk ∧
      install s.L2 rt.1 a2 rt.2 blk = some r.2.L2) := by
  by_cases hd : d = 0 <;> by_cases hb : b2 = 0 <;>
    simp [lw_fill, hd, hb, Option.bind_eq_some] at h ⊢
  · obtain ⟨blk, h1, l1, h2, rfl⟩ := h
    exact ⟨rfl, rfl, rfl, rfl, rfl, ⟨blk, h1, h2⟩, rfl⟩
  · obtain ⟨a, b, h0, blk2, h3, l2, h4, blk, h1, l1, h2, rfl⟩ := h
    exact ⟨rfl, rfl, rfl, rfl, rfl, ⟨blk, h1, h2⟩, a, b, h0, blk2, h3, h4⟩
  · obtain ⟨blk, h1, l1, h2, rfl⟩ := h
    exact ⟨rfl, rfl, rfl, rfl, rfl, ⟨blk, h1, h2⟩, rfl⟩
  · obtain ⟨a, b, h0, blk2, h3, l2, h4, blk, h1, l1, h2, rfl⟩ := h
    exact ⟨rfl, rfl, rfl, rfl, rfl, ⟨blk, h1, h2⟩, a, b, h0, blk2, h3, h4⟩

theorem exec_sw_some {instr b1 a1 b2 a2 : Nat} {s : State} {r : Bool × State}
    (h : exec_sw instr b1 a1 b2 a2 s = some r) :
    r.1 = false ∧ r.2.pc = (increment_pc 1 s).pc ∧ r.2.registers = s.registers ∧
    r.2.memory = Function.update s.memory (pointer_of instr s)
      (s.registers ((instr >>> 7) &&& 7)) ∧
    ∃ rt blk, row_and_tag (pointer_of instr s) b1 s.L1.cache.length a1 = some rt ∧
      fetch_block r.2.memory (pointer_of instr s / b1 * b1) b1 = some blk ∧
      install s.L1 rt.1 a1 rt.2 blk = some r.2.L1 ∧
      (b2 = 0 → r.2.L2 = s.L2 ∧
        r.2.out = s.out ++ [Output.log CacheName.L1 Status.SW s.pc (pointer_of instr s) rt.1]) ∧
      (b2 ≠ 0 → ∃ rt2 blk2,
        row_and_tag (pointer_of instr s) b2 s.L2.cache.length a2 = some rt2 ∧
        fetch_block r.2.memory (pointer_of instr s / b2 * b2) b2 = some blk2 ∧
        install s.L2 rt2.1 a2 rt2.2 blk2 = some r.2.L2 ∧
        r.2.out = s.out ++ [Output.log CacheName.L1 Status.SW s.pc (pointer_of instr s) rt.1,
          Output.log CacheName.L2 Status.SW s.pc (pointer_of instr s) rt2.1]) := by
  by_cases hb : b2 = 0 <;>
    simp [exec_sw, hb, Option.bind_eq_some, pointer_of] at h ⊢
  · obtain ⟨a, b, h0, blk, h1, l1, h2, rfl⟩ := h
    exact ⟨rfl, rfl, rfl, rfl, a, b, h0, blk, h1, h2, rfl, rfl⟩
  · obtain ⟨a, b, h0, blk, h1, l1, h2, a', b', h0', blk2, h3, l2, h4, rfl⟩ := h
    exact ⟨rfl, rfl, rfl, rfl, a, b, h0, blk, h1, h2, a', b', h0', blk2, h3, h4, by simp⟩

/-- The four ways an `lw` can execute: L1 hit, L2 hit, miss without L2, miss
in both levels. -/
theorem exec_lw_cases {instr b1 a1 b2 a2 : Nat} {s : State} {r : Bool × State}
    (h : exec_lw instr b1 a1 b2 a2 s = some r) :
    ∃ rt, row_and_tag (pointer_of instr s) b1 s.L1.cache.length a1 = some rt ∧
      r.1 = false ∧ r.2.pc = (increment_pc 1 s).pc ∧ r.2.memory = s.memory ∧
      ((∃ i hr, scan_hit s.L1.cache (rt.1 * a1) rt.2 a1 0 = some (some i) ∧
          hit_read s.L1 rt.1 a1 i (pointer_of instr s) b1 ((instr >>> 7) &&& 7) s.registers
            = some hr ∧
          r.2.registers = hr.1 ∧ r.2.L1 = hr.2 ∧ r.2.L2 = s.L2 ∧
          r.2.out = s.out ++
            [Output.log CacheName.L1 Status.HIT s.pc (pointer_of instr s) rt.1]) ∨
       (scan_hit s.L1.cache (rt.1 * a1) rt.2 a1 0 = some none ∧ b2 ≠ 0 ∧
          ∃ rt2 i hr, row_and_tag (pointer_of instr s) b2 s.L2.cache.length a2 = some rt2 ∧
          scan_hit s.L2.cache (rt2.1 * a2) rt2.2 a2 0 = some (some i) ∧
          hit_read s.L2 rt2.1 a2 i (pointer_of instr s) b2 ((instr >>> 7) &&& 7) s.registers
            = some hr ∧
          r.2.registers = hr.1 ∧ r.2.L1 = s.L1 ∧ r.2.L2 = hr.2 ∧
          r.2.out = s.out ++
            [Output.log CacheName.L1 Status.MISS s.pc (pointer_of instr s) rt.1,
             Output.log CacheName.L2 Status.HIT s.pc (pointer_of instr s) rt2.1]) ∨
       (scan_hit s.L1.cache (rt.1 * a1) rt.2 a1 0 = some none ∧ b2 = 0 ∧
          r.2.registers = (if (instr >>> 7) &&& 7 ≠ 0 then
              Function.update s.registers ((instr >>> 7) &&& 7) (s.memory (pointer_of instr s))
            else s.registers) ∧
          (∃ blk, fetch_block s.memory (pointer_of instr s / b1 * b1) b1 = some blk ∧
            install s.L1 rt.1 a1 rt.2 blk = some r.2.L1) ∧
          r.2.L2 = s.L2 ∧
          r.2.out = s.out ++
            [Output.log CacheName.L1 Status.MISS s.pc (pointer_of instr s) rt.1]) ∨
       (scan_hit s.L1.cache (rt.1 * a1) rt.2 a1 0 = some none ∧ b2 ≠ 0 ∧
          ∃ rt2, row_and_tag (pointer_of instr s) b2 s.L2.cache.length a2 = some rt2 ∧
          scan_hit s.L2.cache (rt2.1 * a2) rt2.2 a2 0 = some none ∧
          r.2.registers = (if (instr >>> 7) &&& 7 ≠ 0 then
              Function.update s.registers ((instr >>> 7) &&& 7) (s.memory (pointer_of instr s))
            else s.registers) ∧
          (∃ blk, fetch_block s.memory (pointer_of instr s / b1 * b1) b1 = some blk ∧
            install s.L1 rt.1 a1 rt.2 blk = some r.2.L1) ∧
          (∃ blk2, fetch_block s.memory (pointer_of instr s / b2 * b2) b2 = some blk2 ∧
            install s.L2 rt2.1 a2 rt2.2 blk2 = some r.2.L2) ∧
          r.2.out = s.out ++
            [Output.log CacheName.L1 Status.MISS s.pc (pointer_of instr s) rt.1,
             Output.log CacheName.L2 Status.MISS s.pc (pointer_of instr s) rt2.1])) := by
  simp only [exec_lw, Option.bind_eq_bind, Option.bind_eq_some] at h
  obtain ⟨rt, hrt, hit, hhit, h⟩ := h
  refine ⟨rt, hrt, ?_⟩
  cases hit with
  | some i =>
    simp only [Option.bind_eq_bind, Option.bind_eq_some, Option.pure_def,
      Option.some.injEq] at h
    obtain ⟨hr, hhr, rfl⟩ := h
    exact ⟨rfl, rfl, rfl, Or.inl ⟨i, hr, hhit, hhr, rfl, rfl, rfl, rfl⟩⟩
  | none =>
    by_cases hb : b2 = 0
    · rw [if_neg (not_not.mpr hb)] at h
      have hf := lw_fill_some h
      simp only [print_log_entry_pc, print_log_entry_registers, print_log_entry_memory,
        print_log_entry_L1, print_log_entry_L2, print_log_entry_out] at hf
      obtain ⟨h1, h2, h3, h4, h5, h6, h7, -⟩ := hf
      exact ⟨h1, h2, h4, Or.inr (Or.inr (Or.inl ⟨hhit, hb, h3, h6, h7 hb, h5⟩))⟩
    · simp only [hb, ne_eq, not_false_eq_true, if_true, lw_L2, Option.bind_eq_bind,
        Option.bind_eq_some] at h
      obtain ⟨rt2, hrt2, hit2, hhit2, h⟩ := h
      simp only [print_log_entry_L2] at hrt2 hhit2
      cases hit2 with
      | some i =>
        simp only [Option.bind_eq_bind, Option.bind_eq_some, Option.pure_def,
          Option.some.injEq] at h
        obtain ⟨hr, hhr, rfl⟩ := h
        exact ⟨rfl, rfl, rfl,
          Or.inr (Or.inl ⟨hhit, hb, rt2, i, hr, hrt2, hhit2, hhr, rfl, rfl, rfl, by simp⟩)⟩
      | none =>
        have hf := lw_fill_some h
        simp only [print_log_entry_pc, print_log_entry_registers, print_log_entry_memory,
          print_log_entry_L1, print_log_entry_L2, print_log_entry_out] at hf
        obtain ⟨h1, h2, h3, h4, h5, h6, -, h8⟩ := hf
        obtain ⟨rt2', blk2, e1, e2, e3⟩ := h8 hb
        rw [hrt2] at e1
        cases e1
        exact ⟨h1, h2, h4, Or.inr (Or.inr (Or.inr
          ⟨hhit, hb, rt2, hrt2, hhit2, h3, h6, ⟨blk2, e2, e3⟩, by simp [h5]⟩))⟩

/-- Case analysis on the branch `execute_instruction` takes. -/
theorem execute_instruction_cases (P : Option (Bool × State) → Prop)
    (instr b1 a1 b2 a2 : Nat) (s : State)
    (hadd : find_opcode instr = op_add ∧ instr &&& 15 = 0 → P (some (exec_add instr s)))
    (hsub : find_opcode instr = op_sub ∧ instr &&& 15 = 1 → P (some (exec_sub instr s)))
    (hor : find_opcode instr = op_or ∧ instr &&& 15 = 2 → P (some (exec_or instr s)))
    (hand : find_opcode instr = op_and ∧ instr &&& 15 = 3 → P (some (exec_and instr s)))
    (hslt : find_opcode instr = op_slt ∧ instr &&& 15 = 4 → P (some (exec_slt instr s)))
    (hjr : find_opcode instr = op_jr ∧ instr &&& 15 = 8 → P (some (exec_jr instr s)))
    (hslti : find_opcode instr = op_slti → P (some (exec_slti instr s)))
    (hlw : find_opcode instr = op_lw → P (exec_lw instr b1 a1 b2 a2 s))
    (hsw : find_opcode instr = op_sw → P (exec_sw instr b1 a1 b2 a2 s))
    (hjeq : find_opcode instr = op_jeq → P (some (exec_jeq instr s)))
    (haddi : find_opcode instr = op_addi → P (some (exec_addi instr s)))
    (hj : find_opcode instr = op_j → P (some (exec_j instr s)))
    (hjal : find_opcode instr = op_jal → P (some (exec_jal instr s)))
    (hinv : P (some (exec_invalid s))) :
    P (execute_instruction instr b1 a1 b2 a2 s) := by
  unfold execute_instruction
  by_cases c1 : find_opcode instr = op_add ∧ instr &&& 15 = 0
  · rw [if_pos c1]; exact hadd c1
  rw [if_neg c1]
  by_cases c2 : find_opcode instr = op_sub ∧ instr &&& 15 = 1
  · rw [if_pos c2]; exact hsub c2
  rw [if_neg c2]
  by_cases c3 : find_opcode instr = op_or ∧ instr &&& 15 = 2
  · rw [if_pos c3]; exact hor c3
  rw [if_neg c3]
  by_cases c4 : find_opcode instr = op_and ∧ instr &&& 15 = 3
  · rw [if_pos c4]; exact hand c4
  rw [if_neg c4]
  by_cases c5 : find_opcode instr = op_slt ∧ instr &&& 15 = 4
  · rw [if_pos c5]; exact hslt c5
  rw [if_neg c5]
  by_cases c6 : find_opcode instr = op_jr ∧ instr &&& 15 = 8
  · rw [if_pos c6]; exact hjr c6
  rw [if_neg c6]
  by_cases c7 : find_opcode instr = op_slti
  · rw [if_pos c7]; exact hslti c7
  rw [if_neg c7]
  by_cases c8 : find_opcode instr = op_lw
  · rw [if_pos c8]; exact hlw c8
  rw [if_neg c8]
  by_cases c9 : find_opcode instr = op_sw
  · rw [if_pos c9]; exact hsw c9
  rw [if_neg c9]
  by_cases c10 : find_opcode instr = op_jeq
  · rw [if_pos c10]; exact hjeq c10
  rw [if_neg c10]
  by_cases c11 : find_opcode instr = op_addi
  · rw [if_pos c11]; exact haddi c11
  rw [if_neg c11]
  by_cases c12 : find_opcode instr = op_j
  · rw [if_pos c12]; exact hj c12
  rw [if_neg c12]
  by_cases c13 : find_opcode instr = op_jal
  · rw [if_pos c13]; exact hjal c13
  rw [if_neg c13]
  exact hinv

theorem exec_lw_registers_zero {instr b1 a1 b2 a2 : Nat} {s : State} {r : Bool × State}
    (h : exec_lw instr b1 a1 b2 a2 s = some r) (h0 : s.registers 0 = 0) :
    r.2.registers 0 = 0 := by
  obtain ⟨rt, -, -, -, -, hc⟩ := exec_lw_cases h
  rcases hc with ⟨i, hr, -, hh, hreg, -⟩ | ⟨-, -, rt2, i, hr, -, -, hh, hreg, -⟩ |
    ⟨-, -, hreg, -⟩ | ⟨-, -, rt2, -, -, hreg, -⟩
  · rw [hreg]; exact hit_read_registers_zero hh h0
  · rw [hreg]; exact hit_read_registers_zero hh h0
  · rw [hreg]; split
    · next hd => rw [Function.update_noteq (Ne.symm hd)]; exact h0
    · exact h0
  · rw [hreg]; split
    · next hd => rw [Function.update_noteq (Ne.symm hd)]; exact h0
    · exact h0

/-- A guarded register write `if (regDst != 0) registers[regDst] = v` keeps
register 0. -/
theorem guarded_write_zero (d v : Nat) (s : State) (h0 : s.registers 0 = 0) :
    (if d ≠ 0 then set_register d v s else s).registers 0 = 0 := by
  split
  · next hd => simpa [Function.update_noteq (Ne.symm hd)] using h0
  · exact h0

/-- One instruction never changes a zero in register 0. -/
theorem execute_instruction_registers_zero {instr b1 a1 b2 a2 : Nat} {s : State}
    {r : Bool × State} (h : execute_instruction instr b1 a1 b2 a2 s = some r)
    (h0 : s.registers 0 = 0) : r.2.registers 0 = 0 := by
  revert r
  apply execute_instruction_cases
    (fun o => ∀ {r : Bool × State}, o = some r → r.2.registers 0 = 0)
  case hlw => intro _ r h; exact exec_lw_registers_zero h h0
  case hsw => intro _ r h; rw [(exec_sw_some h).2.2.1]; exact h0
  case hinv => intro r h; cases h; exact h0
  all_goals
    intro _ r h
    cases h
    first
      | exact guarded_write_zero _ _ s h0
      | exact h0
      | (simp only [exec_slt, exec_slti, exec_jeq, exec_j, exec_jal]
         split_ifs <;> simp [Function.update, h0] <;> exact fun e => absurd e.symm ‹_›)

/-- Helper for C1: a run keeps the zero in register 0. -/
theorem run_words_registers_zero (cfg : Config) (ws : List Nat) (s s' : State)
    (h0 : s.registers 0 = 0) (hrun : run_words cfg ws s = some s') :
    s'.registers 0 = 0 := by
  induction ws generalizing s with
  | nil => simp only [run_words, Option.some.injEq] at hrun; rw [← hrun]; exact h0
  | cons w ws ih =>
    simp only [run_words, Option.bind_eq_bind, Option.bind_eq_some] at hrun
    obtain ⟨r, hr, hrest⟩ := hrun
    exact ih r.2 (execute_instruction_registers_zero hr h0) hrest

/-- C1: for every cache configuration, every start state whose registers are
all zero (any memory, any cache contents, any `pc`) and every sequence `ws` of
instruction words that `execute_instruction` executes from it, register 0 is 0
in the state reached.  As `ws` ranges over all sequences, this is the state
after each instruction of every execution. -/
theorem C1_register_zero_invariant (cfg : Config) (ws : List Nat) (s s' : State)
    (h0 : ∀ i, s.registers i = 0) (hrun : run_words cfg ws s = some s') :
    s'.registers 0 = 0 :=
  run_words_registers_zero cfg ws s s' (h0 0) hrun

/-- Witness of C1: `jal 0`, `lw $0,0($0)`, `add $0,$0,$0` on a one-row two-way
L1. -/
theorem C1_register_zero_invariant_witness :
    ∃ s', run_words ⟨⟨2, 2, 1⟩, none⟩ [24576, 32768, 0] (example_state 1 2 0 0) = some s' ∧
      s'.registers 0 = 0 :=
  ⟨_, rfl, C1_register_zero_invariant ⟨⟨2, 2, 1⟩, none⟩ [24576, 32768, 0]
    (example_state 1 2 0 0) _ (fun _ => rfl) rfl⟩

/-- Helper for C2: a sequence of `increment_pc` calls adds up modulo 8192. -/
theorem increment_pc_foldl (ns : List Int) (s : State) (h : s.pc < MEM_SIZE) :
    (((ns.foldl (fun st k => increment_pc k st) s).pc : Nat) : Int)
      = ((s.pc : Int) + ns.sum) % 8192 := by
  induction ns generalizing s with
  | nil => simp [MEM_SIZE_eq] at *; omega
  | cons k ks ih =>
    have h1 := increment_pc_pc k s
    have h2 : (increment_pc k s).pc < MEM_SIZE := by rw [MEM_SIZE_eq]; omega
    rw [List.foldl_cons, ih _ h2, h1, List.sum_cons]
    omega

/-- C2: for every previous `pc` in `[0, 8192)` and every signed increment `n`
(positive, zero or negative), `increment_pc(n)` leaves
`pc = (previous_pc + n) mod 8192` with the non-negative modulus, although the
sum goes through the 32-bit unsigned wraparound; and any sequence of calls
with increments `ns` leaves `(pc0 + sum ns) mod 8192`. -/
theorem C2_increment_pc_modular (s : State) (hpc : s.pc < MEM_SIZE) (n : Int)
    (ns : List Int) :
    ((increment_pc n s).pc : Int) = ((s.pc : Int) + n) % (MEM_SIZE : Int) ∧
    (((ns.foldl (fun st k => increment_pc k st) s).pc : Nat) : Int)
      = ((s.pc : Int) + ns.sum) % (MEM_SIZE : Int) := by
  rw [MEM_SIZE_eq]
  exact ⟨increment_pc_pc n s, increment_pc_foldl ns s hpc⟩

/-- Witness of C2: from `pc = 0`, the increment `-1` gives 8191, and the
increments `-1, 5, -8` give 8188. -/
theorem C2_increment_pc_modular_witness :
    (example_state 1 1 0 0).pc < MEM_SIZE ∧
    ((increment_pc (-1) (example_state 1 1 0 0)).pc : Int) = 8191 ∧
    ((([-1, 5, -8] : List Int).foldl (fun st k => increment_pc k st)
      (example_state 1 1 0 0)).pc : Int) = 8188 :=
  ⟨by decide,
   (C2_increment_pc_modular (example_state 1 1 0 0) (by decide) (-1) [-1, 5, -8]).1.trans
     (by decide),
   (C2_increment_pc_modular (example_state 1 1 0 0) (by decide) (-1) [-1, 5, -8]).2.trans
     (by decide)⟩

/-! ## The scan loops -/

theorem scan_ways_eq_none_iff (p : Way → Bool) (cache : List Way) (base n i0 : Nat) :
    scan_ways p cache base n i0 = some none ↔
      ∀ j, i0 ≤ j → j < i0 + n → ∃ w, cache[base + j]? = some w ∧ p w = false := by
  induction n generalizing i0 with
  | zero =>
    simp only [scan_ways, true_iff]
    intro j h1 h2
    omega
  | succ n ih =>
    simp only [scan_ways, Option.bind_eq_bind]
    constructor
    · intro h
      simp only [Option.bind_eq_some] at h
      obtain ⟨w, hw, h⟩ := h
      by_cases hp : p w = true
      · simp [hp] at h
      · simp only [hp, Bool.false_eq_true, if_false] at h
        intro j h1 h2
        by_cases hj : j = i0
        · subst hj
          exact ⟨w, hw, by simpa using hp⟩
        · exact (ih (i0 + 1)).1 h j (by omega) (by omega)
    · intro h
      obtain ⟨w, hw, hp⟩ := h i0 (le_refl _) (by omega)
      simp only [hw, Option.some_bind, hp, Bool.false_eq_true, if_false]
      exact (ih (i0 + 1)).2 (fun j h1 h2 => h j (by omega) (by omega))

theorem scan_ways_eq_some_iff (p : Way → Bool) (cache : List Way) (base n i0 i : Nat) :
    scan_ways p cache base n i0 = some (some i) ↔
      i0 ≤ i ∧ i < i0 + n ∧ (∃ w, cache[base + i]? = some w ∧ p w = true) ∧
      ∀ j, i0 ≤ j → j < i → ∃ w, cache[base + j]? = some w ∧ p w = false := by
  induction n generalizing i0 with
  | zero =>
    simp only [scan_ways, Option.some.injEq]
    constructor
    · intro h; cases h
    · rintro ⟨h1, h2, -⟩; omega
  | succ n ih =>
    simp only [scan_ways, Option.bind_eq_bind]
    constructor
    · intro h
      simp only [Option.bind_eq_some] at h
      obtain ⟨w, hw, h⟩ := h
      by_cases hp : p w = true
      · simp only [hp, if_true, Option.pure_def, Option.some.injEq] at h
        subst h
        exact ⟨le_refl _, by omega, ⟨w, hw, hp⟩, fun j h1 h2 => by omega⟩
      · simp only [hp, Bool.false_eq_true, if_false] at h
        obtain ⟨h1, h2, h3, h4⟩ := (ih (i0 + 1)).1 h
        refine ⟨by omega, by omega, h3, fun j hj1 hj2 => ?_⟩
        by_cases hj : j = i0
        · subst hj
          exact ⟨w, hw, by simpa using hp⟩
        · exact h4 j (by omega) hj2
    · rintro ⟨h1, h2, ⟨w, hw, hp⟩, h4⟩
      by_cases hi : i = i0
      · subst hi
        simp [hw, hp]
      · obtain ⟨w0, hw0, hp0⟩ := h4 i0 (le_refl _) (by omega)
        simp only [hw0, Option.some_bind, hp0, Bool.false_eq_true, if_false]
        exact (ih (i0 + 1)).2 ⟨by omega, by omega, ⟨w, hw, hp⟩,
          fun j hj1 hj2 => h4 j (by omega) hj2⟩

/-! ## Dispatch on the opcode -/

theorem execute_instruction_lw {instr : Nat} (b1 a1 b2 a2 : Nat) (s : State)
    (hop : find_opcode instr = op_lw) :
    execute_instruction instr b1 a1 b2 a2 s = exec_lw instr b1 a1 b2 a2 s := by
  unfold execute_instruction
  simp [hop, op_lw, op_add, op_sub, op_or, op_and, op_slt, op_jr, op_slti]

theorem execute_instruction_sw {instr : Nat} (b1 a1 b2 a2 : Nat) (s : State)
    (hop : find_opcode instr = op_sw) :
    execute_instruction instr b1 a1 b2 a2 s = exec_sw instr b1 a1 b2 a2 s := by
  unfold execute_instruction
  simp [hop, op_sw, op_lw, op_add, op_sub, op_or, op_and, op_slt, op_jr, op_slti]

theorem row_and_tag_eq_some {pointer blocks size assoc : Nat} {rt : Nat × Nat}
    (h : row_and_tag pointer blocks size assoc = some rt) :
    blocks ≠ 0 ∧ assoc ≠ 0 ∧ size / assoc ≠ 0 ∧
    rt.1 = (pointer / blocks) % (size / assoc) ∧ rt.2 = (pointer / blocks) / (size / assoc) := by
  unfold row_and_tag at h
  split at h
  · cases h
  · next hc =>
    cases h
    simp only [not_or] at hc
    exact ⟨hc.1, hc.2.1, hc.2.2, rfl, rfl⟩

/-- C4: a store writes through.  For every `sw` word (opcode 5) executed in any
state and any cache configuration, afterwards `memory[addr]` is the value
`registers[dst]` had before (`addr` the effective address), every other memory
cell and every register is unchanged, and the output gains exactly one `L1 SW`
entry, followed by exactly one `L2 SW` entry if and only if L2 is configured
(`blocks2 != 0`), each with the `pc` of the `sw`, `addr` and the row of `addr`
in that level. -/
theorem C4_store_writes_through (instr b1 a1 b2 a2 : Nat) (s : State) (r : Bool × State)
    (hop : find_opcode instr = op_sw)
    (h : execute_instruction instr b1 a1 b2 a2 s = some r) :
    r.2.memory (pointer_of instr s) = s.registers ((instr >>> 7) &&& 7) ∧
    (∀ a, a ≠ pointer_of instr s → r.2.memory a = s.memory a) ∧
    r.2.registers = s.registers ∧
    (b2 = 0 → r.2.out = s.out ++
      [Output.log CacheName.L1 Status.SW s.pc (pointer_of instr s)
        ((pointer_of instr s / b1) % (s.L1.cache.length / a1))]) ∧
    (b2 ≠ 0 → r.2.out = s.out ++
      [Output.log CacheName.L1 Status.SW s.pc (pointer_of instr s)
        ((pointer_of instr s / b1) % (s.L1.cache.length / a1)),
       Output.log CacheName.L2 Status.SW s.pc (pointer_of instr s)
        ((pointer_of instr s / b2) % (s.L2.cache.length / a2))]) := by
  rw [execute_instruction_sw b1 a1 b2 a2 s hop] at h
  obtain ⟨-, -, hreg, hmem, rt, blk, hrt, -, -, hno, hyes⟩ := exec_sw_some h
  obtain ⟨-, -, -, hrow, -⟩ := row_and_tag_eq_some hrt
  refine ⟨?_, ?_, hreg, ?_, ?_⟩
  · rw [hmem, Function.update_same]
  · intro a ha
    rw [hmem, Function.update_noteq ha]
  · intro hb
    rw [(hno hb).2, hrow]
  · intro hb
    obtain ⟨rt2, blk2, hrt2, -, -, hout⟩ := hyes hb
    obtain ⟨-, -, -, hrow2, -⟩ := row_and_tag_eq_some hrt2
    rw [hout, hrow, hrow2]

/-- Witness of C4: `sw $1,0($0)` with `registers[1] = 7`, on one-row
direct-mapped L1 and L2, leaves `memory[0] = 7` and logs `L1 SW`, `L2 SW`. -/
theorem C4_store_writes_through_witness :
    ∃ r, execute_instruction 41088 1 1 1 1
        { example_state 1 1 1 1 with registers := fun i => if i = 1 then 7 else 0 } = some r ∧
      r.2.memory 0 = 7 ∧
      r.2.out = [Output.log CacheName.L1 Status.SW 0 0 0,
                 Output.log CacheName.L2 Status.SW 0 0 0] :=
  ⟨_, rfl,
    (C4_store_writes_through 41088 1 1 1 1
      { example_state 1 1 1 1 with registers := fun i => if i = 1 then 7 else 0 } _
      rfl rfl).1,
    (C4_store_writes_through 41088 1 1 1 1
      { example_state 1 1 1 1 with registers := fun i => if i = 1 then 7 else 0 } _
      rfl rfl).2.2.2.2 (by decide)⟩

/-! ## The recency deques -/

/-- A duplicate-free list of numbers of an interval of `n` numbers has at most
`n` elements. -/
theorem nodup_interval_length {l : List Nat} {a n : Nat} (hnd : l.Nodup)
    (h : ∀ x ∈ l, a ≤ x ∧ x < a + n) : l.length ≤ n := by
  have hsub : l ⊆ List.range' a n := fun x hx => List.mem_range'_1.2 (h x hx)
  have := (List.subperm_of_subset hnd hsub).length_le
  simpa using this

theorem row_disjoint {r row assoc k k' : Nat} (hr : r ≠ row)
    (h1 : row * assoc ≤ k) (h2 : k < row * assoc + assoc)
    (h3 : r * assoc ≤ k') (h4 : k' < r * assoc + assoc) : k' ≠ k := by
  intro e
  subst e
  rcases Nat.lt_or_gt_of_ne hr with hlt | hgt
  · have : (r + 1) * assoc ≤ row * assoc := Nat.mul_le_mul_right _ hlt
    rw [Nat.add_mul, Nat.one_mul] at this
    omega
  · have : (row + 1) * assoc ≤ r * assoc := Nat.mul_le_mul_right _ hgt
    rw [Nat.add_mul, Nat.one_mul] at this
    omega

theorem row_index_lt {row rows assoc k : Nat} (hrow : row < rows)
    (h2 : k < row * assoc + assoc) : k < rows * assoc := by
  have : (row + 1) * assoc ≤ rows * assoc := Nat.mul_le_mul_right _ hrow
  rw [Nat.add_mul, Nat.one_mul] at this
  omega

/-- The new deque of a row after `updateMRU` on way `k`, when no pop
happens. -/
theorem updateMRU_eq_some {c c' : CacheLevel} {row k assoc : Nat}
    (h : updateMRU c row k assoc = some c') :
    ∃ d, c.MRU[row]? = some d ∧ c'.cache = c.cache ∧ c'.blockdata = c.blockdata ∧
      c'.touches = k :: c.touches ∧
      c'.MRU = c.MRU.set row
        (if (d.filter (fun x => x ≠ k) ++ [k]).length > assoc
          then (d.filter (fun x => x ≠ k) ++ [k]).tail
          else d.filter (fun x => x ≠ k) ++ [k]) := by
  simp only [updateMRU, Option.bind_eq_bind, Option.bind_eq_some, Option.pure_def,
    Option.some.injEq] at h
  obtain ⟨d, hd, rfl⟩ := h
  exact ⟨d, hd, rfl, rfl, rfl, rfl⟩

/-- The deque after a touch of way `k`: the other elements in their order, then
`k`. -/
theorem touched_deque_props {d : List Nat} {k : Nat} (hnd : d.Nodup) :
    (d.filter (fun x => x ≠ k) ++ [k]).Nodup ∧
    ∀ x, x ∈ d.filter (fun x => x ≠ k) ++ [k] ↔ x = k ∨ (x ≠ k ∧ x ∈ d) := by
  constructor
  · rw [List.nodup_append]
    refine ⟨hnd.filter _, List.nodup_singleton k, ?_⟩
    intro x hx hx'
    simp only [List.mem_filter, List.mem_singleton] at hx hx'
    simp [hx'] at hx
  · intro x
    simp only [List.mem_append, List.mem_filter, List.mem_singleton, decide_eq_true_eq]
    tauto

/-- `updateMRU` on way `k` of `row`, after the tables were changed at index `k`
only and way `k` is valid with a full block, keeps the level consistent, and
the new deque of the row is the old one with `k` moved to the back. -/
theorem touch_inv {c : CacheLevel} (c1 : CacheLevel) {c' : CacheLevel}
    {assoc blocks row k : Nat}
    (inv : LevelInv c assoc blocks)
    (hk1 : row * assoc ≤ k) (hk2 : k < row * assoc + assoc)
    (hmru : c1.MRU = c.MRU) (hlen : c1.cache.length = c.cache.length)
    (hlenb : c1.blockdata.length = c.blockdata.length)
    (hc : ∀ k', k' ≠ k → c1.cache[k']? = c.cache[k']?)
    (hb : ∀ k', k' ≠ k → c1.blockdata[k']? = c.blockdata[k']?)
    (hw : ∃ w, c1.cache[k]? = some w ∧ w.valid ≠ 0)
    (hblk : ∃ b, c1.blockdata[k]? = some b ∧ b.length = blocks)
    (h : updateMRU c1 row k assoc = some c') :
    LevelInv c' assoc blocks ∧ c'.cache = c1.cache ∧ c'.blockdata = c1.blockdata ∧
    c'.touches = k :: c1.touches ∧
    ∃ d, c.MRU[row]? = some d ∧
      c'.MRU = c.MRU.set row (d.filter (fun x => x ≠ k) ++ [k]) := by
  obtain ⟨d, hd, hcache, hdata, htouch, hM⟩ := updateMRU_eq_some h
  rw [hmru] at hd hM
  obtain ⟨hnd1, hmem1⟩ := touched_deque_props (k := k) (inv.mru_nodup row d hd)
  have hin : ∀ x ∈ d.filter (fun x => x ≠ k) ++ [k],
      row * assoc ≤ x ∧ x < row * assoc + assoc := by
    intro x hx
    rcases (hmem1 x).1 hx with rfl | ⟨-, hxd⟩
    · exact ⟨hk1, hk2⟩
    · have := (inv.mru_mem row d hd x).1 hxd
      exact ⟨this.1, this.2.1⟩
  have hlen1 := nodup_interval_length hnd1 hin
  rw [if_neg (by omega)] at hM
  have hrowlt : row < c.MRU.length := by
    rcases Nat.lt_or_ge row c.MRU.length with h' | h'
    · exact h'
    · rw [List.getElem?_eq_none h'] at hd; cases hd
  refine ⟨?_, hcache, hdata, htouch, d, hd, hM⟩
  constructor
  · rw [hcache, hM, hlen, List.length_set]; exact inv.cache_length
  · rw [hcache, hdata, hlenb, hlen]; exact inv.blockdata_length
  · intro r dr hr
    rw [hM, List.getElem?_set] at hr
    split at hr
    · next e =>
      subst e
      cases hr
      exact hnd1
    · exact inv.mru_nodup r dr hr
  · intro r dr hr x
    rw [hM, List.getElem?_set] at hr
    rw [hcache]
    split at hr
    · next e =>
      subst e
      cases hr
      rw [hmem1 x]
      constructor
      · rintro (rfl | ⟨hne, hxd⟩)
        · exact ⟨hk1, hk2, hw⟩
        · have := (inv.mru_mem row d hd x).1 hxd
          rw [hc x hne]
          exact this
      · rintro ⟨h1, h2, h3⟩
        by_cases hx : x = k
        · exact Or.inl hx
        · rw [hc x hx] at h3
          exact Or.inr ⟨hx, (inv.mru_mem row d hd x).2 ⟨h1, h2, h3⟩⟩
    · next e =>
      rw [inv.mru_mem r dr hr x]
      constructor
      · rintro ⟨h1, h2, h3⟩
        rw [hc x (row_disjoint (Ne.symm e) hk1 hk2 h1 h2)]
        exact ⟨h1, h2, h3⟩
      · rintro ⟨h1, h2, h3⟩
        rw [hc x (row_disjoint (Ne.symm e) hk1 hk2 h1 h2)] at h3
        exact ⟨h1, h2, h3⟩
  · intro x w hxw hv
    rw [hcache] at hxw
    rw [hdata]
    by_cases hx : x = k
    · subst hx; exact hblk
    · rw [hc x hx] at hxw
      rw [hb x hx]
      exact inv.data_length x w hxw hv

theorem getElem?_isSome_lt {α : Type} {l : List α} {k : Nat} {x : α} (h : l[k]? = some x) :
    k < l.length := by
  rcases Nat.lt_or_ge k l.length with h' | h'
  · exact h'
  · rw [List.getElem?_eq_none h'] at h; cases h

/-- What `install` does on a consistent level: the way written is `k`, either
the first free way of the row or, when the row has none, the front of the
row's deque; the way becomes valid with the new tag, its block data is the new
block, it moves to the back of the deque, and the level stays consistent. -/
theorem install_spec {c c' : CacheLevel} {assoc blocks row tag : Nat} {block : List Nat}
    (inv : LevelInv c assoc blocks) (hblk : block.length = blocks)
    (h : install c row assoc tag block = some c') :
    LevelInv c' assoc blocks ∧
    ∃ k d w, c.MRU[row]? = some d ∧ c.cache[k]? = some w ∧
      row * assoc ≤ k ∧ k < row * assoc + assoc ∧
      ((∃ i, scan_free c.cache (row * assoc) assoc 0 = some (some i) ∧ k = row * assoc + i ∧
          w.valid = 0) ∨
       (scan_free c.cache (row * assoc) assoc 0 = some none ∧ d.head? = some k ∧
          w.valid ≠ 0)) ∧
      c'.cache = c.cache.set k
        { w with valid := (if w.valid = 0 then 1 else w.valid), tag := tag } ∧
      c'.blockdata = c.blockdata.set k block ∧
      c'.MRU = c.MRU.set row (d.filter (fun x => x ≠ k) ++ [k]) ∧
      c'.touches = k :: c.touches := by
  simp only [install, Option.bind_eq_bind, Option.bind_eq_some] at h
  obtain ⟨free, hfree, h⟩ := h
  cases free with
  | some i =>
    simp only [Option.bind_eq_some] at h
    obtain ⟨w, hw, b0, hb0, h⟩ := h
    have hs := (scan_ways_eq_some_iff _ _ _ _ _ _).1 hfree
    obtain ⟨-, hi, ⟨w1, hw1, hv⟩, -⟩ := hs
    rw [hw] at hw1
    cases hw1
    simp only [decide_eq_true_eq] at hv
    have hklt := getElem?_isSome_lt hw
    have hblt := getElem?_isSome_lt hb0
    obtain ⟨hinv, hcache, hdata, htouch, d, hd, hM⟩ :=
      touch_inv { c with
          cache := c.cache.set (row * assoc + i) { w with valid := 1, tag := tag },
          blockdata := c.blockdata.set (row * assoc + i) block }
        inv (Nat.le_add_right _ _) (by omega) rfl (by simp) (by simp)
        (fun k' hk' => by simp [List.getElem?_set, Ne.symm hk'])
        (fun k' hk' => by simp [List.getElem?_set, Ne.symm hk'])
        ⟨{ w with valid := 1, tag := tag }, by simp [List.getElem?_set, hklt], by simp⟩
        ⟨block, by simp [List.getElem?_set, hblt], hblk⟩ h
    exact ⟨hinv, row * assoc + i, d, w, hd, hw, Nat.le_add_right _ _, by omega,
      Or.inl ⟨i, hfree, rfl, hv⟩, by rw [hcache, if_pos hv], hdata, hM, htouch⟩
  | none =>
    simp only [Option.bind_eq_some] at h
    obtain ⟨d, hd, k, hk, w, hw, b0, hb0, h⟩ := h
    have hkd : k ∈ d := List.mem_of_mem_head? hk
    obtain ⟨hk1, hk2, w1, hw1, hv⟩ := (inv.mru_mem row d hd k).1 hkd
    rw [hw] at hw1
    cases hw1
    have hklt := getElem?_isSome_lt hw
    have hblt := getElem?_isSome_lt hb0
    obtain ⟨hinv, hcache, hdata, htouch, d', hd', hM⟩ :=
      touch_inv { c with
          cache := c.cache.set k { w with tag := tag },
          blockdata := c.blockdata.set k block }
        inv hk1 hk2 rfl (by simp) (by simp)
        (fun k' hk' => by simp [List.getElem?_set, Ne.symm hk'])
        (fun k' hk' => by simp [List.getElem?_set, Ne.symm hk'])
        ⟨{ w with tag := tag }, by simp [List.getElem?_set, hklt], hv⟩
        ⟨block, by simp [List.getElem?_set, hblt], hblk⟩ h
    rw [hd] at hd'
    cases hd'
    exact ⟨hinv, k, d, w, hd, hw, hk1, hk2,
      Or.inr ⟨hfree, hk, hv⟩, by rw [hcache, if_neg hv], hdata, hM, htouch⟩

/-- What a cache hit does to a consistent level: the tables are unchanged and
the hit way moves to the back of the deque of its row. -/
theorem hit_spec {c c' : CacheLevel} {assoc blocks row tag i : Nat}
    (inv : LevelInv c assoc blocks)
    (hscan : scan_hit c.cache (row * assoc) tag assoc 0 = some (some i))
    (h : updateMRU c row (row * assoc + i) assoc = some c') :
    LevelInv c' assoc blocks ∧ c'.cache = c.cache ∧ c'.blockdata = c.blockdata ∧
    c'.touches = (row * assoc + i) :: c.touches ∧
    ∃ d, c.MRU[row]? = some d ∧
      c'.MRU = c.MRU.set row (d.filter (fun x => x ≠ row * assoc + i) ++ [row * assoc + i]) := by
  obtain ⟨-, hi, ⟨w, hw, hp⟩, -⟩ := (scan_ways_eq_some_iff _ _ _ _ _ _).1 hscan
  simp only [decide_eq_true_eq] at hp
  exact touch_inv c inv (Nat.le_add_right _ _) (by omega) rfl rfl rfl
    (fun _ _ => rfl) (fun _ _ => rfl) ⟨w, hw, hp.1⟩ (inv.data_length _ w hw hp.1) h

theorem fetch_block_eq_some {memory : Nat → Nat} {start blocks : Nat} {blk : List Nat}
    (h : fetch_block memory start blocks = some blk) :
    blk.length = blocks ∧ (∀ i, i < blocks → start + i < MEM_SIZE) ∧
    ∀ i, i < blocks → blk[i]? = some (memory (start + i)) := by
  unfold fetch_block at h
  split at h
  · next hc =>
    cases h
    refine ⟨by simp, hc, fun i hi => ?_⟩
    simp [List.getElem?_map, List.getElem?_range hi]
  · cases h

/-- The instructions other than `lw` and `sw` leave both cache levels and
memory as they are. -/
theorem execute_instruction_levels {instr b1 a1 b2 a2 : Nat} {s : State} {r : Bool × State}
    (h : execute_instruction instr b1 a1 b2 a2 s = some r)
    (hlw : find_opcode instr ≠ op_lw) (hsw : find_opcode instr ≠ op_sw) :
    r.2.L1 = s.L1 ∧ r.2.L2 = s.L2 ∧ r.2.memory = s.memory := by
  revert r
  apply execute_instruction_cases
    (fun o => ∀ {r : Bool × State}, o = some r →
      r.2.L1 = s.L1 ∧ r.2.L2 = s.L2 ∧ r.2.memory = s.memory)
  case hlw => intro e; exact absurd e hlw
  case hsw => intro e; exact absurd e hsw
  case hinv => intro r h; cases h; exact ⟨rfl, rfl, rfl⟩
  all_goals
    intro _ r h
    cases h
    simp only [exec_add, exec_sub, exec_or, exec_and, exec_slt, exec_jr, exec_slti, exec_jeq,
      exec_addi, exec_j, exec_jal]
    first
      | exact ⟨rfl, rfl, rfl⟩
      | (split_ifs <;> exact ⟨rfl, rfl, rfl⟩)

theorem length_flatMap_replicate {α : Type} (rows assoc : Nat) (f : Nat → α) :
    ((List.range rows).flatMap (fun i => List.replicate assoc (f i))).length = rows * assoc := by
  induction rows with
  | zero => simp
  | succ n ih =>
    rw [List.range_succ, List.flatMap_append, List.length_append, ih]
    simp [Nat.add_mul]

/-- The tables `main` builds are consistent. -/
theorem make_level_inv (rows assoc blocks : Nat) : LevelInv (make_level rows assoc) assoc blocks := by
  have hvalid : ∀ (k : Nat) (w : Way), (make_level rows assoc).cache[k]? = some w → w.valid = 0 := by
    intro k w hw
    have hmem : w ∈ (make_level rows assoc).cache := List.mem_iff_getElem?.2 ⟨k, hw⟩
    simp only [make_level, List.mem_flatMap, List.mem_range, List.mem_replicate] at hmem
    obtain ⟨i, -, -, rfl⟩ := hmem
    rfl
  have hmru : ∀ (r : Nat) (d : List Nat), (make_level rows assoc).MRU[r]? = some d → d = [] := by
    intro r d hd
    have hmem : d ∈ (make_level rows assoc).MRU := List.mem_iff_getElem?.2 ⟨r, hd⟩
    simp only [make_level, List.mem_map, List.mem_range] at hmem
    obtain ⟨i, -, rfl⟩ := hmem
    rfl
  constructor
  · show ((List.range rows).flatMap
        (fun i => List.replicate assoc ({ row := i, valid := 0, tag := 0 } : Way))).length
      = ((List.range rows).map (fun _ => ([] : List Nat))).length * assoc
    rw [length_flatMap_replicate, List.length_map, List.length_range]
  · show ((List.range rows).flatMap (fun _ => List.replicate assoc ([] : List Nat))).length
      = ((List.range rows).flatMap
        (fun i => List.replicate assoc ({ row := i, valid := 0, tag := 0 } : Way))).length
    rw [length_flatMap_replicate, length_flatMap_replicate]
  · intro r d hd
    rw [hmru r d hd]
    exact List.nodup_nil
  · intro r d hd k
    rw [hmru r d hd]
    constructor
    · intro h; cases h
    · rintro ⟨-, -, w, hw, hv⟩
      exact absurd (hvalid k w hw) hv
  · intro k w hw hv
    exact absurd (hvalid k w hw) hv

theorem no_level_inv (assoc blocks : Nat) : LevelInv no_level assoc blocks := by
  constructor
  · simp [no_level]
  · simp [no_level]
  · intro r d hd; simp [no_level] at hd
  · intro r d hd; simp [no_level] at hd
  · intro k w hw; simp [no_level] at hw

/-- One instruction keeps both cache levels consistent. -/
theorem execute_instruction_inv {instr b1 a1 b2 a2 : Nat} {s : State} {r : Bool × State}
    (h : execute_instruction instr b1 a1 b2 a2 s = some r)
    (i1 : LevelInv s.L1 a1 b1) (i2 : LevelInv s.L2 a2 b2) :
    LevelInv r.2.L1 a1 b1 ∧ LevelInv r.2.L2 a2 b2 := by
  by_cases hlw : find_opcode instr = op_lw
  · rw [execute_instruction_lw b1 a1 b2 a2 s hlw] at h
    obtain ⟨rt, hrt, -, -, -, hc⟩ := exec_lw_cases h
    rcases hc with ⟨i, hr, hscan, hh, -, hL1, hL2, -⟩ |
      ⟨-, -, rt2, i, hr, -, hscan, hh, -, hL1, hL2, -⟩ |
      ⟨-, -, -, ⟨blk, hblk, hins⟩, hL2, -⟩ |
      ⟨-, -, rt2, -, -, -, ⟨blk, hblk, hins⟩, ⟨blk2, hblk2, hins2⟩, -⟩
    · rw [hL1, hL2]
      exact ⟨(hit_spec i1 hscan (hit_read_eq_some.1 hh).1).1, i2⟩
    · rw [hL1, hL2]
      exact ⟨i1, (hit_spec i2 hscan (hit_read_eq_some.1 hh).1).1⟩
    · rw [hL2]
      exact ⟨(install_spec i1 (fetch_block_eq_some hblk).1 hins).1, i2⟩
    · exact ⟨(install_spec i1 (fetch_block_eq_some hblk).1 hins).1,
        (install_spec i2 (fetch_block_eq_some hblk2).1 hins2).1⟩
  · by_cases hsw : find_opcode instr = op_sw
    · rw [execute_instruction_sw b1 a1 b2 a2 s hsw] at h
      obtain ⟨-, -, -, -, rt, blk, -, hblk, hins, hno, hyes⟩ := exec_sw_some h
      refine ⟨(install_spec i1 (fetch_block_eq_some hblk).1 hins).1, ?_⟩
      by_cases hb : b2 = 0
      · rw [(hno hb).1]; exact i2
      · obtain ⟨rt2, blk2, -, hblk2, hins2, -⟩ := hyes hb
        exact (install_spec i2 (fetch_block_eq_some hblk2).1 hins2).1
    · obtain ⟨e1, e2, -⟩ := execute_instruction_levels h hlw hsw
      rw [e1, e2]
      exact ⟨i1, i2⟩

/-! ## Reachable states -/

theorem main_init_inv {cfg : Config} {memory : Nat → Nat} {s : State}
    (h : main_init cfg memory = some s) :
    LevelInv s.L1 cfg.L1.assoc cfg.L1.blocksize ∧ LevelInv s.L2 cfg.assoc2 cfg.blocks2 := by
  unfold main_init at h
  split at h
  · cases h
  · cases hL2 : cfg.L2 with
    | none =>
      simp only [hL2, Option.some.injEq] at h
      subst h
      exact ⟨make_level_inv _ _ _, no_level_inv _ _⟩
    | some l2 =>
      simp only [hL2] at h
      split at h
      · cases h
      · simp only [Option.some.injEq] at h
        subst h
        simp only [Config.assoc2, Config.blocks2, hL2]
        exact ⟨make_level_inv _ _ _, make_level_inv _ _ _⟩

theorem run_words_inv {cfg : Config} (ws : List Nat) {s s' : State}
    (h : run_words cfg ws s = some s')
    (i1 : LevelInv s.L1 cfg.L1.assoc cfg.L1.blocksize)
    (i2 : LevelInv s.L2 cfg.assoc2 cfg.blocks2) :
    LevelInv s'.L1 cfg.L1.assoc cfg.L1.blocksize ∧ LevelInv s'.L2 cfg.assoc2 cfg.blocks2 := by
  induction ws generalizing s with
  | nil =>
    simp only [run_words, Option.some.injEq] at h
    subst h
    exact ⟨i1, i2⟩
  | cons w ws ih =>
    simp only [run_words, Option.bind_eq_bind, Option.bind_eq_some] at h
    obtain ⟨r, hr, hrest⟩ := h
    obtain ⟨j1, j2⟩ := execute_instruction_inv hr i1 i2
    exact ih hrest j1 j2

/-- In every reachable state both cache levels are consistent. -/
theorem reachable_inv {cfg : Config} {s : State} (h : Reachable cfg s) :
    LevelInv s.L1 cfg.L1.assoc cfg.L1.blocksize ∧ LevelInv s.L2 cfg.assoc2 cfg.blocks2 := by
  obtain ⟨memory, s0, ws, h0, hrun⟩ := h
  obtain ⟨i1, i2⟩ := main_init_inv h0
  exact run_words_inv ws hrun i1 i2

theorem reachable_step {cfg : Config} {s : State} {w : Nat} {r : Bool × State}
    (h : Reachable cfg s) (hstep : step cfg w s = some r) : Reachable cfg r.2 := by
  obtain ⟨memory, s0, ws, h0, hrun⟩ := h
  refine ⟨memory, s0, ws ++ [w], h0, ?_⟩
  clear h0
  induction ws generalizing s0 with
  | nil =>
    simp only [run_words, Option.some.injEq] at hrun
    subst hrun
    simp [run_words, hstep]
  | cons w' ws ih =>
    simp only [run_words, Option.bind_eq_bind, Option.bind_eq_some] at hrun
    obtain ⟨r', hr', hrest⟩ := hrun
    simp only [List.cons_append, run_words, Option.bind_eq_bind, hr', Option.some_bind]
    exact ih r'.2 hrest

/-- The deque of a row of a consistent level: no duplicates, exactly the
indices of the valid ways of the row, at most `assoc` elements. -/
theorem LevelInv.deque {c : CacheLevel} {assoc blocks : Nat} (inv : LevelInv c assoc blocks)
    {r : Nat} {d : List Nat} (hd : c.MRU[r]? = some d) :
    d.Nodup ∧
    (∀ k, k ∈ d ↔
      (r * assoc ≤ k ∧ k < r * assoc + assoc ∧ ∃ w, c.cache[k]? = some w ∧ w.valid ≠ 0)) ∧
    d.length ≤ assoc := by
  refine ⟨inv.mru_nodup r d hd, inv.mru_mem r d hd, ?_⟩
  apply nodup_interval_length (inv.mru_nodup r d hd) (a := r * assoc)
  intro x hx
  have := (inv.mru_mem r d hd x).1 hx
  exact ⟨this.1, this.2.1⟩

/-- C3: in every state reachable from the empty caches by any sequence of
instruction words, for every row `r` of L1 and of L2 the recency deque
(`L1MRU[r]`, `L2MRU[r]`) has no duplicates, its elements are exactly the
indices of the ways of that row whose valid flag is set (the ways of row `r`
are the entries `r * assoc + i`, `i < assoc`, of the cache table, and these
indices are what the deque stores), and so its length never exceeds the
associativity of the level. -/
theorem C3_recency_list_invariant (cfg : Config) (s : State) (hreach : Reachable cfg s) :
    (∀ (r : Nat) (d : List Nat), s.L1.MRU[r]? = some d →
      d.Nodup ∧
      (∀ k, k ∈ d ↔ (r * cfg.L1.assoc ≤ k ∧ k < r * cfg.L1.assoc + cfg.L1.assoc ∧
        ∃ w, s.L1.cache[k]? = some w ∧ w.valid ≠ 0)) ∧
      d.length ≤ cfg.L1.assoc) ∧
    (∀ (r : Nat) (d : List Nat), s.L2.MRU[r]? = some d →
      d.Nodup ∧
      (∀ k, k ∈ d ↔ (r * cfg.assoc2 ≤ k ∧ k < r * cfg.assoc2 + cfg.assoc2 ∧
        ∃ w, s.L2.cache[k]? = some w ∧ w.valid ≠ 0)) ∧
      d.length ≤ cfg.assoc2) :=
  ⟨fun _ _ hd => (reachable_inv hreach).1.deque hd,
   fun _ _ hd => (reachable_inv hreach).2.deque hd⟩

/-- Witness of C3: two-level configuration `2,2,1,4,2,1` after `lw` of the
addresses 0, 1, 0 and `sw` to 2: the deques are `[[0, 1]]` in L1 and
`[[0, 1], [2]]` in L2. -/
theorem C3_recency_list_invariant_witness :
    ∃ s, run_words ⟨⟨2, 2, 1⟩, some ⟨4, 2, 1⟩⟩ [32768, 32769, 32768, 40962]
        (example_state 1 2 2 2) = some s ∧
      s.L1.MRU = [[0, 1]] ∧ s.L2.MRU = [[0, 1], [2]] ∧
      (∀ (r : Nat) (d : List Nat), s.L2.MRU[r]? = some d →
        d.Nodup ∧
        (∀ k, k ∈ d ↔ (r * 2 ≤ k ∧ k < r * 2 + 2 ∧
          ∃ w, s.L2.cache[k]? = some w ∧ w.valid ≠ 0)) ∧
        d.length ≤ 2) :=
  ⟨_, rfl, by decide, by decide,
    (C3_recency_list_invariant ⟨⟨2, 2, 1⟩, some ⟨4, 2, 1⟩⟩ _
      ⟨fun _ => 0, example_state 1 2 2 2, [32768, 32769, 32768, 40962], rfl, rfl⟩).2⟩

/-! ## Executions that are defined -/

/-- A scan loop over ways that are all in the table returns. -/
theorem scan_ways_total (p : Way → Bool) (cache : List Way) (base n i0 : Nat)
    (h : ∀ j, i0 ≤ j → j < i0 + n → base + j < cache.length) :
    ∃ res, scan_ways p cache base n i0 = some res := by
  induction n generalizing i0 with
  | zero => exact ⟨none, rfl⟩
  | succ n ih =>
    have hlt := h i0 (le_refl _) (by omega)
    simp only [scan_ways, Option.bind_eq_bind, List.getElem?_eq_getElem hlt, Option.some_bind]
    by_cases hp : p cache[base + i0] = true
    · exact ⟨some i0, by simp [hp]⟩
    · obtain ⟨res, hres⟩ := ih (i0 + 1) (fun j h1 h2 => h j (by omega) (by omega))
      exact ⟨res, by simp [hp, hres]⟩

/-- The row computed for an address is a row of the level, and its ways are in
the table. -/
theorem LevelInv.row_in_range {c : CacheLevel} {assoc blocks p : Nat} {rt : Nat × Nat}
    (inv : LevelInv c assoc blocks)
    (hrt : row_and_tag p blocks c.cache.length assoc = some rt) :
    rt.1 < c.MRU.length ∧ ∀ i, i < assoc → rt.1 * assoc + i < c.cache.length := by
  obtain ⟨-, ha, hrows, hrow, -⟩ := row_and_tag_eq_some hrt
  have hpos : 0 < assoc := Nat.pos_of_ne_zero ha
  have hdiv : c.cache.length / assoc = c.MRU.length := by
    rw [inv.cache_length, Nat.mul_div_cancel _ hpos]
  have hlt : rt.1 < c.MRU.length := by
    rw [hrow, hdiv]
    exact Nat.mod_lt _ (by rw [← hdiv]; exact Nat.pos_of_ne_zero hrows)
  refine ⟨hlt, fun i hi => ?_⟩
  rw [inv.cache_length]
  exact row_index_lt hlt (by omega)

/-- On a consistent level the body of a hit is defined. -/
theorem hit_read_total {c : CacheLevel} {assoc blocks row tag i : Nat}
    (inv : LevelInv c assoc blocks) (hb : blocks ≠ 0) (hrow : row < c.MRU.length)
    (hscan : scan_hit c.cache (row * assoc) tag assoc 0 = some (some i))
    (p d : Nat) (regs : Nat → Nat) :
    ∃ hr, hit_read c row assoc i p blocks d regs = some hr := by
  obtain ⟨-, hi, ⟨w, hw, hp⟩, -⟩ := (scan_ways_eq_some_iff _ _ _ _ _ _).1 hscan
  simp only [decide_eq_true_eq] at hp
  obtain ⟨blk, hblk, hlen⟩ := inv.data_length _ w hw hp.1
  have hoff : p % blocks < blk.length := by
    rw [hlen]; exact Nat.mod_lt _ (Nat.pos_of_ne_zero hb)
  have hM : ∃ c', updateMRU c row (row * assoc + i) assoc = some c' := by
    simp [updateMRU, List.getElem?_eq_getElem hrow]
  obtain ⟨c', hc'⟩ := hM
  by_cases hd : d = 0
  · exact ⟨(regs, c'), hit_read_eq_some.2 ⟨hc', Or.inl ⟨hd, rfl⟩⟩⟩
  · exact ⟨(Function.update regs d blk[p % blocks], c'),
      hit_read_eq_some.2 ⟨hc', Or.inr ⟨hd, blk, _, hblk, List.getElem?_eq_getElem hoff, rfl⟩⟩⟩

/-- The value a hit reads: the word at the offset of the address in the block
data of the hit way. -/
theorem hit_read_value {c : CacheLevel} {row assoc i p blocks d : Nat} {regs : Nat → Nat}
    {hr : (Nat → Nat) × CacheLevel}
    (h : hit_read c row assoc i p blocks d regs = some hr) (hd : d ≠ 0) :
    ∃ blk v, c.blockdata[row * assoc + i]? = some blk ∧ blk[p % blocks]? = some v ∧
      hr.1 = Function.update regs d v := by
  rcases (hit_read_eq_some.1 h).2 with ⟨h0, -⟩ | ⟨-, blk, v, h1, h2, h3⟩
  · exact absurd h0 hd
  · exact ⟨blk, v, h1, h2, h3⟩

theorem exec_lw_L1_hit_defined {instr b1 a1 b2 a2 : Nat} {s : State} {rt : Nat × Nat} {i : Nat}
    {hr : (Nat → Nat) × CacheLevel}
    (hrt : row_and_tag (pointer_of instr s) b1 s.L1.cache.length a1 = some rt)
    (hscan : scan_hit s.L1.cache (rt.1 * a1) rt.2 a1 0 = some (some i))
    (hh : hit_read s.L1 rt.1 a1 i (pointer_of instr s) b1 ((instr >>> 7) &&& 7) s.registers
      = some hr) :
    ∃ r, exec_lw instr b1 a1 b2 a2 s = some r := by
  simp [exec_lw, hrt, hscan, hh]

theorem exec_lw_L2_hit_defined {instr b1 a1 b2 a2 : Nat} {s : State} {rt rt2 : Nat × Nat}
    {i : Nat} {hr : (Nat → Nat) × CacheLevel}
    (hrt : row_and_tag (pointer_of instr s) b1 s.L1.cache.length a1 = some rt)
    (hscan : scan_hit s.L1.cache (rt.1 * a1) rt.2 a1 0 = some none)
    (hb : b2 ≠ 0)
    (hrt2 : row_and_tag (pointer_of instr s) b2 s.L2.cache.length a2 = some rt2)
    (hscan2 : scan_hit s.L2.cache (rt2.1 * a2) rt2.2 a2 0 = some (some i))
    (hh : hit_read s.L2 rt2.1 a2 i (pointer_of instr s) b2 ((instr >>> 7) &&& 7) s.registers
      = some hr) :
    ∃ r, exec_lw instr b1 a1 b2 a2 s = some r := by
  simp [exec_lw, lw_L2, hrt, hscan, hb, hrt2, hscan2, hh]

/-- The hit loop on a row of a consistent level: it returns, with `none`
exactly when no way of the row is valid with the tag. -/
theorem scan_hit_row {c : CacheLevel} {assoc blocks p : Nat} {rt : Nat × Nat}
    (inv : LevelInv c assoc blocks)
    (hrt : row_and_tag p blocks c.cache.length assoc = some rt) :
    (scan_hit c.cache (rt.1 * assoc) rt.2 assoc 0 = some none ∧
      ∀ i, i < assoc → ∀ w, c.cache[rt.1 * assoc + i]? = some w →
        ¬(w.valid ≠ 0 ∧ w.tag = rt.2)) ∨
    (∃ i, scan_hit c.cache (rt.1 * assoc) rt.2 assoc 0 = some (some i) ∧ i < assoc ∧
      ∃ w, c.cache[rt.1 * assoc + i]? = some w ∧ w.valid ≠ 0 ∧ w.tag = rt.2) := by
  obtain ⟨res, hres⟩ := scan_ways_total (fun w => decide (w.valid ≠ 0 ∧ w.tag = rt.2))
    c.cache (rt.1 * assoc) assoc 0
    (fun j _ hj => (inv.row_in_range hrt).2 j (by omega))
  cases res with
  | none =>
    left
    refine ⟨hres, fun i hi w hw => ?_⟩
    obtain ⟨w', hw', hp⟩ := (scan_ways_eq_none_iff _ _ _ _ _).1 hres i (Nat.zero_le _) (by omega)
    rw [hw] at hw'
    cases hw'
    simpa using hp
  | some i =>
    right
    obtain ⟨-, hi, ⟨w, hw, hp⟩, -⟩ := (scan_ways_eq_some_iff _ _ _ _ _ _).1 hres
    simp only [decide_eq_true_eq] at hp
    exact ⟨i, hres, by omega, w, hw, hp⟩

/-- An `lw` whose address misses in L1 and is present in L2, on consistent
levels: the execution is defined, logs `L1 MISS`, `L2 HIT`, reads the register
from the first matching L2 way and changes neither L1 nor the cache table and
block data of L2. -/
theorem lw_L2_hit_step {instr b1 a1 b2 a2 : Nat} {s : State} {rt rt2 : Nat × Nat}
    (i1 : LevelInv s.L1 a1 b1) (i2 : LevelInv s.L2 a2 b2) (hb : b2 ≠ 0)
    (hrt : row_and_tag (pointer_of instr s) b1 s.L1.cache.length a1 = some rt)
    (hrt2 : row_and_tag (pointer_of instr s) b2 s.L2.cache.length a2 = some rt2)
    (hmiss : ∀ i, i < a1 → ∀ w, s.L1.cache[rt.1 * a1 + i]? = some w →
      ¬(w.valid ≠ 0 ∧ w.tag = rt.2))
    (hhit : ∃ i, i < a2 ∧ ∃ w, s.L2.cache[rt2.1 * a2 + i]? = some w ∧
      w.valid ≠ 0 ∧ w.tag = rt2.2) :
    ∃ r i, exec_lw instr b1 a1 b2 a2 s = some r ∧ r.1 = false ∧
      r.2.pc = (increment_pc 1 s).pc ∧ r.2.memory = s.memory ∧ r.2.L1 = s.L1 ∧
      r.2.L2.cache = s.L2.cache ∧ r.2.L2.blockdata = s.L2.blockdata ∧
      r.2.out = s.out ++
        [Output.log CacheName.L1 Status.MISS s.pc (pointer_of instr s) rt.1,
         Output.log CacheName.L2 Status.HIT s.pc (pointer_of instr s) rt2.1] ∧
      i < a2 ∧
      (∃ w, s.L2.cache[rt2.1 * a2 + i]? = some w ∧ w.valid ≠ 0 ∧ w.tag = rt2.2) ∧
      ((instr >>> 7) &&& 7 = 0 → r.2.registers = s.registers) ∧
      ((instr >>> 7) &&& 7 ≠ 0 → ∃ blk v, s.L2.blockdata[rt2.1 * a2 + i]? = some blk ∧
        blk[pointer_of instr s % b2]? = some v ∧
        r.2.registers = Function.update s.registers ((instr >>> 7) &&& 7) v) := by
  have hscan1 : scan_hit s.L1.cache (rt.1 * a1) rt.2 a1 0 = some none := by
    rcases scan_hit_row i1 hrt with ⟨h, -⟩ | ⟨i, -, hi, w, hw, hp⟩
    · exact h
    · exact absurd hp (hmiss i hi w hw)
  obtain ⟨i, hscan2, hi, hw⟩ : ∃ i, scan_hit s.L2.cache (rt2.1 * a2) rt2.2 a2 0 = some (some i) ∧
      i < a2 ∧ ∃ w, s.L2.cache[rt2.1 * a2 + i]? = some w ∧ w.valid ≠ 0 ∧ w.tag = rt2.2 := by
    rcases scan_hit_row i2 hrt2 with ⟨-, h⟩ | h
    · obtain ⟨i, hi, w, hw, hp⟩ := hhit
      exact absurd hp (h i hi w hw)
    · exact h
  obtain ⟨hr, hh⟩ := hit_read_total i2 hb (i2.row_in_range hrt2).1 hscan2
    (pointer_of instr s) ((instr >>> 7) &&& 7) s.registers
  obtain ⟨r, hex⟩ : ∃ r, exec_lw instr b1 a1 b2 a2 s = some r :=
    exec_lw_L2_hit_defined hrt hscan1 hb hrt2 hscan2 hh
  refine ⟨r, i, hex, ?_⟩
  obtain ⟨rt', hrt', hfalse, hpc, hmem, hc⟩ := exec_lw_cases hex
  rw [hrt] at hrt'
  cases hrt'
  rcases hc with ⟨i', hr', hs, -⟩ | ⟨-, -, rt2', i', hr', hrt2', hs', hh', hreg, hL1, hL2, hout⟩ |
    ⟨-, hb0, -⟩ | ⟨-, -, rt2', hrt2', hs', -⟩
  · rw [hscan1] at hs; cases hs
  · rw [hrt2] at hrt2'
    cases hrt2'
    rw [hscan2] at hs'
    cases hs'
    rw [hh] at hh'
    cases hh'
    obtain ⟨_, hcache, hdata, -⟩ := hit_spec i2 hscan2 (hit_read_eq_some.1 hh).1
    refine ⟨hfalse, hpc, hmem, hL1, ?_, ?_, hout, hi, hw, ?_, ?_⟩
    · rw [hL2]; exact hcache
    · rw [hL2]; exact hdata
    · intro hd
      rcases (hit_read_eq_some.1 hh).2 with ⟨-, h1⟩ | ⟨h0, -⟩
      · rw [hreg, h1]
      · exact absurd hd h0
    · intro hd
      obtain ⟨blk, v, e1, e2, e3⟩ := hit_read_value hh hd
      exact ⟨blk, v, e1, e2, by rw [hreg, e3]⟩
  · exact absurd hb0 hb
  · rw [hrt2] at hrt2'
    cases hrt2'
    rw [hscan2] at hs'
    cases hs'

/-- C5: no promotion on an L2 hit.  In every reachable state of a two-level
configuration, for every `lw` whose address has a row in each level, with no
valid way of its L1 row holding its tag and some valid way of its L2 row
holding its tag: the `lw` executes, the output gains exactly `L1 MISS`,
`L2 HIT`, the register `dst` (when `dst != 0`) receives the word at offset
`addr mod blocks2` of the block data of a valid L2 way of the row with the tag,
and L1 (every way, every block, every deque) is unchanged; and every `lw` of
the same address executed next again executes with output `L1 MISS`,
`L2 HIT` and leaves L1 unchanged. -/
theorem C5_no_promotion_on_L2_hit (cfg : Config) (s : State) (instr : Nat)
    (rt rt2 : Nat × Nat) (hreach : Reachable cfg s)
    (hop : find_opcode instr = op_lw) (hb2 : cfg.blocks2 ≠ 0)
    (hrt : row_and_tag (pointer_of instr s) cfg.L1.blocksize s.L1.cache.length cfg.L1.assoc
      = some rt)
    (hrt2 : row_and_tag (pointer_of instr s) cfg.blocks2 s.L2.cache.length cfg.assoc2
      = some rt2)
    (hmiss : ∀ i, i < cfg.L1.assoc → ∀ w, s.L1.cache[rt.1 * cfg.L1.assoc + i]? = some w →
      ¬(w.valid ≠ 0 ∧ w.tag = rt.2))
    (hhit : ∃ i, i < cfg.assoc2 ∧ ∃ w, s.L2.cache[rt2.1 * cfg.assoc2 + i]? = some w ∧
      w.valid ≠ 0 ∧ w.tag = rt2.2) :
    ∃ r, step cfg instr s = some r ∧ r.1 = false ∧
      r.2.out = s.out ++
        [Output.log CacheName.L1 Status.MISS s.pc (pointer_of instr s) rt.1,
         Output.log CacheName.L2 Status.HIT s.pc (pointer_of instr s) rt2.1] ∧
      r.2.L1 = s.L1 ∧
      ((instr >>> 7) &&& 7 ≠ 0 → ∃ i w blk v, i < cfg.assoc2 ∧
        s.L2.cache[rt2.1 * cfg.assoc2 + i]? = some w ∧ w.valid ≠ 0 ∧ w.tag = rt2.2 ∧
        s.L2.blockdata[rt2.1 * cfg.assoc2 + i]? = some blk ∧
        blk[pointer_of instr s % cfg.blocks2]? = some v ∧
        r.2.registers ((instr >>> 7) &&& 7) = v) ∧
      ∀ instr2, find_opcode instr2 = op_lw → pointer_of instr2 r.2 = pointer_of instr s →
        ∃ r2, step cfg instr2 r.2 = some r2 ∧
          r2.2.out = r.2.out ++
            [Output.log CacheName.L1 Status.MISS r.2.pc (pointer_of instr s) rt.1,
             Output.log CacheName.L2 Status.HIT r.2.pc (pointer_of instr s) rt2.1] ∧
          r2.2.L1 = s.L1 := by
  obtain ⟨i1, i2⟩ := reachable_inv hreach
  obtain ⟨r, i, hex, hfalse, -, -, hL1, hcache, hdata, hout, hi, ⟨w, hw, hwv⟩, -, hreg⟩ :=
    lw_L2_hit_step i1 i2 hb2 hrt hrt2 hmiss hhit
  have hstep : step cfg instr s = some r := by
    rw [step, execute_instruction_lw _ _ _ _ s hop]; exact hex
  refine ⟨r, hstep, hfalse, hout, hL1, ?_, ?_⟩
  · intro hd
    obtain ⟨blk, v, e1, e2, e3⟩ := hreg hd
    exact ⟨i, w, blk, v, hi, hw, hwv.1, hwv.2, e1, e2, by rw [e3, Function.update_same]⟩
  · intro instr2 hop2 hp2
    obtain ⟨j1, j2⟩ := reachable_inv (reachable_step hreach hstep)
    have hrt' : row_and_tag (pointer_of instr2 r.2) cfg.L1.blocksize r.2.L1.cache.length
        cfg.L1.assoc = some rt := by rw [hp2, hL1]; exact hrt
    have hrt2' : row_and_tag (pointer_of instr2 r.2) cfg.blocks2 r.2.L2.cache.length
        cfg.assoc2 = some rt2 := by rw [hp2, hcache]; exact hrt2
    obtain ⟨r2, -, hex2, -, -, -, hL1', -, -, hout2, -⟩ :=
      lw_L2_hit_step j1 j2 hb2 hrt' hrt2'
        (by rw [hL1]; exact hmiss) (by rw [hcache]; exact hhit)
    refine ⟨r2, ?_, ?_, ?_⟩
    · rw [step, execute_instruction_lw _ _ _ _ _ hop2]; exact hex2
    · rw [hout2, hp2]
    · rw [hL1', hL1]

/-- Witness of C5: L1 `1,1,1` and L2 `2,1,1`; after the loads of B = 0 and
A = 1, the load of B misses in L1 and hits in L2, and so does the next load of
B. -/
theorem C5_no_promotion_on_L2_hit_witness :
    ∃ r, step ⟨⟨1, 1, 1⟩, some ⟨2, 1, 1⟩⟩ 32896
        (state_after ⟨⟨1, 1, 1⟩, some ⟨2, 1, 1⟩⟩ [32896, 32897] (example_state 1 1 2 1))
        = some r ∧
      r.2.out =
        [Output.log CacheName.L1 Status.MISS 0 0 0, Output.log CacheName.L2 Status.MISS 0 0 0,
         Output.log CacheName.L1 Status.MISS 1 1 0, Output.log CacheName.L2 Status.MISS 1 1 1,
         Output.log CacheName.L1 Status.MISS 2 0 0, Output.log CacheName.L2 Status.HIT 2 0 0] ∧
      ∃ r2, step ⟨⟨1, 1, 1⟩, some ⟨2, 1, 1⟩⟩ 32896 r.2 = some r2 ∧
        r2.2.out = r.2.out ++
          [Output.log CacheName.L1 Status.MISS 3 0 0,
           Output.log CacheName.L2 Status.HIT 3 0 0] := by
  obtain ⟨r, h1, -, h2, -, -, h3⟩ :=
    C5_no_promotion_on_L2_hit ⟨⟨1, 1, 1⟩, some ⟨2, 1, 1⟩⟩
      (state_after ⟨⟨1, 1, 1⟩, some ⟨2, 1, 1⟩⟩ [32896, 32897] (example_state 1 1 2 1))
      32896 (0, 0) (0, 0)
      ⟨fun _ => 0, example_state 1 1 2 1, [32896, 32897], rfl, rfl⟩
      rfl (by decide) rfl rfl
      (by
        intro i hi w hw
        obtain rfl : i = 0 := by
          have : i < 1 := hi
          omega
        have hw' : some (⟨0, 1, 1⟩ : Way) = some w := hw
        cases hw'
        decide)
      ⟨0, by decide, ⟨0, 1, 0⟩, rfl, by decide, rfl⟩
  have e : some r = some (false, state_after ⟨⟨1, 1, 1⟩, some ⟨2, 1, 1⟩⟩ [32896, 32897, 32896]
      (example_state 1 1 2 1)) := h1.symm.trans rfl
  cases e
  refine ⟨_, rfl, rfl, ?_⟩
  obtain ⟨r2, h4, h5, -⟩ := h3 32896 rfl rfl
  exact ⟨r2, h4, h5⟩

/-- After `install` on a consistent level, the row holds a valid way with the
tag and the block, and that way is at the back of the deque of the row. -/
theorem install_present {c c' : CacheLevel} {assoc blocks row tag : Nat} {block : List Nat}
    (inv : LevelInv c assoc blocks) (hblk : block.length = blocks)
    (h : install c row assoc tag block = some c') :
    c'.cache.length = c.cache.length ∧
    ∃ k w, row * assoc ≤ k ∧ k < row * assoc + assoc ∧
      c'.cache[k]? = some w ∧ w.valid ≠ 0 ∧ w.tag = tag ∧
      c'.blockdata[k]? = some block ∧
      ∃ d, c'.MRU[row]? = some d ∧ d.getLast? = some k := by
  obtain ⟨-, k, d, w, hd, hw, hk1, hk2, -, hcache, hdata, hM, -⟩ := install_spec inv hblk h
  have hklt := getElem?_isSome_lt hw
  have hrow := getElem?_isSome_lt hd
  refine ⟨by rw [hcache, List.length_set], k,
    { w with valid := (if w.valid = 0 then 1 else w.valid), tag := tag },
    hk1, hk2, ?_, ?_, rfl, ?_, d.filter (fun x => x ≠ k) ++ [k], ?_, ?_⟩
  · rw [hcache, List.getElem?_set_self hklt]
  · show (if w.valid = 0 then 1 else w.valid) ≠ 0
    split <;> simp_all
  · rw [hdata, List.getElem?_set_self (by rw [inv.blockdata_length]; exact hklt)]
  · rw [hM, List.getElem?_set_self hrow]
  · simp

/-- An `lw` whose address is present in L1, on a consistent L1: the execution
is defined and the output gains exactly `L1 HIT`. -/
theorem lw_L1_hit_step {instr b1 a1 : Nat} (b2 a2 : Nat) {s : State} {rt : Nat × Nat}
    (i1 : LevelInv s.L1 a1 b1)
    (hrt : row_and_tag (pointer_of instr s) b1 s.L1.cache.length a1 = some rt)
    (hhit : ∃ i, i < a1 ∧ ∃ w, s.L1.cache[rt.1 * a1 + i]? = some w ∧
      w.valid ≠ 0 ∧ w.tag = rt.2) :
    ∃ r, exec_lw instr b1 a1 b2 a2 s = some r ∧ r.1 = false ∧
      r.2.pc = (increment_pc 1 s).pc ∧ r.2.memory = s.memory ∧
      r.2.L1.cache = s.L1.cache ∧ r.2.L1.blockdata = s.L1.blockdata ∧ r.2.L2 = s.L2 ∧
      r.2.out = s.out ++
        [Output.log CacheName.L1 Status.HIT s.pc (pointer_of instr s) rt.1] := by
  obtain ⟨i, hscan, hi, hw⟩ : ∃ i, scan_hit s.L1.cache (rt.1 * a1) rt.2 a1 0 = some (some i) ∧
      i < a1 ∧ ∃ w, s.L1.cache[rt.1 * a1 + i]? = some w ∧ w.valid ≠ 0 ∧ w.tag = rt.2 := by
    rcases scan_hit_row i1 hrt with ⟨-, h⟩ | h
    · obtain ⟨i, hi, w, hw, hp⟩ := hhit
      exact absurd hp (h i hi w hw)
    · exact h
  obtain ⟨hb, -⟩ := row_and_tag_eq_some hrt
  obtain ⟨hr, hh⟩ := hit_read_total i1 hb (i1.row_in_range hrt).1 hscan
    (pointer_of instr s) ((instr >>> 7) &&& 7) s.registers
  obtain ⟨r, hex⟩ : ∃ r, exec_lw instr b1 a1 b2 a2 s = some r :=
    exec_lw_L1_hit_defined hrt hscan hh
  refine ⟨r, hex, ?_⟩
  obtain ⟨rt', hrt', hfalse, hpc, hmem, hc⟩ := exec_lw_cases hex
  rw [hrt] at hrt'
  cases hrt'
  rcases hc with ⟨i', hr', hs, hh', -, hL1, hL2, hout⟩ | ⟨hs, -⟩ | ⟨hs, -⟩ | ⟨hs, -⟩
  · rw [hscan] at hs
    cases hs
    rw [hh] at hh'
    cases hh'
    obtain ⟨_, hcache, hdata, -⟩ := hit_spec i1 hscan (hit_read_eq_some.1 hh).1
    exact ⟨hfalse, hpc, hmem, by rw [hL1]; exact hcache, by rw [hL1]; exact hdata, hL2, hout⟩
  · rw [hscan] at hs; cases hs
  · rw [hscan] at hs; cases hs
  · rw [hscan] at hs; cases hs

/-- After an executed `lw` that was not served by an L2 hit (in particular
after every `lw` of a one-level configuration) the address is present in L1:
a valid way of its row holds its tag. -/
theorem lw_leaves_present {instr b1 a1 b2 a2 : Nat} {s : State} {r : Bool × State}
    (i1 : LevelInv s.L1 a1 b1) (hb : b2 = 0)
    (hex : exec_lw instr b1 a1 b2 a2 s = some r) :
    ∃ rt, row_and_tag (pointer_of instr s) b1 s.L1.cache.length a1 = some rt ∧
      r.2.L1.cache.length = s.L1.cache.length ∧
      ∃ i, i < a1 ∧ ∃ w, r.2.L1.cache[rt.1 * a1 + i]? = some w ∧ w.valid ≠ 0 ∧ w.tag = rt.2 := by
  obtain ⟨rt, hrt, -, -, -, hc⟩ := exec_lw_cases hex
  refine ⟨rt, hrt, ?_⟩
  rcases hc with ⟨i, hr, hscan, hh, -, hL1, -⟩ | ⟨-, hb', -⟩ |
    ⟨-, -, -, ⟨blk, hblk, hins⟩, -⟩ | ⟨-, hb', -⟩
  · obtain ⟨_, hcache, -⟩ := hit_spec i1 hscan (hit_read_eq_some.1 hh).1
    obtain ⟨-, hi, ⟨w, hw, hp⟩, -⟩ := (scan_ways_eq_some_iff _ _ _ _ _ _).1 hscan
    simp only [decide_eq_true_eq] at hp
    rw [hL1, hcache]
    exact ⟨rfl, i, by omega, w, hw, hp⟩
  · exact absurd hb hb'
  · obtain ⟨hlen, k, w, hk1, hk2, hw, hv, ht, -⟩ :=
      install_present i1 (fetch_block_eq_some hblk).1 hins
    refine ⟨hlen, k - rt.1 * a1, by omega, w, ?_, hv, ht⟩
    rw [Nat.add_sub_cancel' hk1]
    exact hw
  · exact absurd hb hb'

/-- A run of instructions other than `lw` and `sw` leaves both cache levels
and memory as they are. -/
theorem run_words_levels {cfg : Config} (ws : List Nat) {s s' : State}
    (hws : ∀ w ∈ ws, find_opcode w ≠ op_lw ∧ find_opcode w ≠ op_sw)
    (hrun : run_words cfg ws s = some s') :
    s'.L1 = s.L1 ∧ s'.L2 = s.L2 ∧ s'.memory = s.memory := by
  induction ws generalizing s with
  | nil =>
    simp only [run_words, Option.some.injEq] at hrun
    subst hrun
    exact ⟨rfl, rfl, rfl⟩
  | cons w ws ih =>
    simp only [run_words, Option.bind_eq_bind, Option.bind_eq_some] at hrun
    obtain ⟨r, hr, hrest⟩ := hrun
    obtain ⟨hw1, hw2⟩ := hws w (List.mem_cons_self _ _)
    obtain ⟨e1, e2, e3⟩ := execute_instruction_levels hr hw1 hw2
    obtain ⟨f1, f2, f3⟩ := ih (fun w' hw' => hws w' (List.mem_cons_of_mem _ hw')) hrest
    exact ⟨f1.trans e1, f2.trans e2, f3.trans e3⟩

theorem Config.blocks2_of_L2_none {cfg : Config} (h : cfg.L2 = none) : cfg.blocks2 = 0 := by
  simp [Config.blocks2, h]

/-- C6: in an L1-only configuration, in every reachable state, once an `lw` of
address `a` has executed (whether it hit or missed), the next `lw` of the same
address, with any instructions other than `lw` and `sw` executed in between,
executes and adds exactly one entry to the output, and it is `L1 HIT` (with
the `pc` of that `lw`, the address and its L1 row). -/
theorem C6_repeated_load_hits (cfg : Config) (s : State) (instr instr2 : Nat)
    (r : Bool × State) (ws : List Nat) (s2 : State)
    (hreach : Reachable cfg s) (hL2 : cfg.L2 = none)
    (hop : find_opcode instr = op_lw) (hstep : step cfg instr s = some r)
    (hws : ∀ w ∈ ws, find_opcode w ≠ op_lw ∧ find_opcode w ≠ op_sw)
    (hrun : run_words cfg ws r.2 = some s2)
    (hop2 : find_opcode instr2 = op_lw)
    (haddr : pointer_of instr2 s2 = pointer_of instr s) :
    ∃ r2, step cfg instr2 s2 = some r2 ∧
      r2.2.out = s2.out ++
        [Output.log CacheName.L1 Status.HIT s2.pc (pointer_of instr s)
          ((pointer_of instr s / cfg.L1.blocksize) % (s.L1.cache.length / cfg.L1.assoc))] := by
  obtain ⟨i1, -⟩ := reachable_inv hreach
  have hex : exec_lw instr cfg.L1.blocksize cfg.L1.assoc cfg.blocks2 cfg.assoc2 s = some r := by
    rw [← execute_instruction_lw _ _ _ _ s hop]; exact hstep
  obtain ⟨rt, hrt, hlen, hpres⟩ := lw_leaves_present i1 (Config.blocks2_of_L2_none hL2) hex
  obtain ⟨j1, j2⟩ := reachable_inv (reachable_step hreach hstep)
  obtain ⟨k1, -⟩ := run_words_inv ws hrun j1 j2
  obtain ⟨e1, -, -⟩ := run_words_levels ws hws hrun
  have hrt' : row_and_tag (pointer_of instr2 s2) cfg.L1.blocksize s2.L1.cache.length
      cfg.L1.assoc = some rt := by rw [haddr, e1, hlen]; exact hrt
  obtain ⟨r2, hex2, -, -, -, -, -, -, hout⟩ :=
    lw_L1_hit_step cfg.blocks2 cfg.assoc2 k1 hrt'
      (by rw [e1]; exact hpres)
  refine ⟨r2, ?_, ?_⟩
  · rw [step, execute_instruction_lw _ _ _ _ _ hop2]; exact hex2
  · rw [hout, haddr, (row_and_tag_eq_some hrt).2.2.2.1]

/-- Witness of C6: L1 `size=2, associativity=1, blockSize=1` from the empty
cache: two consecutive loads of address 0 log `L1 MISS` then `L1 HIT`. -/
theorem C6_repeated_load_hits_witness :
    ∃ r r2, step ⟨⟨2, 1, 1⟩, none⟩ 32896 (example_state 2 1 0 0) = some r ∧
      r.2.out = [Output.log CacheName.L1 Status.MISS 0 0 0] ∧
      step ⟨⟨2, 1, 1⟩, none⟩ 32896 r.2 = some r2 ∧
      r2.2.out = [Output.log CacheName.L1 Status.MISS 0 0 0,
                  Output.log CacheName.L1 Status.HIT 1 0 0] := by
  obtain ⟨r2, h1, h2⟩ :=
    C6_repeated_load_hits ⟨⟨2, 1, 1⟩, none⟩ (example_state 2 1 0 0) 32896 32896
      (false, state_after ⟨⟨2, 1, 1⟩, none⟩ [32896] (example_state 2 1 0 0)) []
      (state_after ⟨⟨2, 1, 1⟩, none⟩ [32896] (example_state 2 1 0 0))
      ⟨fun _ => 0, example_state 2 1 0 0, [], rfl, rfl⟩ rfl rfl rfl
      (fun w hw => absurd hw (List.not_mem_nil w)) rfl rfl rfl
  exact ⟨_, r2, rfl, rfl, h1, h2⟩

/-- An executed `lw` of a one-level configuration whose address is in no valid
way of its L1 row: the output gains exactly `L1 MISS` and the block is
installed in L1. -/
theorem lw_L1_miss_step {instr b1 a1 b2 a2 : Nat} {s : State} {r : Bool × State}
    {rt : Nat × Nat} (hb : b2 = 0)
    (hrt : row_and_tag (pointer_of instr s) b1 s.L1.cache.length a1 = some rt)
    (hmiss : ∀ i, i < a1 → ∀ w, s.L1.cache[rt.1 * a1 + i]? = some w →
      ¬(w.valid ≠ 0 ∧ w.tag = rt.2))
    (hex : exec_lw instr b1 a1 b2 a2 s = some r) :
    r.2.out = s.out ++ [Output.log CacheName.L1 Status.MISS s.pc (pointer_of instr s) rt.1] ∧
    r.2.registers = (if (instr >>> 7) &&& 7 ≠ 0 then
        Function.update s.registers ((instr >>> 7) &&& 7) (s.memory (pointer_of instr s))
      else s.registers) ∧
    r.2.pc = (increment_pc 1 s).pc ∧ r.2.memory = s.memory ∧ r.2.L2 = s.L2 ∧
    ∃ blk, fetch_block s.memory (pointer_of instr s / b1 * b1) b1 = some blk ∧
      install s.L1 rt.1 a1 rt.2 blk = some r.2.L1 := by
  obtain ⟨rt', hrt', -, hpc, hmem, hc⟩ := exec_lw_cases hex
  rw [hrt] at hrt'
  cases hrt'
  rcases hc with ⟨i, hr, hscan, -⟩ | ⟨-, hb', -⟩ | ⟨-, -, hreg, hins, hL2, hout⟩ | ⟨-, hb', -⟩
  · obtain ⟨-, hi, ⟨w, hw, hp⟩, -⟩ := (scan_ways_eq_some_iff _ _ _ _ _ _).1 hscan
    simp only [decide_eq_true_eq] at hp
    exact absurd hp (hmiss i (by omega) w hw)
  · exact absurd hb hb'
  · exact ⟨hout, hreg, hpc, hmem, hL2, hins⟩
  · exact absurd hb hb'

/-- C7: conflict eviction in a direct-mapped L1.  In an L1-only configuration
with associativity 1, in every reachable state, let the address `b` of an `lw`
and an address `a` have the same L1 row and different tags, and let the single
way of that row be valid with the tag of `a`.  Then the executed `lw b` adds
exactly `L1 MISS` to the output; afterwards the way of the row is valid with
the tag of `b` and its block data are the memory words of the block of `b`;
and an executed `lw a` that follows adds exactly `L1 MISS` again. -/
theorem C7_direct_mapped_conflict_eviction (cfg : Config) (s : State)
    (instr_b instr_a a : Nat) (rta rtb : Nat × Nat) (r r2 : Bool × State)
    (hreach : Reachable cfg s) (hL2 : cfg.L2 = none) (hassoc : cfg.L1.assoc = 1)
    (hopb : find_opcode instr_b = op_lw) (hopa : find_opcode instr_a = op_lw)
    (hrtb : row_and_tag (pointer_of instr_b s) cfg.L1.blocksize s.L1.cache.length 1
      = some rtb)
    (hrta : row_and_tag a cfg.L1.blocksize s.L1.cache.length 1 = some rta)
    (hrow : rta.1 = rtb.1) (htag : rta.2 ≠ rtb.2)
    (hres : ∃ w, s.L1.cache[rtb.1]? = some w ∧ w.valid ≠ 0 ∧ w.tag = rta.2)
    (hstep : step cfg instr_b s = some r)
    (haddr : pointer_of instr_a r.2 = a)
    (hstep2 : step cfg instr_a r.2 = some r2) :
    r.2.out = s.out ++
      [Output.log CacheName.L1 Status.MISS s.pc (pointer_of instr_b s) rtb.1] ∧
    (∃ w, r.2.L1.cache[rtb.1]? = some w ∧ w.valid ≠ 0 ∧ w.tag = rtb.2) ∧
    (∃ blk, r.2.L1.blockdata[rtb.1]? = some blk ∧ blk.length = cfg.L1.blocksize ∧
      ∀ i, i < cfg.L1.blocksize → blk[i]? = some
        (s.memory (pointer_of instr_b s / cfg.L1.blocksize * cfg.L1.blocksize + i))) ∧
    r2.2.out = r.2.out ++ [Output.log CacheName.L1 Status.MISS r.2.pc a rtb.1] := by
  obtain ⟨i1, -⟩ := reachable_inv hreach
  have hb2 := Config.blocks2_of_L2_none hL2
  rw [hassoc] at i1
  have hex : exec_lw instr_b cfg.L1.blocksize 1 cfg.blocks2 cfg.assoc2 s = some r := by
    rw [← hassoc, ← execute_instruction_lw _ _ _ _ s hopb]; exact hstep
  have hex2 : exec_lw instr_a cfg.L1.blocksize 1 cfg.blocks2 cfg.assoc2 r.2 = some r2 := by
    rw [← hassoc, ← execute_instruction_lw _ _ _ _ r.2 hopa]; exact hstep2
  obtain ⟨wa, hwa, hva, hta⟩ := hres
  have hmiss : ∀ i, i < 1 → ∀ w, s.L1.cache[rtb.1 * 1 + i]? = some w →
      ¬(w.valid ≠ 0 ∧ w.tag = rtb.2) := by
    intro i hi w hw hp
    obtain rfl : i = 0 := by omega
    rw [Nat.mul_one, Nat.add_zero, hwa] at hw
    cases hw
    exact htag (hta.symm.trans hp.2)
  obtain ⟨hout, -, -, -, -, blk, hblk, hins⟩ := lw_L1_miss_step hb2 hrtb hmiss hex
  have hlen := (fetch_block_eq_some hblk).1
  have hget := (fetch_block_eq_some hblk).2.2
  obtain ⟨hclen, k, w, hk1, hk2, hw, hv, ht, hdata, -⟩ := install_present i1 hlen hins
  obtain rfl : k = rtb.1 := by omega
  have hrta' : row_and_tag (pointer_of instr_a r.2) cfg.L1.blocksize r.2.L1.cache.length 1
      = some rta := by rw [haddr, hclen]; exact hrta
  have hmiss2 : ∀ i, i < 1 → ∀ w', r.2.L1.cache[rta.1 * 1 + i]? = some w' →
      ¬(w'.valid ≠ 0 ∧ w'.tag = rta.2) := by
    intro i hi w' hw' hp
    obtain rfl : i = 0 := by omega
    rw [hrow, Nat.mul_one, Nat.add_zero, hw] at hw'
    cases hw'
    exact htag (hp.2.symm.trans ht)
  obtain ⟨hout2, -⟩ := lw_L1_miss_step hb2 hrta' hmiss2 hex2
  refine ⟨hout, ⟨w, hw, hv, ht⟩, ⟨blk, hdata, hlen, hget⟩, ?_⟩
  rw [hout2, haddr, hrow]

/-- Witness of C7: L1 `2,1,1` (two rows, direct-mapped); after the load of
address 0, the load of address 2 (same row, other tag) misses and evicts it,
and the load of address 0 that follows misses again. -/
theorem C7_direct_mapped_conflict_eviction_witness :
    ∃ r r2, step ⟨⟨2, 1, 1⟩, none⟩ 32770
        (state_after ⟨⟨2, 1, 1⟩, none⟩ [32768] (example_state 2 1 0 0)) = some r ∧
      step ⟨⟨2, 1, 1⟩, none⟩ 32768 r.2 = some r2 ∧
      r.2.L1.cache = [⟨0, 1, 1⟩, ⟨1, 0, 0⟩] ∧
      r2.2.out = [Output.log CacheName.L1 Status.MISS 0 0 0,
                  Output.log CacheName.L1 Status.MISS 1 2 0,
                  Output.log CacheName.L1 Status.MISS 2 0 0] := by
  have h := C7_direct_mapped_conflict_eviction ⟨⟨2, 1, 1⟩, none⟩
    (state_after ⟨⟨2, 1, 1⟩, none⟩ [32768] (example_state 2 1 0 0)) 32770 32768 0
    (0, 0) (0, 1)
    (false, state_after ⟨⟨2, 1, 1⟩, none⟩ [32768, 32770] (example_state 2 1 0 0))
    (false, state_after ⟨⟨2, 1, 1⟩, none⟩ [32768, 32770, 32768] (example_state 2 1 0 0))
    ⟨fun _ => 0, example_state 2 1 0 0, [32768], rfl, rfl⟩ rfl rfl rfl rfl rfl rfl rfl
    (by decide) ⟨⟨0, 1, 0⟩, rfl, by decide, rfl⟩ rfl rfl rfl
  exact ⟨_, _, rfl, rfl, rfl, h.2.2.2⟩

theorem install_holds {c c' : CacheLevel} {assoc blocks addr : Nat} {rt : Nat × Nat}
    {memory : Nat → Nat} {blk : List Nat} (inv : LevelInv c assoc blocks)
    (hblk : fetch_block memory (addr / blocks * blocks) blocks = some blk)
    (h : install c rt.1 assoc rt.2 blk = some c') :
    HoldsMRU c' memory addr blocks assoc rt := by
  obtain ⟨hlen, -, hget⟩ := fetch_block_eq_some hblk
  obtain ⟨-, k, w, hk1, hk2, hw, hv, ht, hdata, d, hd, hlast⟩ := install_present inv hlen h
  exact ⟨k, w, blk, d, hk1, hk2, hw, hv, ht, hdata, hlen, hget, hd, hlast⟩

/-- C8: a load that misses every configured level.  In every reachable state,
for every executed `lw` whose address is in no valid way of its L1 row and,
when L2 is configured, in no valid way of its L2 row: the output gains exactly
`L1 MISS` (L1 only) or `L1 MISS`, `L2 MISS`; `registers[dst]` becomes
`memory[addr]` when `dst != 0`; afterwards every configured level holds, in
the row of the address, a valid way with its tag whose block data are the
`blocksize` memory words of the containing block, that way being the back of
the deque of the row; and `pc` advances by 1 (modulo 8192). -/
theorem C8_load_miss_fills_every_level (cfg : Config) (s : State) (instr : Nat)
    (rt : Nat × Nat) (r : Bool × State)
    (hreach : Reachable cfg s) (hop : find_opcode instr = op_lw)
    (hrt : row_and_tag (pointer_of instr s) cfg.L1.blocksize s.L1.cache.length cfg.L1.assoc
      = some rt)
    (hmiss : ∀ i, i < cfg.L1.assoc → ∀ w, s.L1.cache[rt.1 * cfg.L1.assoc + i]? = some w →
      ¬(w.valid ≠ 0 ∧ w.tag = rt.2))
    (hmiss2 : cfg.blocks2 ≠ 0 → ∀ rt2,
      row_and_tag (pointer_of instr s) cfg.blocks2 s.L2.cache.length cfg.assoc2 = some rt2 →
      ∀ i, i < cfg.assoc2 → ∀ w, s.L2.cache[rt2.1 * cfg.assoc2 + i]? = some w →
        ¬(w.valid ≠ 0 ∧ w.tag = rt2.2))
    (hstep : step cfg instr s = some r) :
    (cfg.blocks2 = 0 → r.2.L2 = s.L2 ∧ r.2.out = s.out ++
      [Output.log CacheName.L1 Status.MISS s.pc (pointer_of instr s) rt.1]) ∧
    (cfg.blocks2 ≠ 0 → ∃ rt2,
      row_and_tag (pointer_of instr s) cfg.blocks2 s.L2.cache.length cfg.assoc2 = some rt2 ∧
      r.2.out = s.out ++
        [Output.log CacheName.L1 Status.MISS s.pc (pointer_of instr s) rt.1,
         Output.log CacheName.L2 Status.MISS s.pc (pointer_of instr s) rt2.1] ∧
      HoldsMRU r.2.L2 s.memory (pointer_of instr s) cfg.blocks2 cfg.assoc2 rt2) ∧
    ((instr >>> 7) &&& 7 ≠ 0 →
      r.2.registers ((instr >>> 7) &&& 7) = s.memory (pointer_of instr s)) ∧
    HoldsMRU r.2.L1 s.memory (pointer_of instr s) cfg.L1.blocksize cfg.L1.assoc rt ∧
    r.2.memory = s.memory ∧
    r.2.pc = (s.pc + 1) % 8192 := by
  obtain ⟨i1, i2⟩ := reachable_inv hreach
  have hex : exec_lw instr cfg.L1.blocksize cfg.L1.assoc cfg.blocks2 cfg.assoc2 s = some r := by
    rw [← execute_instruction_lw _ _ _ _ s hop]; exact hstep
  obtain ⟨rt', hrt', -, hpc, hmem, hc⟩ := exec_lw_cases hex
  rw [hrt] at hrt'
  cases hrt'
  rw [increment_pc_one] at hpc
  have hregs : ∀ regs : Nat → Nat, regs = (if (instr >>> 7) &&& 7 ≠ 0 then
        Function.update s.registers ((instr >>> 7) &&& 7) (s.memory (pointer_of instr s))
      else s.registers) → (instr >>> 7) &&& 7 ≠ 0 →
      regs ((instr >>> 7) &&& 7) = s.memory (pointer_of instr s) := by
    intro regs e hd
    rw [e, if_pos hd, Function.update_same]
  rcases hc with ⟨i, hr, hscan, -⟩ | ⟨-, hb, rt2, i, hr, hrt2, hscan, -⟩ |
    ⟨-, hb, hreg, ⟨blk, hblk, hins⟩, hL2, hout⟩ |
    ⟨-, hb, rt2, hrt2, -, hreg, ⟨blk, hblk, hins⟩, ⟨blk2, hblk2, hins2⟩, hout⟩
  · obtain ⟨-, hi, ⟨w, hw, hp⟩, -⟩ := (scan_ways_eq_some_iff _ _ _ _ _ _).1 hscan
    simp only [decide_eq_true_eq] at hp
    exact absurd hp (hmiss i (by omega) w hw)
  · obtain ⟨-, hi, ⟨w, hw, hp⟩, -⟩ := (scan_ways_eq_some_iff _ _ _ _ _ _).1 hscan
    simp only [decide_eq_true_eq] at hp
    exact absurd hp (hmiss2 hb rt2 hrt2 i (by omega) w hw)
  · exact ⟨fun _ => ⟨hL2, hout⟩, fun h => absurd hb h, hregs _ hreg,
      install_holds i1 hblk hins, hmem, hpc⟩
  · exact ⟨fun h => absurd h hb, fun _ => ⟨rt2, hrt2, hout, install_holds i2 hblk2 hins2⟩,
      hregs _ hreg, install_holds i1 hblk hins, hmem, hpc⟩

/-- Witness of C8: L1 `1,1,1` and L2 `2,1,1` with empty caches and
`memory[1] = 9`: `lw $1,1($0)` misses both levels, loads 9 and fills both. -/
theorem C8_load_miss_fills_every_level_witness :
    ∃ r, step ⟨⟨1, 1, 1⟩, some ⟨2, 1, 1⟩⟩ 32897
        { example_state 1 1 2 1 with memory := fun a => if a = 1 then 9 else 0 } = some r ∧
      r.2.registers 1 = 9 ∧ r.2.pc = 1 ∧
      r.2.out = [Output.log CacheName.L1 Status.MISS 0 1 0,
                 Output.log CacheName.L2 Status.MISS 0 1 1] ∧
      r.2.L1.blockdata = [[9]] ∧ r.2.L2.blockdata = [[], [9]] := by
  have h := C8_load_miss_fills_every_level ⟨⟨1, 1, 1⟩, some ⟨2, 1, 1⟩⟩
    { example_state 1 1 2 1 with memory := fun a => if a = 1 then 9 else 0 } 32897 (0, 1)
    (false, state_after ⟨⟨1, 1, 1⟩, some ⟨2, 1, 1⟩⟩ [32897]
      { example_state 1 1 2 1 with memory := fun a => if a = 1 then 9 else 0 })
    ⟨fun a => if a = 1 then 9 else 0, _, [], rfl, rfl⟩ rfl rfl
    (by
      intro i hi w hw
      obtain rfl : i = 0 := by
        have : i < 1 := hi
        omega
      have hw' : some (⟨0, 0, 0⟩ : Way) = some w := hw
      cases hw'
      decide)
    (by
      intro _ rt2 hrt2 i hi w hw
      have e : some ((1, 0) : Nat × Nat) = some rt2 := hrt2
      cases e
      obtain rfl : i = 0 := by
        have : i < 1 := hi
        omega
      have hw' : some (⟨1, 0, 0⟩ : Way) = some w := hw
      cases hw'
      decide)
    rfl
  exact ⟨_, rfl, h.2.2.1 (by decide), h.2.2.2.2.2, rfl, rfl, rfl⟩

/-! ## Recency order of the deques -/

/-- A touch of way `k` of `row` keeps the deques ordered by recency. -/
theorem recency_after_touch {c c' : CacheLevel} {assoc blocks row k : Nat} {d : List Nat}
    (inv : LevelInv c assoc blocks) (hrec : RecencyInv c)
    (hk1 : row * assoc ≤ k) (hk2 : k < row * assoc + assoc)
    (hd : c.MRU[row]? = some d)
    (hM : c'.MRU = c.MRU.set row (d.filter (fun x => x ≠ k) ++ [k]))
    (ht : c'.touches = k :: c.touches) : RecencyInv c' := by
  have hshift : ∀ x, x ≠ k → (k :: c.touches).indexOf x = c.touches.indexOf x + 1 :=
    fun x hx => List.indexOf_cons_ne _ (Ne.symm hx)
  have hrowlt := getElem?_isSome_lt hd
  intro r dr hr
  rw [hM, List.getElem?_set] at hr
  rw [ht]
  split at hr
  · next e =>
    subst e
    cases hr
    constructor
    · rw [List.pairwise_append]
      refine ⟨?_, List.pairwise_singleton _ _, ?_⟩
      · have hsub : (d.filter (fun x => x ≠ k)).Pairwise
            (fun x y => c.touches.indexOf y < c.touches.indexOf x) :=
          (hrec row d hd).1.sublist (List.filter_sublist _)
        apply List.Pairwise.imp_of_mem _ hsub
        intro x y hx hy hxy
        simp only [List.mem_filter, decide_eq_true_eq] at hx hy
        rw [hshift x hx.2, hshift y hy.2]
        omega
      · intro x hx y hy
        simp only [List.mem_filter, decide_eq_true_eq] at hx
        simp only [List.mem_singleton] at hy
        subst hy
        rw [List.indexOf_cons_self, hshift x hx.2]
        omega
    · intro x hx
      simp only [List.mem_append, List.mem_filter, List.mem_singleton, decide_eq_true_eq] at hx
      rcases hx with ⟨hxd, -⟩ | rfl
      · exact List.mem_cons_of_mem _ ((hrec row d hd).2 x hxd)
      · exact List.mem_cons_self _ _
  · next e =>
    have hne : ∀ x ∈ dr, x ≠ k := by
      intro x hx
      have := (inv.mru_mem r dr hr x).1 hx
      exact row_disjoint (Ne.symm e) hk1 hk2 this.1 this.2.1
    constructor
    · apply List.Pairwise.imp_of_mem _ (hrec r dr hr).1
      intro x y hx hy hxy
      rw [hshift x (hne x hx), hshift y (hne y hy)]
      omega
    · intro x hx
      exact List.mem_cons_of_mem _ ((hrec r dr hr).2 x hx)

theorem install_recency {c c' : CacheLevel} {assoc blocks row tag : Nat} {block : List Nat}
    (inv : LevelInv c assoc blocks) (hrec : RecencyInv c) (hblk : block.length = blocks)
    (h : install c row assoc tag block = some c') : RecencyInv c' := by
  obtain ⟨-, k, d, w, hd, -, hk1, hk2, -, -, -, hM, ht⟩ := install_spec inv hblk h
  exact recency_after_touch inv hrec hk1 hk2 hd hM ht

theorem hit_recency {c : CacheLevel} {assoc blocks row tag i p d : Nat} {regs : Nat → Nat}
    {hr : (Nat → Nat) × CacheLevel}
    (inv : LevelInv c assoc blocks) (hrec : RecencyInv c)
    (hscan : scan_hit c.cache (row * assoc) tag assoc 0 = some (some i))
    (h : hit_read c row assoc i p blocks d regs = some hr) : RecencyInv hr.2 := by
  obtain ⟨-, hi, -, -⟩ := (scan_ways_eq_some_iff _ _ _ _ _ _).1 hscan
  obtain ⟨-, -, -, ht, dq, hd, hM⟩ := hit_spec inv hscan (hit_read_eq_some.1 h).1
  exact recency_after_touch inv hrec (Nat.le_add_right _ _) (by omega) hd hM ht

/-- One instruction keeps the deques of both levels ordered by recency. -/
theorem execute_instruction_recency {instr b1 a1 b2 a2 : Nat} {s : State} {r : Bool × State}
    (h : execute_instruction instr b1 a1 b2 a2 s = some r)
    (i1 : LevelInv s.L1 a1 b1) (i2 : LevelInv s.L2 a2 b2)
    (r1 : RecencyInv s.L1) (r2 : RecencyInv s.L2) :
    RecencyInv r.2.L1 ∧ RecencyInv r.2.L2 := by
  by_cases hlw : find_opcode instr = op_lw
  · rw [execute_instruction_lw b1 a1 b2 a2 s hlw] at h
    obtain ⟨rt, hrt, -, -, -, hc⟩ := exec_lw_cases h
    rcases hc with ⟨i, hr, hscan, hh, -, hL1, hL2, -⟩ |
      ⟨-, -, rt2, i, hr, -, hscan, hh, -, hL1, hL2, -⟩ |
      ⟨-, -, -, ⟨blk, hblk, hins⟩, hL2, -⟩ |
      ⟨-, -, rt2, -, -, -, ⟨blk, hblk, hins⟩, ⟨blk2, hblk2, hins2⟩, -⟩
    · rw [hL1, hL2]
      exact ⟨hit_recency i1 r1 hscan hh, r2⟩
    · rw [hL1, hL2]
      exact ⟨r1, hit_recency i2 r2 hscan hh⟩
    · rw [hL2]
      exact ⟨install_recency i1 r1 (fetch_block_eq_some hblk).1 hins, r2⟩
    · exact ⟨install_recency i1 r1 (fetch_block_eq_some hblk).1 hins,
        install_recency i2 r2 (fetch_block_eq_some hblk2).1 hins2⟩
  · by_cases hsw : find_opcode instr = op_sw
    · rw [execute_instruction_sw b1 a1 b2 a2 s hsw] at h
      obtain ⟨-, -, -, -, rt, blk, -, hblk, hins, hno, hyes⟩ := exec_sw_some h
      refine ⟨install_recency i1 r1 (fetch_block_eq_some hblk).1 hins, ?_⟩
      by_cases hb : b2 = 0
      · rw [(hno hb).1]; exact r2
      · obtain ⟨rt2, blk2, -, hblk2, hins2, -⟩ := hyes hb
        exact install_recency i2 r2 (fetch_block_eq_some hblk2).1 hins2
    · obtain ⟨e1, e2, -⟩ := execute_instruction_levels h hlw hsw
      rw [e1, e2]
      exact ⟨r1, r2⟩

theorem make_level_recency (rows assoc : Nat) : RecencyInv (make_level rows assoc) := by
  intro r d hd
  have hmem : d ∈ (make_level rows assoc).MRU := List.mem_iff_getElem?.2 ⟨r, hd⟩
  simp only [make_level, List.mem_map, List.mem_range] at hmem
  obtain ⟨i, -, rfl⟩ := hmem
  exact ⟨List.Pairwise.nil, fun x hx => absurd hx (List.not_mem_nil x)⟩

theorem no_level_recency : RecencyInv no_level := by
  intro r d hd
  simp [no_level] at hd

/-- In every reachable state the deques of both levels are ordered by
recency. -/
theorem reachable_recency {cfg : Config} {s : State} (h : Reachable cfg s) :
    RecencyInv s.L1 ∧ RecencyInv s.L2 := by
  obtain ⟨memory, s0, ws, h0, hrun⟩ := h
  have hinit : RecencyInv s0.L1 ∧ RecencyInv s0.L2 := by
    unfold main_init at h0
    split at h0
    · cases h0
    · cases hL2 : cfg.L2 with
      | none =>
        simp only [hL2, Option.some.injEq] at h0
        subst h0
        exact ⟨make_level_recency _ _, no_level_recency⟩
      | some l2 =>
        simp only [hL2] at h0
        split at h0
        · cases h0
        · simp only [Option.some.injEq] at h0
          subst h0
          exact ⟨make_level_recency _ _, make_level_recency _ _⟩
  obtain ⟨i1, i2⟩ := main_init_inv h0
  clear h0
  induction ws generalizing s0 with
  | nil =>
    simp only [run_words, Option.some.injEq] at hrun
    subst hrun
    exact hinit
  | cons w ws ih =>
    simp only [run_words, Option.bind_eq_bind, Option.bind_eq_some] at hrun
    obtain ⟨r, hr, hrest⟩ := hrun
    obtain ⟨j1, j2⟩ := execute_instruction_inv hr i1 i2
    exact ih r.2 hrest (execute_instruction_recency hr i1 i2 hinit.1 hinit.2) j1 j2

/-- The victim rule holds on every level that is consistent and ordered by
recency. -/
theorem victim_rule_of_inv {c : CacheLevel} {assoc blocks : Nat}
    (inv : LevelInv c assoc blocks) (hrec : RecencyInv c) : VictimRule c assoc blocks := by
  intro row tag block c' hblk h
  obtain ⟨-, k, d, w, hd, hw, hk1, hk2, hcase, hcache, hdata, hM, ht⟩ := install_spec inv hblk h
  have hrow := getElem?_isSome_lt hd
  refine ⟨k, w, hw, ?_, hdata, ⟨_, by rw [hM, List.getElem?_set_self hrow], by simp⟩, ht⟩
  rcases hcase with ⟨i, hfree, rfl, hv⟩ | ⟨hfree, hhead, hv⟩
  · left
    obtain ⟨-, hi, -, hlow⟩ := (scan_ways_eq_some_iff _ _ _ _ _ _).1 hfree
    refine ⟨i, by omega, rfl, hv, fun j hj => ?_, by rw [hcache, if_pos hv]⟩
    obtain ⟨wj, hwj, hp⟩ := hlow j (Nat.zero_le _) hj
    exact ⟨wj, hwj, by simpa using hp⟩
  · right
    have hall : ∀ j, j < assoc → ∃ wj, c.cache[row * assoc + j]? = some wj ∧ wj.valid ≠ 0 := by
      intro j hj
      obtain ⟨wj, hwj, hp⟩ := (scan_ways_eq_none_iff _ _ _ _ _).1 hfree j (Nat.zero_le _)
        (by omega)
      exact ⟨wj, hwj, by simpa using hp⟩
    have hkd : k ∈ d := List.mem_of_mem_head? hhead
    refine ⟨hall, ⟨d, hd, hhead⟩, hk1, hk2, (hrec row d hd).2 k hkd, ?_,
      by rw [hcache, if_neg hv]⟩
    intro k' h1 h2 hne
    obtain ⟨wj, hwj, hvj⟩ := hall (k' - row * assoc) (by omega)
    rw [Nat.add_sub_cancel' h1] at hwj
    have hk'd : k' ∈ d := (inv.mru_mem row d hd k').2 ⟨h1, h2, wj, hwj, hvj⟩
    cases d with
    | nil => cases hhead
    | cons x xs =>
      simp only [List.head?_cons, Option.some.injEq] at hhead
      subst hhead
      have hp := (hrec row _ hd).1
      rw [List.pairwise_cons] at hp
      rcases List.mem_cons.1 hk'd with e | hmem
      · exact absurd e hne
      · exact hp.1 k' hmem

/-- C9: victim selection on every install (the fill of a load miss and the
install of a store, in L1 and in L2).  In every reachable state, every defined
install into a row of either level writes one way: if the row has a way with
`valid == 0`, the lowest-indexed such way receives the new tag and the block;
otherwise the way written is the front of the deque of the row, and it is the
true LRU victim: the way of the row whose most recent touch (hit or install)
is older than that of every other way of the row.  No other entry of the cache
table or of the block data changes, and the written way becomes the back of
the deque of the row. -/
theorem C9_victim_selection (cfg : Config) (s : State) (hreach : Reachable cfg s) :
    VictimRule s.L1 cfg.L1.assoc cfg.L1.blocksize ∧
    VictimRule s.L2 cfg.assoc2 cfg.blocks2 :=
  ⟨victim_rule_of_inv (reachable_inv hreach).1 (reachable_recency hreach).1,
   victim_rule_of_inv (reachable_inv hreach).2 (reachable_recency hreach).2⟩

/-- Witness of C9: L1 `2,2,1` after the loads of 0, 1, 0: both ways are valid,
the deque is `[1, 0]`, and an install evicts way 1, the least recently used
one. -/
theorem C9_victim_selection_witness :
    (state_after ⟨⟨2, 2, 1⟩, none⟩ [32768, 32769, 32768] (example_state 1 2 0 0)).L1.MRU
      = [[1, 0]] ∧
    (∃ c', install
        (state_after ⟨⟨2, 2, 1⟩, none⟩ [32768, 32769, 32768] (example_state 1 2 0 0)).L1
        0 2 7 [5] = some c' ∧
      c'.cache = [⟨0, 1, 0⟩, ⟨0, 1, 7⟩] ∧ c'.blockdata = [[0], [5]] ∧ c'.MRU = [[0, 1]]) ∧
    VictimRule
      (state_after ⟨⟨2, 2, 1⟩, none⟩ [32768, 32769, 32768] (example_state 1 2 0 0)).L1 2 1 :=
  ⟨by decide, ⟨_, rfl, by decide, by decide, by decide⟩,
    (C9_victim_selection ⟨⟨2, 2, 1⟩, none⟩
      (state_after ⟨⟨2, 2, 1⟩, none⟩ [32768, 32769, 32768] (example_state 1 2 0 0))
      ⟨fun _ => 0, example_state 1 2 0 0, [32768, 32769, 32768], rfl, rfl⟩).1⟩

/-- C10: a store installs without a residency check.  There is a reachable
state of a configuration with associativity 2 (L1 `size=2, associativity=2,
blockSize=1`, after `lw a`, `lw b`, `lw a` with `a = 0`, `b = 1`) and an `sw`
(to `a`) whose block is already in a valid way `k1` of its L1 row with its
tag, such that executing the `sw` overwrites a different way `k2` of the row,
which held another block (another tag), and leaves two valid ways of the row
with the same tag. -/
theorem C10_store_installs_without_residency_check :
    ∃ (cfg : Config) (s : State) (instr : Nat) (r : Bool × State) (rt : Nat × Nat)
      (k1 k2 : Nat) (w1 w2 w2' : Way),
      Reachable cfg s ∧ 2 ≤ cfg.L1.assoc ∧ find_opcode instr = op_sw ∧
      step cfg instr s = some r ∧
      row_and_tag (pointer_of instr s) cfg.L1.blocksize s.L1.cache.length cfg.L1.assoc
        = some rt ∧
      k1 ≠ k2 ∧
      rt.1 * cfg.L1.assoc ≤ k1 ∧ k1 < rt.1 * cfg.L1.assoc + cfg.L1.assoc ∧
      rt.1 * cfg.L1.assoc ≤ k2 ∧ k2 < rt.1 * cfg.L1.assoc + cfg.L1.assoc ∧
      s.L1.cache[k1]? = some w1 ∧ w1.valid ≠ 0 ∧ w1.tag = rt.2 ∧
      s.L1.cache[k2]? = some w2 ∧ w2.valid ≠ 0 ∧ w2.tag ≠ rt.2 ∧
      r.2.L1.cache[k1]? = some w1 ∧
      r.2.L1.cache[k2]? = some w2' ∧ w2'.valid ≠ 0 ∧ w2'.tag = rt.2 :=
  ⟨⟨⟨2, 2, 1⟩, none⟩,
    state_after ⟨⟨2, 2, 1⟩, none⟩ [32768, 32769, 32768] (example_state 1 2 0 0),
    40960,
    (false, state_after ⟨⟨2, 2, 1⟩, none⟩ [32768, 32769, 32768, 40960]
      (example_state 1 2 0 0)),
    (0, 0), 0, 1, ⟨0, 1, 0⟩, ⟨0, 1, 1⟩, ⟨0, 1, 0⟩,
    ⟨fun _ => 0, example_state 1 2 0 0, [32768, 32769, 32768], rfl, rfl⟩,
    by decide, rfl, rfl, rfl, by decide, by decide, by decide, by decide, by decide,
    rfl, by decide, rfl, rfl, by decide, by decide, rfl, rfl, by decide, rfl⟩

/-! ## Bit fields as quotients and remainders -/

theorem and_7 (x : Nat) : x &&& 7 = x % 8 := Nat.and_pow_two_sub_one_eq_mod x 3
theorem and_15 (x : Nat) : x &&& 15 = x % 16 := Nat.and_pow_two_sub_one_eq_mod x 4
theorem and_127 (x : Nat) : x &&& 127 = x % 128 := Nat.and_pow_two_sub_one_eq_mod x 7
theorem and_8191 (x : Nat) : x &&& 8191 = x % 8192 := Nat.and_pow_two_sub_one_eq_mod x 13
theorem and_65535 (x : Nat) : x &&& 65535 = x % 65536 := Nat.and_pow_two_sub_one_eq_mod x 16
theorem shr_4 (x : Nat) : x >>> 4 = x / 16 := Nat.shiftRight_eq_div_pow x 4
theorem shr_7 (x : Nat) : x >>> 7 = x / 128 := Nat.shiftRight_eq_div_pow x 7
theorem shr_10 (x : Nat) : x >>> 10 = x / 1024 := Nat.shiftRight_eq_div_pow x 10
theorem find_opcode_eq (x : Nat) : find_opcode x = x / 8192 := Nat.shiftRight_eq_div_pow x 13

/-- `to_signed_binary` on a 7-bit value with the sign bit set. -/
theorem to_signed_binary_eq (n : Nat) (h1 : 64 ≤ n) (h2 : n < 128) :
    to_signed_binary (n : Int) = (n : Int) - 128 := by
  interval_cases n <;> decide

/-- The immediate of `lw`, `sw`, `jeq` and `addi` is the low 7 bits read as
two's complement. -/
theorem signed_imm_eq (instr : Nat) :
    signed_imm instr =
      if instr % 128 ≤ 63 then ((instr % 128 : Nat) : Int)
      else ((instr % 128 : Nat) : Int) - 128 := by
  unfold signed_imm
  simp only [and_127]
  have hlt : instr % 128 < 128 := Nat.mod_lt _ (by decide)
  by_cases h : instr % 128 ≤ 63
  · rw [if_pos h, if_neg (by omega)]
  · rw [if_neg h, if_pos (by omega)]
    exact to_signed_binary_eq _ (by omega) hlt

theorem signed_imm_range (instr : Nat) : -64 ≤ signed_imm instr ∧ signed_imm instr ≤ 63 := by
  rw [signed_imm_eq]
  have hlt : instr % 128 < 128 := Nat.mod_lt _ (by decide)
  split <;> omega

/-! ## Dispatch on the opcode, continued -/

theorem execute_instruction_slti {instr : Nat} (b1 a1 b2 a2 : Nat) (s : State)
    (hop : find_opcode instr = op_slti) :
    execute_instruction instr b1 a1 b2 a2 s = some (exec_slti instr s) := by
  unfold execute_instruction
  simp [hop, op_slti, op_add, op_sub, op_or, op_and, op_slt, op_jr]

theorem execute_instruction_jeq {instr : Nat} (b1 a1 b2 a2 : Nat) (s : State)
    (hop : find_opcode instr = op_jeq) :
    execute_instruction instr b1 a1 b2 a2 s = some (exec_jeq instr s) := by
  unfold execute_instruction
  simp [hop, op_jeq, op_sw, op_lw, op_add, op_sub, op_or, op_and, op_slt, op_jr, op_slti]

theorem execute_instruction_addi {instr : Nat} (b1 a1 b2 a2 : Nat) (s : State)
    (hop : find_opcode instr = op_addi) :
    execute_instruction instr b1 a1 b2 a2 s = some (exec_addi instr s) := by
  unfold execute_instruction
  simp [hop, op_addi, op_jeq, op_sw, op_lw, op_add, op_sub, op_or, op_and, op_slt, op_jr,
    op_slti]

theorem execute_instruction_j {instr : Nat} (b1 a1 b2 a2 : Nat) (s : State)
    (hop : find_opcode instr = op_j) :
    execute_instruction instr b1 a1 b2 a2 s = some (exec_j instr s) := by
  unfold execute_instruction
  simp [hop, op_j, op_addi, op_jeq, op_sw, op_lw, op_add, op_sub, op_or, op_and, op_slt,
    op_jr, op_slti]

theorem execute_instruction_jal {instr : Nat} (b1 a1 b2 a2 : Nat) (s : State)
    (hop : find_opcode instr = op_jal) :
    execute_instruction instr b1 a1 b2 a2 s = some (exec_jal instr s) := by
  unfold execute_instruction
  simp [hop, op_jal, op_j, op_addi, op_jeq, op_sw, op_lw, op_add, op_sub, op_or, op_and,
    op_slt, op_jr, op_slti]

theorem set_pc_pc (n : Int) (s : State) : (set_pc n s).pc = toUnsigned n % 8192 := by
  simp only [set_pc, MEM_SIZE_eq]
  split <;> omega

/-! ## Round trip assembler to simulator -/

/-- The 16-bit word the assembler emits for `addi $1,$0,k`. -/
theorem addi_word (k : Int) (h1 : -64 ≤ k) (h2 : k ≤ 63) :
    print_machine_code (encode_imm 1 "$0" "$1" k) = 8320 + (k % 128).toNat := by
  interval_cases k <;> decide

theorem encode_line_addi (i : Nat) (a b : String) (imm : Int) :
    encode_line i ⟨"addi", Operands.rri a b imm⟩ = some (encode_imm 1 b a imm) := rfl

theorem encode_line_halt (i : Nat) :
    encode_line i ⟨"halt", Operands.nothing⟩ = some (((2 <<< 13) ||| i) % 4294967296) := rfl

/-- What `addi` does. -/
theorem exec_addi_spec (instr : Nat) (s : State) :
    (exec_addi instr s).1 = false ∧
    (exec_addi instr s).2.pc = (s.pc + 1) % 8192 ∧
    (exec_addi instr s).2.memory = s.memory ∧ (exec_addi instr s).2.L1 = s.L1 ∧
    (exec_addi instr s).2.L2 = s.L2 ∧ (exec_addi instr s).2.out = s.out ∧
    (exec_addi instr s).2.registers =
      (if (instr >>> 7) &&& 7 ≠ 0 then
        Function.update s.registers ((instr >>> 7) &&& 7)
          (((s.registers ((instr >>> 10) &&& 7) + toUnsigned (signed_imm instr))
            % 4294967296) &&& 65535)
      else s.registers) := by
  unfold exec_addi
  simp only [increment_pc_one, increment_pc_memory, increment_pc_L1, increment_pc_L2,
    increment_pc_out, increment_pc_registers]
  split <;> simp

/-- What `program_to_int` makes of the program `addi $1,$0,k` / `halt`: the
I-type value of the first line, and `(2 << 13) | 1` for the halt at index 1. -/
theorem program_to_int_addi_halt (k : Int) :
    program_to_int [⟨"addi", Operands.rri "$1" "$0" k⟩, ⟨"halt", Operands.nothing⟩]
      = some [encode_imm 1 "$0" "$1" k, 16385] := by
  simp only [program_to_int, program_to_int_from, encode_line_addi, encode_line_halt,
    Option.bind_eq_bind, Option.some_bind, Option.pure_def]
  rfl

/-- The run of the two words of `addi $1,$0,k` / `halt` from `pc = 0` with zero
registers. -/
theorem addi_halt_run (cfg : Config) (k : Int) (hk1 : -64 ≤ k) (hk2 : k ≤ 63) (s : State)
    (hm0 : s.memory 0 = print_machine_code (encode_imm 1 "$0" "$1" k))
    (hm1 : s.memory 1 = print_machine_code 16385)
    (hpc : s.pc = 0) (hregs : ∀ i, s.registers i = 0) :
    ∃ s1 s2, run_loop cfg 1 s = some (false, s1) ∧
      (∀ n, run_loop cfg (n + 2) s = some (true, s2)) ∧
      (s2.registers 1 : Int) = k % 65536 ∧ s2.pc = 1 := by
  rw [addi_word k hk1 hk2] at hm0
  have hm : (k % 128).toNat < 128 := by omega
  have hop0 : find_opcode (s.memory 0) = op_addi := by
    rw [find_opcode_eq, hm0, op_addi]; omega
  have hdst : (s.memory 0 >>> 7) &&& 7 = 1 := by rw [shr_7, and_7, hm0]; omega
  have hsrc : (s.memory 0 >>> 10) &&& 7 = 0 := by rw [shr_10, and_7, hm0]; omega
  have himm : signed_imm (s.memory 0) = k := by
    rw [signed_imm_eq, hm0]; split <;> omega
  obtain ⟨a1, a2, a3, -, -, -, a7⟩ := exec_addi_spec (s.memory 0) s
  rw [hdst, hsrc, himm, hregs 0, if_pos (by decide)] at a7
  rw [hpc] at a2
  have hm1' : s.memory 1 = 16385 := hm1
  have hstep0 : execute_instruction (s.memory 0) cfg.L1.blocksize cfg.L1.assoc cfg.blocks2
      cfg.assoc2 s = some (exec_addi (s.memory 0) s) :=
    execute_instruction_addi _ _ _ _ s hop0
  have hone : run_loop cfg 1 s = some (false, (exec_addi (s.memory 0) s).2) := by
    simp [run_loop, step, hpc, MEM_SIZE_eq, hstep0, a1]
  have hpc1 : (exec_addi (s.memory 0) s).2.pc = 1 := a2
  have hw1 : (exec_addi (s.memory 0) s).2.memory 1 = 16385 := by rw [a3, hm1']
  have hhalt : exec_j 16385 (exec_addi (s.memory 0) s).2 = (true, (exec_addi (s.memory 0) s).2) := by
    unfold exec_j
    rw [hpc1]
    exact if_pos (by decide)
  have hstep1 : execute_instruction 16385 cfg.L1.blocksize cfg.L1.assoc cfg.blocks2
      cfg.assoc2 (exec_addi (s.memory 0) s).2 = some (true, (exec_addi (s.memory 0) s).2) := by
    rw [execute_instruction_j _ _ _ _ _ (by decide), hhalt]
  refine ⟨_, (exec_addi (s.memory 0) s).2, hone, ?_, ?_, hpc1⟩
  · intro n
    simp [run_loop, step, hpc, MEM_SIZE_eq, hstep0, a1, hw1, hpc1, hstep1]
  · rw [a7, Function.update_same, and_65535]
    simp only [toUnsigned]
    omega

/-- C11: round trip assembler to simulator.  For every immediate `k` with
`-64 <= k <= 63`, `program_to_int` encodes the program `addi $1,$0,k` / `halt`
as two values, whose low 16 bits (what `print_machine_code` prints) are
`8320 + (k mod 128)` and 16385; and from every state with these two words in
memory cells 0 and 1, `pc = 0` and all registers zero, the run loop executes
the first instruction without halting and halts on the second one, with
`registers[1] = k mod 2^16` and `pc = 1`, the address of the halt
instruction. -/
theorem C11_round_trip_addi_halt (cfg : Config) (k : Int) (hk1 : -64 ≤ k) (hk2 : k ≤ 63) :
    ∃ v0 v1,
      program_to_int [⟨"addi", Operands.rri "$1" "$0" k⟩, ⟨"halt", Operands.nothing⟩]
        = some [v0, v1] ∧
      print_machine_code v0 = 8320 + (k % 128).toNat ∧ print_machine_code v1 = 16385 ∧
      ∀ s : State, s.memory 0 = print_machine_code v0 → s.memory 1 = print_machine_code v1 →
        s.pc = 0 → (∀ i, s.registers i = 0) →
        ∃ s1 s2, run_loop cfg 1 s = some (false, s1) ∧
          (∀ n, run_loop cfg (n + 2) s = some (true, s2)) ∧
          (s2.registers 1 : Int) = k % 65536 ∧ s2.pc = 1 :=
  ⟨encode_imm 1 "$0" "$1" k, 16385, program_to_int_addi_halt k, addi_word k hk1 hk2, rfl,
    fun s hm0 hm1 hpc hregs => addi_halt_run cfg k hk1 hk2 s hm0 hm1 hpc hregs⟩

/-- Witness of C11: `k = 5` gives the words `0010000010000101` (8325) and
`0100000000000001` (16385), and the run halts after two instructions with
`registers[1] = 5` and `pc = 1`. -/
theorem C11_round_trip_addi_halt_witness :
    program_to_int [⟨"addi", Operands.rri "$1" "$0" 5⟩, ⟨"halt", Operands.nothing⟩]
      = some [8325, 16385] ∧
    ∃ s2, run_loop ⟨⟨2, 1, 1⟩, none⟩ 2
        { example_state 2 1 0 0 with
          memory := fun a => if a = 0 then 8325 else if a = 1 then 16385 else 0 }
        = some (true, s2) ∧
      s2.registers 1 = 5 ∧ s2.pc = 1 := by
  obtain ⟨v0, v1, -, hw0, hw1, hrun⟩ := C11_round_trip_addi_halt ⟨⟨2, 1, 1⟩, none⟩ 5
    (by decide) (by decide)
  obtain ⟨s1, s2, -, h2, h3, h4⟩ := hrun
    { example_state 2 1 0 0 with
      memory := fun a => if a = 0 then 8325 else if a = 1 then 16385 else 0 }
    (by rw [hw0]; rfl) (by rw [hw1]; rfl) rfl (fun _ => rfl)
  refine ⟨by decide, s2, h2 0, ?_, h4⟩
  have : ((s2.registers 1 : Nat) : Int) = 5 := h3
  exact_mod_cast this

theorem toUnsigned_natCast (n : Nat) (h : n < 4294967296) : toUnsigned (n : Int) = n := by
  simp only [toUnsigned]
  omega

/-- What `j` does: halt when the immediate is the current `pc`, a jump
otherwise. -/
theorem exec_j_spec (instr : Nat) (s : State) :
    (s.pc = instr &&& 8191 → exec_j instr s = (true, s)) ∧
    (s.pc ≠ instr &&& 8191 →
      (exec_j instr s).1 = false ∧ (exec_j instr s).2.pc = instr &&& 8191 ∧
      (exec_j instr s).2.registers = s.registers ∧ (exec_j instr s).2.memory = s.memory ∧
      (exec_j instr s).2.L1 = s.L1 ∧ (exec_j instr s).2.L2 = s.L2 ∧
      (exec_j instr s).2.out = s.out) := by
  have hlt : instr &&& 8191 < 8192 := by rw [and_8191]; exact Nat.mod_lt _ (by decide)
  have hu : toUnsigned ((instr &&& 8191 : Nat) : Int) = instr &&& 8191 :=
    toUnsigned_natCast _ (by omega)
  unfold exec_j
  simp only [hu]
  constructor
  · intro h
    rw [if_pos h]
  · intro h
    rw [if_neg h]
    refine ⟨rfl, ?_, rfl, rfl, rfl, rfl, rfl⟩
    rw [set_pc_pc, hu]
    omega

/-- Only the halt case of `j` returns true. -/
theorem execute_instruction_true {instr b1 a1 b2 a2 : Nat} {s : State} {r : Bool × State}
    (h : execute_instruction instr b1 a1 b2 a2 s = some r) (ht : r.1 = true) :
    find_opcode instr = op_j ∧ s.pc = instr &&& 8191 := by
  revert r
  apply execute_instruction_cases
    (fun o => ∀ {r : Bool × State}, o = some r → r.1 = true →
      find_opcode instr = op_j ∧ s.pc = instr &&& 8191)
  case hlw =>
    intro _ r h ht
    obtain ⟨_, -, hf, -⟩ := exec_lw_cases h
    rw [hf] at ht; cases ht
  case hsw =>
    intro _ r h ht
    rw [(exec_sw_some h).1] at ht; cases ht
  case hj =>
    intro hop r h ht
    refine ⟨hop, ?_⟩
    by_contra hne
    cases h
    rw [((exec_j_spec instr s).2 hne).1] at ht
    cases ht
  case hinv => intro r h ht; cases h; cases ht
  case hjeq =>
    intro _ r h ht
    cases h
    simp only [exec_jeq] at ht
    split_ifs at ht
  all_goals
    intro _ r h ht
    cases h
    cases ht

/-- C12: for every word with opcode 2 (`j`) and every state: if the low 13
bits of the word equal the current `pc`, `execute_instruction` returns true
(halt) and leaves the whole state unchanged; otherwise it returns false, sets
`pc` to the low 13 bits and changes nothing else.  No other instruction ever
returns true. -/
theorem C12_jump_and_halt (instr b1 a1 b2 a2 : Nat) (s : State)
    (hop : find_opcode instr = op_j) :
    (s.pc = instr &&& 8191 → execute_instruction instr b1 a1 b2 a2 s = some (true, s)) ∧
    (s.pc ≠ instr &&& 8191 → ∃ s', execute_instruction instr b1 a1 b2 a2 s = some (false, s') ∧
      s'.pc = instr &&& 8191 ∧ s'.registers = s.registers ∧ s'.memory = s.memory ∧
      s'.L1 = s.L1 ∧ s'.L2 = s.L2 ∧ s'.out = s.out) ∧
    (∀ (w : Nat) (r : Bool × State), execute_instruction w b1 a1 b2 a2 s = some r →
      r.1 = true → find_opcode w = op_j ∧ s.pc = w &&& 8191) := by
  refine ⟨fun h => ?_, fun h => ?_, fun w r h ht => execute_instruction_true h ht⟩
  · rw [execute_instruction_j _ _ _ _ s hop, (exec_j_spec instr s).1 h]
  · obtain ⟨e1, e2, e3, e4, e5, e6, e7⟩ := (exec_j_spec instr s).2 h
    refine ⟨(exec_j instr s).2, ?_, e2, e3, e4, e5, e6, e7⟩
    rw [execute_instruction_j _ _ _ _ s hop, ← e1]

/-- Witness of C12: `j 3` (word 16387) at `pc = 0` jumps to 3; at `pc = 3` the
same word is halt. -/
theorem C12_jump_and_halt_witness :
    (∃ s', execute_instruction 16387 1 1 0 0 (example_state 2 1 0 0) = some (false, s') ∧
      s'.pc = 3) ∧
    execute_instruction 16387 1 1 0 0 { example_state 2 1 0 0 with pc := 3 }
      = some (true, { example_state 2 1 0 0 with pc := 3 }) := by
  constructor
  · obtain ⟨s', h1, h2, -⟩ :=
      (C12_jump_and_halt 16387 1 1 0 0 (example_state 2 1 0 0) (by decide)).2.1 (by decide)
    exact ⟨s', h1, h2⟩
  · exact (C12_jump_and_halt 16387 1 1 0 0 { example_state 2 1 0 0 with pc := 3 }
      (by decide)).1 (by decide)

/-! ## The branch taken -/

/-- `execute_instruction` runs the body of the branch `branch_of` names. -/
theorem execute_instruction_eq_kind (instr b1 a1 b2 a2 : Nat) (s : State) :
    execute_instruction instr b1 a1 b2 a2 s = exec_kind (branch_of instr) instr b1 a1 b2 a2 s := by
  unfold execute_instruction branch_of
  by_cases c1 : find_opcode instr = op_add ∧ instr &&& 15 = 0
  · simp only [if_pos c1, exec_kind]
  simp only [if_neg c1]
  by_cases c2 : find_opcode instr = op_sub ∧ instr &&& 15 = 1
  · simp only [if_pos c2, exec_kind]
  simp only [if_neg c2]
  by_cases c3 : find_opcode instr = op_or ∧ instr &&& 15 = 2
  · simp only [if_pos c3, exec_kind]
  simp only [if_neg c3]
  by_cases c4 : find_opcode instr = op_and ∧ instr &&& 15 = 3
  · simp only [if_pos c4, exec_kind]
  simp only [if_neg c4]
  by_cases c5 : find_opcode instr = op_slt ∧ instr &&& 15 = 4
  · simp only [if_pos c5, exec_kind]
  simp only [if_neg c5]
  by_cases c6 : find_opcode instr = op_jr ∧ instr &&& 15 = 8
  · simp only [if_pos c6, exec_kind]
  simp only [if_neg c6]
  by_cases c7 : find_opcode instr = op_slti
  · simp only [if_pos c7, exec_kind]
  simp only [if_neg c7]
  by_cases c8 : find_opcode instr = op_lw
  · simp only [if_pos c8, exec_kind]
  simp only [if_neg c8]
  by_cases c9 : find_opcode instr = op_sw
  · simp only [if_pos c9, exec_kind]
  simp only [if_neg c9]
  by_cases c10 : find_opcode instr = op_jeq
  · simp only [if_pos c10, exec_kind]
  simp only [if_neg c10]
  by_cases c11 : find_opcode instr = op_addi
  · simp only [if_pos c11, exec_kind]
  simp only [if_neg c11]
  by_cases c12 : find_opcode instr = op_j
  · simp only [if_pos c12, exec_kind]
  simp only [if_neg c12]
  by_cases c13 : find_opcode instr = op_jal
  · simp only [if_pos c13, exec_kind]
  simp only [if_neg c13, exec_kind]

/-- The branch of a word is a function of its opcode and function code only,
and it is the one of the specification's table. -/
theorem branch_of_eq_spec_decode (w : Nat) (h : w < 65536) : branch_of w = spec_decode w := by
  unfold branch_of spec_decode
  simp only [find_opcode_eq, and_15, Nat.shiftRight_eq_div_pow]
  have h1 : w / 8192 < 8 := by omega
  have h2 : w % 16 < 16 := Nat.mod_lt _ (by decide)
  have e : w / 2 ^ 13 = w / 8192 := rfl
  rw [e]
  generalize w / 8192 = op at h1
  generalize w % 16 = fn at h2
  interval_cases op <;> interval_cases fn <;> rfl

/-- An invalid instruction prints the diagnostic, returns false and changes
nothing else. -/
theorem execute_instruction_invalid (instr b1 a1 b2 a2 : Nat) (s : State)
    (h : branch_of instr = Kind.invalid) :
    execute_instruction instr b1 a1 b2 a2 s =
      some (false, { s with out := s.out ++ [Output.invalid_instruction s.pc] }) := by
  rw [execute_instruction_eq_kind, h]
  rfl

/-- The run loop on an invalid instruction: `n` iterations print `n`
diagnostics and leave everything else as it was. -/
theorem run_loop_invalid (cfg : Config) (n : Nat) (s : State) (hpc : s.pc < MEM_SIZE)
    (hinv : branch_of (s.memory s.pc) = Kind.invalid) :
    run_loop cfg n s = some (false,
      { s with out := s.out ++ List.replicate n (Output.invalid_instruction s.pc) }) := by
  induction n generalizing s with
  | zero => simp [run_loop]
  | succ n ih =>
    have hstep := execute_instruction_invalid (s.memory s.pc) cfg.L1.blocksize cfg.L1.assoc
      cfg.blocks2 cfg.assoc2 s hinv
    simp only [run_loop, hpc, if_true, Option.bind_eq_bind, Option.some_bind, step, hstep,
      Bool.false_eq_true, if_false]
    rw [ih { s with out := s.out ++ [Output.invalid_instruction s.pc] } hpc hinv]
    simp [List.replicate_succ]

/-- C13: an invalid instruction never terminates.  For every state with `pc`
in range in which `memory[pc]` is an invalid instruction word (a word for which
`execute_instruction` reaches its final `else`), `execute_instruction`
returns false and leaves `pc`, all registers, memory and both caches
unchanged (it only prints the diagnostic); so for every `n` the run loop has
not halted after `n` iterations, and `pc`, registers, memory and caches are
then those of the starting state, the output having gained `n` diagnostics. -/
theorem C13_invalid_instruction_never_terminates (cfg : Config) (s : State)
    (hpc : s.pc < MEM_SIZE) (hinv : branch_of (s.memory s.pc) = Kind.invalid) :
    (∃ s', step cfg (s.memory s.pc) s = some (false, s') ∧ s'.pc = s.pc ∧
      s'.registers = s.registers ∧ s'.memory = s.memory ∧ s'.L1 = s.L1 ∧ s'.L2 = s.L2 ∧
      s'.out = s.out ++ [Output.invalid_instruction s.pc]) ∧
    ∀ n, ∃ s', run_loop cfg n s = some (false, s') ∧ s'.pc = s.pc ∧
      s'.registers = s.registers ∧ s'.memory = s.memory ∧ s'.L1 = s.L1 ∧ s'.L2 = s.L2 ∧
      s'.out = s.out ++ List.replicate n (Output.invalid_instruction s.pc) :=
  ⟨⟨_, execute_instruction_invalid _ _ _ _ _ s hinv, rfl, rfl, rfl, rfl, rfl, rfl⟩,
   fun n => ⟨_, run_loop_invalid cfg n s hpc hinv, rfl, rfl, rfl, rfl, rfl, rfl⟩⟩

/-- Witness of C13: with the word 5 (opcode 0, function code 5) in cell 0 and
`pc = 0`, three iterations of the run loop have not halted and leave
`pc = 0`. -/
theorem C13_invalid_instruction_never_terminates_witness :
    ∃ s', run_loop ⟨⟨2, 1, 1⟩, none⟩ 3
        { example_state 2 1 0 0 with memory := fun a => if a = 0 then 5 else 0 }
        = some (false, s') ∧ s'.pc = 0 ∧
      s'.out = [Output.invalid_instruction 0, Output.invalid_instruction 0,
        Output.invalid_instruction 0] := by
  obtain ⟨s', h1, h2, -, -, -, -, h3⟩ :=
    (C13_invalid_instruction_never_terminates ⟨⟨2, 1, 1⟩, none⟩
      { example_state 2 1 0 0 with memory := fun a => if a = 0 then 5 else 0 }
      (by decide) (by decide)).2 3
  exact ⟨s', h1, h2, h3⟩

/-- The final `else` is reached exactly for opcode 0 with a function code
outside 0, 1, 2, 3, 4, 8 (for words of 16 bits). -/
theorem spec_decode_invalid_iff (w : Nat) (h : w < 65536) :
    spec_decode w = Kind.invalid ↔
      (w >>> 13 = 0 ∧ w &&& 15 ≠ 0 ∧ w &&& 15 ≠ 1 ∧ w &&& 15 ≠ 2 ∧ w &&& 15 ≠ 3 ∧
        w &&& 15 ≠ 4 ∧ w &&& 15 ≠ 8) := by
  unfold spec_decode
  simp only [and_15, Nat.shiftRight_eq_div_pow]
  have h1 : w / 8192 < 8 := by omega
  have h2 : w % 16 < 16 := Nat.mod_lt _ (by decide)
  have e : w / 2 ^ 13 = w / 8192 := rfl
  rw [e]
  generalize w / 8192 = op at h1
  generalize w % 16 = fn at h2
  interval_cases op <;> interval_cases fn <;> decide

/-- C14: decode is exhaustive and unambiguous over 16-bit words.  For every
word `w < 2^16`, the branch `execute_instruction` takes is determined by
`opcode = w >> 13` and `fn = w & 15` as the table says (opcode 0 with fn 0, 1,
2, 3, 4, 8: add, sub, or, and, slt, jr; 1: addi; 2: j; 3: jal; 4: lw; 5: sw;
6: jeq; 7: slti), `execute_instruction` runs the body of that branch, and `w`
is treated as an invalid instruction if and only if the opcode is 0 and fn is
none of 0, 1, 2, 3, 4, 8. -/
theorem C14_decode_exhaustive (w : Nat) (h : w < 65536) :
    branch_of w = spec_decode w ∧
    (∀ (b1 a1 b2 a2 : Nat) (s : State),
      execute_instruction w b1 a1 b2 a2 s = exec_kind (spec_decode w) w b1 a1 b2 a2 s) ∧
    (branch_of w = Kind.invalid ↔
      (w >>> 13 = 0 ∧ w &&& 15 ≠ 0 ∧ w &&& 15 ≠ 1 ∧ w &&& 15 ≠ 2 ∧ w &&& 15 ≠ 3 ∧
        w &&& 15 ≠ 4 ∧ w &&& 15 ≠ 8)) := by
  have e := branch_of_eq_spec_decode w h
  refine ⟨e, fun b1 a1 b2 a2 s => ?_, ?_⟩
  · rw [← e]; exact execute_instruction_eq_kind w b1 a1 b2 a2 s
  · rw [e]; exact spec_decode_invalid_iff w h

/-- Witness of C14: the word 8325 (`addi $1,$0,5`) takes the addi branch, and
the word 5 is invalid. -/
theorem C14_decode_exhaustive_witness :
    branch_of 8325 = Kind.addi ∧ branch_of 5 = Kind.invalid :=
  ⟨(C14_decode_exhaustive 8325 (by decide)).1.trans (by decide),
   (C14_decode_exhaustive 5 (by decide)).2.2.2 (by decide)⟩

/-- The effective address of `lw` and `sw` as a number. -/
theorem pointer_of_eq (instr : Nat) (s : State) :
    ((pointer_of instr s : Nat) : Int) =
      ((s.registers ((instr >>> 10) &&& 7) : Int) + signed_imm instr) % 8192 ∧
    pointer_of instr s < 8192 := by
  unfold pointer_of
  rw [and_8191]
  have := signed_imm_range instr
  simp only [toUnsigned]
  omega

/-- The log entries of an executed `lw` all carry the `pc` of the `lw` and its
effective address. -/
theorem exec_lw_log {instr b1 a1 b2 a2 : Nat} {s : State} {r : Bool × State}
    (h : exec_lw instr b1 a1 b2 a2 s = some r) :
    ∃ entries, r.2.out = s.out ++ entries ∧
      ∀ e ∈ entries, ∃ nm st row, e = Output.log nm st s.pc (pointer_of instr s) row := by
  obtain ⟨rt, -, -, -, -, hc⟩ := exec_lw_cases h
  rcases hc with ⟨i, hr, -, -, -, -, -, hout⟩ | ⟨-, -, rt2, i, hr, -, -, -, -, -, -, hout⟩ |
    ⟨-, -, -, -, -, hout⟩ | ⟨-, -, rt2, -, -, -, -, -, hout⟩
  all_goals
    refine ⟨_, hout, fun e he => ?_⟩
    simp only [List.mem_cons, List.mem_singleton, List.not_mem_nil, or_false] at he
    rcases he with rfl | rfl <;> exact ⟨_, _, _, rfl⟩

/-- The log entries of an executed `sw` all carry the `pc` of the `sw` and its
effective address. -/
theorem exec_sw_log {instr b1 a1 b2 a2 : Nat} {s : State} {r : Bool × State}
    (h : exec_sw instr b1 a1 b2 a2 s = some r) :
    ∃ entries, r.2.out = s.out ++ entries ∧
      ∀ e ∈ entries, ∃ nm st row, e = Output.log nm st s.pc (pointer_of instr s) row := by
  obtain ⟨-, -, -, -, rt, blk, -, -, -, hno, hyes⟩ := exec_sw_some h
  by_cases hb : b2 = 0
  · refine ⟨_, (hno hb).2, fun e he => ?_⟩
    simp only [List.mem_singleton] at he
    exact ⟨_, _, _, he⟩
  · obtain ⟨rt2, blk2, -, -, -, hout⟩ := hyes hb
    refine ⟨_, hout, fun e he => ?_⟩
    simp only [List.mem_cons, List.mem_singleton, List.not_mem_nil, or_false] at he
    rcases he with rfl | rfl <;> exact ⟨_, _, _, rfl⟩

/-- C15: for every `lw` and `sw` word and every state, the effective address
equals `(registers[srcA] + s) mod 8192` with the non-negative modulus, where
`s` is the 7-bit immediate read as two's complement (`imm` if `imm <= 63`,
else `imm - 128`); it lies in `[0, 8192)` also when `registers[srcA] + s` is
negative.  It is the address of every log entry of the instruction, the cell
an `sw` writes and the cell an `lw` that logs no hit reads. -/
theorem C15_effective_address (instr b1 a1 b2 a2 : Nat) (s : State) :
    signed_imm instr =
      (if instr &&& 127 ≤ 63 then ((instr &&& 127 : Nat) : Int)
       else ((instr &&& 127 : Nat) : Int) - 128) ∧
    ((pointer_of instr s : Nat) : Int) =
      ((s.registers ((instr >>> 10) &&& 7) : Int) + signed_imm instr) % 8192 ∧
    pointer_of instr s < 8192 ∧
    (∀ r, (find_opcode instr = op_lw ∨ find_opcode instr = op_sw) →
      execute_instruction instr b1 a1 b2 a2 s = some r →
      ∃ entries, r.2.out = s.out ++ entries ∧
        ∀ e ∈ entries, ∃ nm st row, e = Output.log nm st s.pc (pointer_of instr s) row) ∧
    (∀ r, find_opcode instr = op_sw → execute_instruction instr b1 a1 b2 a2 s = some r →
      r.2.memory = Function.update s.memory (pointer_of instr s)
        (s.registers ((instr >>> 7) &&& 7))) ∧
    (∀ r entries, find_opcode instr = op_lw →
      execute_instruction instr b1 a1 b2 a2 s = some r →
      (instr >>> 7) &&& 7 ≠ 0 → r.2.out = s.out ++ entries →
      (∀ e ∈ entries, ∀ nm pc addr row, e ≠ Output.log nm Status.HIT pc addr row) →
      r.2.registers ((instr >>> 7) &&& 7) = s.memory (pointer_of instr s)) := by
  refine ⟨?_, (pointer_of_eq instr s).1, (pointer_of_eq instr s).2, ?_, ?_, ?_⟩
  · rw [signed_imm_eq, and_127]
  · rintro r (hop | hop) h
    · rw [execute_instruction_lw _ _ _ _ s hop] at h
      exact exec_lw_log h
    · rw [execute_instruction_sw _ _ _ _ s hop] at h
      exact exec_sw_log h
  · intro r hop h
    rw [execute_instruction_sw _ _ _ _ s hop] at h
    exact (exec_sw_some h).2.2.2.1
  · intro r entries hop h hd hent hnohit
    rw [execute_instruction_lw _ _ _ _ s hop] at h
    obtain ⟨rt, -, -, -, -, hc⟩ := exec_lw_cases h
    rcases hc with ⟨i, hr, -, -, -, -, -, hout⟩ | ⟨-, -, rt2, i, hr, -, -, -, -, -, -, hout⟩ |
      ⟨-, -, hreg, -⟩ | ⟨-, -, rt2, -, -, hreg, -⟩
    · rw [hent] at hout
      have := List.append_cancel_left hout
      subst this
      exact absurd rfl (hnohit _ (List.mem_singleton.2 rfl) _ _ _ _)
    · rw [hent] at hout
      have := List.append_cancel_left hout
      subst this
      exact absurd rfl (hnohit _ (List.mem_cons_of_mem _ (List.mem_singleton.2 rfl)) _ _ _ _)
    · rw [hreg, if_pos hd, Function.update_same]
    · rw [hreg, if_pos hd, Function.update_same]

/-- Witness of C15: `lw $1,-1($0)` (word 33023) with `registers[0] = 0` has
the effective address 8191, and `sw $1,-1($0)` (word 41215) writes cell
8191. -/
theorem C15_effective_address_witness :
    pointer_of 33023 (example_state 2 1 0 0) = 8191 ∧
    ∃ r, execute_instruction 41215 1 1 0 0
        { example_state 2 1 0 0 with registers := fun i => if i = 1 then 7 else 0 } = some r ∧
      r.2.memory 8191 = 7 := by
  have h := C15_effective_address 41215 1 1 0 0
    { example_state 2 1 0 0 with registers := fun i => if i = 1 then 7 else 0 }
  have h2 := h.2.2.2.2.1 _ (by decide) rfl
  refine ⟨?_, _, rfl, ?_⟩
  · have h3 := (C15_effective_address 33023 1 1 0 0 (example_state 2 1 0 0)).2.1
    have h4 : signed_imm 33023 = -1 := by rw [signed_imm_eq]; decide
    rw [h4] at h3
    have h5 : (example_state 2 1 0 0).registers ((33023 >>> 10) &&& 7) = 0 := rfl
    rw [h5] at h3
    have h6 : ((pointer_of 33023 (example_state 2 1 0 0) : Nat) : Int) = 8191 := h3.trans (by decide)
    exact_mod_cast h6
  · rw [h2]
    have hp : pointer_of 41215
        { example_state 2 1 0 0 with registers := fun i => if i = 1 then 7 else 0 } = 8191 := by
      decide
    rw [hp, Function.update_same]
    rfl

/-- What `jeq` does. -/
theorem exec_jeq_spec (instr : Nat) (s : State) :
    (exec_jeq instr s).1 = false ∧
    (exec_jeq instr s).2.registers = s.registers ∧ (exec_jeq instr s).2.memory = s.memory ∧
    (exec_jeq instr s).2.L1 = s.L1 ∧ (exec_jeq instr s).2.L2 = s.L2 ∧
    (exec_jeq instr s).2.out = s.out ∧
    (s.registers ((instr >>> 10) &&& 7) = s.registers ((instr >>> 7) &&& 7) →
      (((exec_jeq instr s).2.pc : Nat) : Int) = ((s.pc : Int) + 1 + signed_imm instr) % 8192) ∧
    (s.registers ((instr >>> 10) &&& 7) ≠ s.registers ((instr >>> 7) &&& 7) →
      (exec_jeq instr s).2.pc = (s.pc + 1) % 8192) := by
  by_cases h : s.registers ((instr >>> 10) &&& 7) = s.registers ((instr >>> 7) &&& 7)
  · have e : exec_jeq instr s = (false, increment_pc (1 + signed_imm instr) s) := by
      unfold exec_jeq
      exact if_pos h
    rw [e]
    refine ⟨rfl, rfl, rfl, rfl, rfl, rfl, fun _ => ?_, fun hne => absurd h hne⟩
    rw [increment_pc_pc]
    congr 1
    omega
  · have e : exec_jeq instr s = (false, increment_pc 1 s) := by
      unfold exec_jeq
      exact if_neg h
    rw [e]
    exact ⟨rfl, rfl, rfl, rfl, rfl, rfl, fun e => absurd e h, fun _ => increment_pc_one s⟩

/-- C16: for every `jeq` word (opcode 6) and every state (in particular with
`pc` in `[0, 8192)`): the instruction executes and returns false; if
`registers[srcA] == registers[srcB]` (`srcA` bits 10-12, `srcB` bits 7-9) the
new `pc` is `(pc + 1 + s) mod 8192`, where `s` is the 7-bit immediate read as
two's complement, in `[-64, 63]`; otherwise the new `pc` is
`(pc + 1) mod 8192`; registers, memory and caches are unchanged in both
cases. -/
theorem C16_jeq_semantics (instr b1 a1 b2 a2 : Nat) (s : State)
    (hop : find_opcode instr = op_jeq) :
    ∃ s', execute_instruction instr b1 a1 b2 a2 s = some (false, s') ∧
      s'.registers = s.registers ∧ s'.memory = s.memory ∧ s'.L1 = s.L1 ∧ s'.L2 = s.L2 ∧
      s'.out = s.out ∧ s'.pc < 8192 ∧
      signed_imm instr =
        (if instr &&& 127 ≤ 63 then ((instr &&& 127 : Nat) : Int)
         else ((instr &&& 127 : Nat) : Int) - 128) ∧
      -64 ≤ signed_imm instr ∧ signed_imm instr ≤ 63 ∧
      (s.registers ((instr >>> 10) &&& 7) = s.registers ((instr >>> 7) &&& 7) →
        ((s'.pc : Nat) : Int) = ((s.pc : Int) + 1 + signed_imm instr) % 8192) ∧
      (s.registers ((instr >>> 10) &&& 7) ≠ s.registers ((instr >>> 7) &&& 7) →
        s'.pc = (s.pc + 1) % 8192) := by
  obtain ⟨e1, e2, e3, e4, e5, e6, e7, e8⟩ := exec_jeq_spec instr s
  refine ⟨(exec_jeq instr s).2, ?_, e2, e3, e4, e5, e6, ?_, ?_, (signed_imm_range instr).1,
    (signed_imm_range instr).2, e7, e8⟩
  · rw [execute_instruction_jeq _ _ _ _ s hop, ← e1]
  · by_cases h : s.registers ((instr >>> 10) &&& 7) = s.registers ((instr >>> 7) &&& 7)
    · have := e7 h
      omega
    · rw [e8 h]
      omega
  · rw [signed_imm_eq, and_127]

/-- Witness of C16: `jeq $0,$0,-3` relative (word 49277, immediate 125 = -3)
at `pc = 1` with equal registers leads to `pc = 8191`. -/
theorem C16_jeq_semantics_witness :
    ∃ s', execute_instruction 49277 1 1 0 0 { example_state 2 1 0 0 with pc := 1 }
        = some (false, s') ∧ s'.pc = 8191 := by
  obtain ⟨s', h1, -, -, -, -, -, -, h2, -, -, h3, -⟩ :=
    C16_jeq_semantics 49277 1 1 0 0 { example_state 2 1 0 0 with pc := 1 } (by decide)
  refine ⟨s', h1, ?_⟩
  have h4 := h3 rfl
  rw [h2] at h4
  have h5 : ((s'.pc : Nat) : Int) = 8191 := h4.trans (by decide)
  exact_mod_cast h5

/-! ## The assembler's encodings -/

theorem reg_to_int_lt (r : String) : reg_to_int r < 8 := by
  unfold reg_to_int
  split_ifs <;> decide

theorem shl_or_low (q m k : Nat) (hm : m < 2 ^ k) : (q <<< k) ||| m = q * 2 ^ k + m := by
  rw [Nat.shiftLeft_eq, Nat.mul_comm, Nat.mul_add_lt_is_or hm]

/-- The value of `imm ^ mask`, converted to `unsigned`, for a 7-bit signed
immediate: the low 7 bits of the immediate, below sixteen ones when it is
negative. -/
theorem imm_field (rel : Int) (h1 : -64 ≤ rel) (h2 : rel ≤ 63) :
    toUnsigned (int_xor rel (imm_mask rel)) =
      (if rel < 0 then 4294901760 else 0) + (rel % 128).toNat := by
  interval_cases rel <;> decide

/-- The low 16 bits of an upper field `q` (at most 9 bits) shifted over a
7-bit immediate field. -/
theorem field_word (q : Nat) (hq : q < 512) (rel : Int) (h1 : -64 ≤ rel) (h2 : rel ≤ 63) :
    print_machine_code ((q <<< 7) ||| toUnsigned (int_xor rel (imm_mask rel)))
      = q * 128 + (rel % 128).toNat := by
  rw [imm_field rel h1 h2]
  have hm : (rel % 128).toNat < 128 := by omega
  unfold print_machine_code
  by_cases hneg : rel < 0
  · rw [if_pos hneg]
    have e1 : 4294901760 + (rel % 128).toNat = 2 ^ 16 * 65535 + (rel % 128).toNat := by
      norm_num
    have h16 : (rel % 128).toNat < 2 ^ 16 := by omega
    have hs : q * 2 ^ 7 + (rel % 128).toNat < 2 ^ 16 := by omega
    rw [e1, Nat.mul_add_lt_is_or h16, ← Nat.lor_assoc, Nat.lor_comm (q <<< 7),
      Nat.lor_assoc, shl_or_low q _ 7 hm, ← Nat.mul_add_lt_is_or hs]
    omega
  · rw [if_neg hneg, Nat.zero_add, shl_or_low q _ 7 hm]
    omega

theorem reg_to_int_reg_name (a : Nat) (h : a < 8) : reg_to_int (reg_name a) = a := by
  interval_cases a <;> decide

theorem encode_line_jeq (i : Nat) (a b : String) (imm : Int) :
    encode_line i ⟨"jeq", Operands.rri a b imm⟩ =
      some (((((6 <<< 3) ||| reg_to_int a) <<< 3 ||| reg_to_int b) <<< 7)
        ||| toUnsigned (int_xor (toInt (toUnsigned (imm - (i : Int) - 1)))
          (imm_mask (toInt (toUnsigned (imm - (i : Int) - 1)))))) := rfl

theorem toInt_toUnsigned (x : Int) (h1 : -2147483648 ≤ x) (h2 : x < 2147483648) :
    toInt (toUnsigned x) = x := by
  simp only [toInt, toUnsigned]
  split <;> omega

/-- C17: the assembler and the executor agree on `jeq` targets.  For every
instruction index `i < 8192`, registers `$a`, `$b` (`a, b < 8`) and absolute
target `t` with `-64 <= t - i - 1 <= 63` and `0 <= t < 8192`: `program_to_int`
produces a value for the line `jeq $a,$b,t` at index `i`; its low 16 bits
decode in the simulator as `jeq` (opcode 6) with `srcA = a` (bits 10-12) and
`srcB = b` (bits 7-9); and executing that word at `pc = i` sets `pc` to
exactly `t` when `registers[a] == registers[b]`, and to `(i + 1) mod 8192`
when they differ.  (The bound `i < 8192` of the claim is not needed for the
proof: the statement holds for every index.) -/
theorem C17_jeq_assembler_executor_agree (i a b : Nat) (t : Int) (b1 a1 b2 a2 : Nat)
    (s : State) (ha : a < 8) (hb : b < 8)
    (ht1 : -64 ≤ t - (i : Int) - 1) (ht2 : t - (i : Int) - 1 ≤ 63)
    (ht3 : 0 ≤ t) (ht4 : t < 8192) (hpc : s.pc = i) :
    ∃ v, encode_line i ⟨"jeq", Operands.rri (reg_name a) (reg_name b) t⟩ = some v ∧
      find_opcode (print_machine_code v) = op_jeq ∧
      (print_machine_code v >>> 10) &&& 7 = a ∧
      (print_machine_code v >>> 7) &&& 7 = b ∧
      ∃ s', execute_instruction (print_machine_code v) b1 a1 b2 a2 s = some (false, s') ∧
        (s.registers a = s.registers b → ((s'.pc : Nat) : Int) = t) ∧
        (s.registers a ≠ s.registers b → s'.pc = (i + 1) % 8192) := by
  refine ⟨_, encode_line_jeq i _ _ t, ?_⟩
  rw [reg_to_int_reg_name a ha, reg_to_int_reg_name b hb,
    toInt_toUnsigned _ (by omega) (by omega)]
  have hq : (((6 <<< 3) ||| a) <<< 3 ||| b) = 384 + a * 8 + b := by
    rw [shl_or_low 6 a 3 (by omega), shl_or_low _ b 3 (by omega)]
    omega
  rw [hq, field_word _ (by omega) _ ht1 ht2]
  have hm : ((t - (i : Int) - 1) % 128).toNat < 128 := by omega
  have hop : find_opcode ((384 + a * 8 + b) * 128 + ((t - (i : Int) - 1) % 128).toNat)
      = op_jeq := by
    rw [find_opcode_eq, op_jeq]; omega
  have hA : (((384 + a * 8 + b) * 128 + ((t - (i : Int) - 1) % 128).toNat) >>> 10) &&& 7 = a := by
    rw [shr_10, and_7]; omega
  have hB : (((384 + a * 8 + b) * 128 + ((t - (i : Int) - 1) % 128).toNat) >>> 7) &&& 7 = b := by
    rw [shr_7, and_7]; omega
  have himm : signed_imm ((384 + a * 8 + b) * 128 + ((t - (i : Int) - 1) % 128).toNat)
      = t - (i : Int) - 1 := by
    rw [signed_imm_eq]; split <;> omega
  refine ⟨hop, hA, hB, ?_⟩
  obtain ⟨e1, -, -, -, -, -, e7, e8⟩ :=
    exec_jeq_spec ((384 + a * 8 + b) * 128 + ((t - (i : Int) - 1) % 128).toNat) s
  rw [hA, hB] at e7 e8
  refine ⟨(exec_jeq ((384 + a * 8 + b) * 128 + ((t - (i : Int) - 1) % 128).toNat) s).2,
    ?_, fun h => ?_, fun h => ?_⟩
  · rw [execute_instruction_jeq _ _ _ _ s hop, ← e1]
  · rw [e7 h, himm, hpc]
    omega
  · rw [e8 h, hpc]

/-- Witness of C17: `jeq $1,$2,3` at index 5 (relative offset -3) is the word
50557; at `pc = 5` with equal registers it leads to `pc = 3`. -/
theorem C17_jeq_assembler_executor_agree_witness :
    encode_line 5 ⟨"jeq", Operands.rri "$1" "$2" 3⟩ = some 4294952317 ∧
    print_machine_code 4294952317 = 50557 ∧
    ∃ s', execute_instruction 50557 1 1 0 0 { example_state 2 1 0 0 with pc := 5 }
        = some (false, s') ∧ s'.pc = 3 := by
  obtain ⟨v, h1, -, -, -, s', h2, h3, -⟩ :=
    C17_jeq_assembler_executor_agree 5 1 2 3 1 1 0 0 { example_state 2 1 0 0 with pc := 5 }
      (by decide) (by decide) (by decide) (by decide) (by decide) (by decide) rfl
  have hv : some v = some 4294952317 := h1.symm.trans (by decide)
  cases hv
  refine ⟨by decide, by decide, s', h2, ?_⟩
  have h4 : ((s'.pc : Nat) : Int) = 3 := h3 rfl
  exact_mod_cast h4

/-! ## The range of `pc` -/

theorem increment_pc_lt (n : Int) (s : State) : (increment_pc n s).pc < 8192 := by
  have := increment_pc_pc n s
  omega

theorem set_pc_lt (n : Int) (s : State) : (set_pc n s).pc < 8192 := by
  rw [set_pc_pc]
  exact Nat.mod_lt _ (by decide)

/-- Every instruction leaves `pc` below 8192 when it was below 8192. -/
theorem execute_instruction_pc_lt {instr b1 a1 b2 a2 : Nat} {s : State} {r : Bool × State}
    (hpc : s.pc < 8192) (h : execute_instruction instr b1 a1 b2 a2 s = some r) :
    r.2.pc < 8192 := by
  revert r
  apply execute_instruction_cases (fun o => ∀ {r : Bool × State}, o = some r → r.2.pc < 8192)
  case hlw =>
    intro _ r h
    obtain ⟨rt, -, -, e, -⟩ := exec_lw_cases h
    rw [e]
    exact increment_pc_lt 1 s
  case hsw =>
    intro _ r h
    rw [(exec_sw_some h).2.1]
    exact increment_pc_lt 1 s
  case hinv => intro r h; cases h; exact hpc
  case hj =>
    intro _ r h
    cases h
    simp only [exec_j]
    split
    · exact hpc
    · exact set_pc_lt _ _
  case hjeq =>
    intro _ r h
    cases h
    simp only [exec_jeq]
    split <;> exact increment_pc_lt _ _
  case hjr => intro _ r h; cases h; exact set_pc_lt _ _
  case hjal => intro _ r h; cases h; exact set_pc_lt _ _
  all_goals
    intro _ r h
    cases h
    exact increment_pc_lt 1 _

/-- The instructions other than `lw` and `sw` always produce a result. -/
theorem execute_instruction_defined (instr b1 a1 b2 a2 : Nat) (s : State)
    (hlw : find_opcode instr ≠ op_lw) (hsw : find_opcode instr ≠ op_sw) :
    ∃ r, execute_instruction instr b1 a1 b2 a2 s = some r := by
  apply execute_instruction_cases (fun o => ∃ r, o = some r)
  case hlw => intro e; exact absurd e hlw
  case hsw => intro e; exact absurd e hsw
  case hinv => exact ⟨_, rfl⟩
  all_goals
    intro _
    exact ⟨_, rfl⟩

/-- The state in which `main` enters the run loop. -/
theorem main_init_eq_some {cfg : Config} {memory : Nat → Nat} {s : State}
    (h : main_init cfg memory = some s) :
    s.pc = 0 ∧ s.registers = (fun _ => 0) ∧ s.memory = memory ∧ s.out = [] ∧
    (∃ rows, s.L1 = make_level rows cfg.L1.assoc) ∧
    (s.L2 = no_level ∨ ∃ rows assoc, s.L2 = make_level rows assoc) := by
  unfold main_init at h
  split at h
  · cases h
  · cases hL2 : cfg.L2 with
    | none =>
      simp only [hL2, Option.some.injEq] at h
      subst h
      exact ⟨rfl, rfl, rfl, rfl, ⟨_, rfl⟩, Or.inl rfl⟩
    | some l2 =>
      simp only [hL2] at h
      split at h
      · cases h
      · simp only [Option.some.injEq] at h
        subst h
        exact ⟨rfl, rfl, rfl, rfl, ⟨_, rfl⟩, Or.inr ⟨_, _, rfl⟩⟩

theorem run_words_pc_lt {cfg : Config} (ws : List Nat) {s s' : State}
    (h : run_words cfg ws s = some s') (hpc : s.pc < 8192) : s'.pc < 8192 := by
  induction ws generalizing s with
  | nil =>
    simp only [run_words, Option.some.injEq] at h
    subst h
    exact hpc
  | cons w ws ih =>
    simp only [run_words, Option.bind_eq_bind, Option.bind_eq_some] at h
    obtain ⟨r, hr, hrest⟩ := h
    exact ih hrest (execute_instruction_pc_lt hpc hr)

theorem reachable_pc_lt {cfg : Config} {s : State} (h : Reachable cfg s) : s.pc < 8192 := by
  obtain ⟨memory, s0, ws, h0, hrun⟩ := h
  refine run_words_pc_lt ws hrun ?_
  rw [(main_init_eq_some h0).1]
  decide

/-- C18: `pc` stays in range.  For every state with `pc < 8192` and every
instruction word (valid or invalid, `jr` with any register value, `jal`, `j`,
`jeq` with a negative offset included), `pc < 8192` after
`execute_instruction` whenever the instruction produces a state, and every
word whose opcode is not `lw` or `sw` does produce one (`lw` and `sw` can
divide by zero or index outside a table).  Hence `pc < MEM_SIZE` in every state
reachable from the start of the run loop, and the fetch `memory[pc]` of the run
loop is in range there: the loop goes on with `execute_instruction` of
`memory[pc]`. -/
theorem C18_pc_stays_in_range :
    (∀ (instr b1 a1 b2 a2 : Nat) (s : State) (r : Bool × State), s.pc < 8192 →
      execute_instruction instr b1 a1 b2 a2 s = some r → r.2.pc < 8192) ∧
    (∀ (instr b1 a1 b2 a2 : Nat) (s : State),
      find_opcode instr ≠ op_lw → find_opcode instr ≠ op_sw →
      ∃ r, execute_instruction instr b1 a1 b2 a2 s = some r) ∧
    (∀ (cfg : Config) (s : State), Reachable cfg s →
      s.pc < MEM_SIZE ∧
      ∀ n, run_loop cfg (n + 1) s =
        (step cfg (s.memory s.pc) s).bind
          (fun r => if r.1 then some (true, r.2) else run_loop cfg n r.2)) := by
  refine ⟨fun instr b1 a1 b2 a2 s r hpc h => execute_instruction_pc_lt hpc h,
    execute_instruction_defined, fun cfg s h => ?_⟩
  have hpc : s.pc < MEM_SIZE := by
    rw [MEM_SIZE_eq]
    exact reachable_pc_lt h
  refine ⟨hpc, fun n => ?_⟩
  simp only [run_loop, if_pos hpc, Option.bind_eq_bind, Option.some_bind, Option.pure_def]

/-- Witness of C18: `jr $1` (word 1032) with `registers[1] = 65535` at
`pc = 8191` produces a state, with `pc = 65535 mod 8192 = 8191`; and the start
state of the configuration `2,1,1` is reachable, with `pc = 0`. -/
theorem C18_pc_stays_in_range_witness :
    (∃ r, execute_instruction 1032 1 1 0 0
        { example_state 2 1 0 0 with pc := 8191, registers := fun _ => 65535 } = some r ∧
      r.2.pc = 8191 ∧ r.2.pc < 8192) ∧
    (example_state 2 1 0 0).pc < MEM_SIZE := by
  constructor
  · obtain ⟨r, hr⟩ := C18_pc_stays_in_range.2.1 1032 1 1 0 0
      { example_state 2 1 0 0 with pc := 8191, registers := fun _ => 65535 }
      (by decide) (by decide)
    refine ⟨r, hr, ?_, C18_pc_stays_in_range.1 _ _ _ _ _ _ r (by decide) hr⟩
    have e : execute_instruction 1032 1 1 0 0
        { example_state 2 1 0 0 with pc := 8191, registers := fun _ => 65535 }
        = some (exec_jr 1032
          { example_state 2 1 0 0 with pc := 8191, registers := fun _ => 65535 }) := by
      rw [execute_instruction_eq_kind]
      rfl
    rw [e] at hr
    cases hr
    decide
  · refine (C18_pc_stays_in_range.2.2 ⟨⟨2, 1, 1⟩, none⟩ (example_state 2 1 0 0)
      ⟨fun _ => 0, example_state 2 1 0 0, [], ?_, rfl⟩).1
    rfl

/-! ## Sixteen-bit values -/

theorem update_lt {regs : Nat → Nat} {n : Nat} (h : ∀ r, regs r < n) (d v : Nat) (hv : v < n) :
    ∀ r, Function.update regs d v r < n := by
  intro r
  by_cases e : r = d
  · subst e; simpa using hv
  · simpa [Function.update_noteq e] using h r

theorem values16_set_register {s : State} (hv : Values16 s) (d v : Nat) (h : v < 65536) :
    Values16 (set_register d v s) :=
  ⟨update_lt hv.1 d v h, hv.2.1, hv.2.2.1, hv.2.2.2⟩

theorem values16_increment_pc {s : State} (hv : Values16 s) (n : Int) :
    Values16 (increment_pc n s) := hv

theorem values16_set_pc {s : State} (hv : Values16 s) (n : Int) :
    Values16 (set_pc n s) := hv

theorem and_65535_lt (x : Nat) : x &&& 65535 < 65536 := by
  rw [and_65535]
  exact Nat.mod_lt _ (by decide)

theorem fetch_block_lt {memory : Nat → Nat} {start blocks : Nat} {blk : List Nat}
    (hmem : ∀ a, a < MEM_SIZE → memory a < 65536)
    (h : fetch_block memory start blocks = some blk) : ∀ v ∈ blk, v < 65536 := by
  unfold fetch_block at h
  split at h
  · next hc =>
    cases h
    intro v hv
    obtain ⟨i, hi, rfl⟩ := List.mem_map.1 hv
    exact hmem _ (hc i (List.mem_range.1 hi))
  · cases h

theorem blocks16_set {c : CacheLevel} (hc : Blocks16 c) (k : Nat) {blk : List Nat}
    (hblk : ∀ v ∈ blk, v < 65536) : ∀ b ∈ c.blockdata.set k blk, ∀ v ∈ b, v < 65536 := by
  intro b hb
  rcases List.mem_or_eq_of_mem_set hb with h | h
  · exact hc b h
  · subst h; exact hblk

theorem install_blocks16 {c c' : CacheLevel} {row assoc tag : Nat} {blk : List Nat}
    (hc : Blocks16 c) (hblk : ∀ v ∈ blk, v < 65536)
    (h : install c row assoc tag blk = some c') : Blocks16 c' := by
  simp only [install, Option.bind_eq_bind, Option.bind_eq_some] at h
  obtain ⟨free, -, h⟩ := h
  cases free with
  | some i =>
    simp only [Option.bind_eq_some] at h
    obtain ⟨w, -, b0, -, h⟩ := h
    obtain ⟨d, -, -, e, -⟩ := updateMRU_eq_some h
    unfold Blocks16
    rw [e]
    exact blocks16_set hc _ hblk
  | none =>
    simp only [Option.bind_eq_some] at h
    obtain ⟨d0, -, k, -, w, -, b0, -, h⟩ := h
    obtain ⟨d, -, -, e, -⟩ := updateMRU_eq_some h
    unfold Blocks16
    rw [e]
    exact blocks16_set hc _ hblk

theorem hit_read_values16 {c : CacheLevel} {row assoc i pointer blocks regDst : Nat}
    {regs : Nat → Nat} {r : (Nat → Nat) × CacheLevel}
    (hc : Blocks16 c) (hregs : ∀ x, regs x < 65536)
    (h : hit_read c row assoc i pointer blocks regDst regs = some r) :
    (∀ x, r.1 x < 65536) ∧ Blocks16 r.2 := by
  obtain ⟨hu, hr⟩ := hit_read_eq_some.1 h
  obtain ⟨d, -, -, e, -⟩ := updateMRU_eq_some hu
  refine ⟨?_, ?_⟩
  · rcases hr with ⟨-, e1⟩ | ⟨-, b, v, hb, hv, e1⟩
    · rw [e1]; exact hregs
    · rw [e1]
      exact update_lt hregs _ _
        (hc b (List.mem_iff_getElem?.2 ⟨_, hb⟩) v (List.mem_iff_getElem?.2 ⟨_, hv⟩))
  · unfold Blocks16
    rw [e]
    exact hc

theorem load_registers_lt {s : State} (hv : Values16 s) (d p : Nat) (hp : p < 8192) :
    ∀ x, (if d ≠ 0 then Function.update s.registers d (s.memory p) else s.registers) x
      < 65536 := by
  split
  · exact update_lt hv.1 _ _ (hv.2.1 p (by rw [MEM_SIZE_eq]; exact hp))
  · exact hv.1

/-- Every instruction keeps the registers, the memory words and the cached
block words below `2^16`, from a state with `pc < 8192`. -/
theorem execute_instruction_values16 {instr b1 a1 b2 a2 : Nat} {s : State} {r : Bool × State}
    (hpc : s.pc < 8192) (hv : Values16 s)
    (h : execute_instruction instr b1 a1 b2 a2 s = some r) : Values16 r.2 := by
  revert r
  apply execute_instruction_cases (fun o => ∀ {r : Bool × State}, o = some r → Values16 r.2)
  case hlw =>
    intro _ r h
    obtain ⟨rt, -, -, -, emem, hcases⟩ := exec_lw_cases h
    have hp := (pointer_of_eq instr s).2
    have hm : ∀ a, a < MEM_SIZE → r.2.memory a < 65536 := by rw [emem]; exact hv.2.1
    rcases hcases with ⟨i, hr, -, hhit, e1, e2, e3, -⟩ | ⟨-, -, rt2, i, hr, -, -, hhit, e1, e2, e3, -⟩ |
      ⟨-, -, e1, ⟨blk, hf, hi⟩, e3, -⟩ | ⟨-, -, rt2, -, -, e1, ⟨blk, hf, hi⟩, ⟨blk2, hf2, hi2⟩, -⟩
    · obtain ⟨h1, h2⟩ := hit_read_values16 hv.2.2.1 hv.1 hhit
      exact ⟨by rw [e1]; exact h1, hm, by rw [e2]; exact h2, by rw [e3]; exact hv.2.2.2⟩
    · obtain ⟨h1, h2⟩ := hit_read_values16 hv.2.2.2 hv.1 hhit
      exact ⟨by rw [e1]; exact h1, hm, by rw [e2]; exact hv.2.2.1, by rw [e3]; exact h2⟩
    · exact ⟨by rw [e1]; exact load_registers_lt hv _ _ hp, hm,
        install_blocks16 hv.2.2.1 (fetch_block_lt hv.2.1 hf) hi, by rw [e3]; exact hv.2.2.2⟩
    · exact ⟨by rw [e1]; exact load_registers_lt hv _ _ hp, hm,
        install_blocks16 hv.2.2.1 (fetch_block_lt hv.2.1 hf) hi,
        install_blocks16 hv.2.2.2 (fetch_block_lt hv.2.1 hf2) hi2⟩
  case hsw =>
    intro _ r h
    obtain ⟨-, -, ereg, emem, rt, blk, -, hf, hi, h0, h1⟩ := exec_sw_some h
    have hm : ∀ a, a < MEM_SIZE → r.2.memory a < 65536 := by
      rw [emem]
      intro a ha
      by_cases e : a = pointer_of instr s
      · rw [e, Function.update_same]
        exact hv.1 _
      · rw [Function.update_noteq e]
        exact hv.2.1 a ha
    refine ⟨by rw [ereg]; exact hv.1, hm,
      install_blocks16 hv.2.2.1 (fetch_block_lt hm hf) hi, ?_⟩
    by_cases hb : b2 = 0
    · rw [(h0 hb).1]; exact hv.2.2.2
    · obtain ⟨rt2, blk2, -, hf2, hi2, -⟩ := h1 hb
      exact install_blocks16 hv.2.2.2 (fetch_block_lt hm hf2) hi2
  case hinv => intro r h; cases h; exact hv
  case hj =>
    intro _ r h
    cases h
    simp only [exec_j]
    split
    · exact hv
    · exact hv
  case hjeq =>
    intro _ r h
    cases h
    simp only [exec_jeq]
    split <;> exact hv
  case hjr => intro _ r h; cases h; exact hv
  case hjal =>
    intro _ r h
    cases h
    exact values16_set_pc (values16_set_register hv _ _ (by omega)) _
  case hadd =>
    intro _ r h
    cases h
    simp only [exec_add]
    split
    · exact values16_increment_pc (values16_set_register hv _ _ (and_65535_lt _)) _
    · exact hv
  case hsub =>
    intro _ r h
    cases h
    simp only [exec_sub]
    split
    · exact values16_increment_pc (values16_set_register hv _ _ (and_65535_lt _)) _
    · exact hv
  case hor =>
    intro _ r h
    cases h
    simp only [exec_or]
    split
    · exact values16_increment_pc (values16_set_register hv _ _ (and_65535_lt _)) _
    · exact hv
  case hand =>
    intro _ r h
    cases h
    simp only [exec_and]
    split
    · exact values16_increment_pc (values16_set_register hv _ _ (and_65535_lt _)) _
    · exact hv
  case haddi =>
    intro _ r h
    cases h
    simp only [exec_addi]
    split
    · exact values16_increment_pc (values16_set_register hv _ _ (and_65535_lt _)) _
    · exact hv
  case hslt =>
    intro _ r h
    cases h
    simp only [exec_slt]
    split_ifs
    · exact values16_increment_pc (values16_set_register hv _ _ (by decide)) _
    · exact values16_increment_pc (values16_set_register hv _ _ (by decide)) _
    · exact hv
  case hslti =>
    intro _ r h
    cases h
    simp only [exec_slti]
    split_ifs
    all_goals
      first
        | exact hv
        | exact values16_increment_pc (values16_set_register hv _ _ (by decide)) _


theorem make_level_blocks16 (rows assoc : Nat) : Blocks16 (make_level rows assoc) := by
  intro blk hblk v hv
  simp only [make_level, List.mem_flatMap, List.mem_replicate] at hblk
  obtain ⟨_, -, -, rfl⟩ := hblk
  cases hv

theorem main_init_values16 {cfg : Config} {memory : Nat → Nat} {s : State}
    (hmem : ∀ a, a < MEM_SIZE → memory a < 65536) (h : main_init cfg memory = some s) :
    Values16 s := by
  obtain ⟨-, hr, hm, -, ⟨rows, h1⟩, h2⟩ := main_init_eq_some h
  refine ⟨fun r => by rw [hr]; exact Nat.zero_lt_succ _, by rw [hm]; exact hmem, ?_, ?_⟩
  · rw [h1]; exact make_level_blocks16 _ _
  · rcases h2 with h2 | ⟨rows2, assoc2, h2⟩
    · rw [h2]
      intro blk hblk
      cases hblk
    · rw [h2]; exact make_level_blocks16 _ _

theorem run_words_values16 {cfg : Config} (ws : List Nat) {s s' : State}
    (h : run_words cfg ws s = some s') (hpc : s.pc < 8192) (hv : Values16 s) :
    Values16 s' := by
  induction ws generalizing s with
  | nil =>
    simp only [run_words, Option.some.injEq] at h
    subst h
    exact hv
  | cons w ws ih =>
    simp only [run_words, Option.bind_eq_bind, Option.bind_eq_some] at h
    obtain ⟨r, hr, hrest⟩ := h
    exact ih hrest (execute_instruction_pc_lt hpc hr) (execute_instruction_values16 hpc hv hr)

/-- C19: all architectural values stay 16-bit.  If every word of the memory
`main` starts from is below `2^16` (the registers are all 0 at the start of
the run loop), then in every state reached by executing any sequence of
instruction words, under any cache configuration, every register and every
memory word is below `2^16`, and so is every word of every cached block of L1
and L2; the writes of `jal`, `lw` and `sw`, which are not masked, are
included. -/
theorem C19_values_stay_16_bit (cfg : Config) (memory : Nat → Nat) (ws : List Nat)
    (s0 s : State) (hmem : ∀ a, a < MEM_SIZE → memory a < 65536)
    (h0 : main_init cfg memory = some s0) (hrun : run_words cfg ws s0 = some s) :
    (∀ r, s.registers r < 65536) ∧ (∀ a, a < MEM_SIZE → s.memory a < 65536) ∧
    (∀ blk ∈ s.L1.blockdata, ∀ v ∈ blk, v < 65536) ∧
    (∀ blk ∈ s.L2.blockdata, ∀ v ∈ blk, v < 65536) := by
  have hpc : s0.pc < 8192 := by
    rw [(main_init_eq_some h0).1]
    decide
  exact run_words_values16 ws hrun hpc (main_init_values16 hmem h0)

/-- Witness of C19: configuration `2,1,1` on the memory of zeros, after
`jal 5`, `sw $7,3($0)` and `lw $1,3($0)`: register 7 holds the return address
1, which `sw` stores in cell 3 and `lw` reads back from the cached block. -/
theorem C19_values_stay_16_bit_witness :
    ∃ s, run_words ⟨⟨2, 1, 1⟩, none⟩ [24581, 41859, 32899] (example_state 2 1 0 0) = some s ∧
      s.registers 7 = 1 ∧ s.memory 3 = 1 ∧ s.registers 1 = 1 ∧
      (∀ r, s.registers r < 65536) ∧ (∀ a, a < MEM_SIZE → s.memory a < 65536) ∧
      (∀ blk ∈ s.L1.blockdata, ∀ v ∈ blk, v < 65536) ∧
      (∀ blk ∈ s.L2.blockdata, ∀ v ∈ blk, v < 65536) :=
  ⟨_, rfl, by decide, by decide, by decide,
    C19_values_stay_16_bit ⟨⟨2, 1, 1⟩, none⟩ (fun _ => 0) [24581, 41859, 32899]
      (example_state 2 1 0 0) _ (fun _ _ => Nat.zero_lt_succ _) rfl rfl⟩

/-! ## The ALU operations -/

theorem execute_instruction_add {instr : Nat} (b1 a1 b2 a2 : Nat) (s : State)
    (h : find_opcode instr = op_add ∧ instr &&& 15 = 0) :
    execute_instruction instr b1 a1 b2 a2 s = some (exec_add instr s) := by
  unfold execute_instruction
  exact if_pos h

theorem execute_instruction_sub {instr : Nat} (b1 a1 b2 a2 : Nat) (s : State)
    (h : find_opcode instr = op_sub ∧ instr &&& 15 = 1) :
    execute_instruction instr b1 a1 b2 a2 s = some (exec_sub instr s) := by
  unfold execute_instruction
  rw [if_neg (by rw [h.2]; simp), if_pos h]

theorem execute_instruction_or {instr : Nat} (b1 a1 b2 a2 : Nat) (s : State)
    (h : find_opcode instr = op_or ∧ instr &&& 15 = 2) :
    execute_instruction instr b1 a1 b2 a2 s = some (exec_or instr s) := by
  unfold execute_instruction
  rw [if_neg (by rw [h.2]; simp), if_neg (by rw [h.2]; simp), if_pos h]

theorem execute_instruction_and {instr : Nat} (b1 a1 b2 a2 : Nat) (s : State)
    (h : find_opcode instr = op_and ∧ instr &&& 15 = 3) :
    execute_instruction instr b1 a1 b2 a2 s = some (exec_and instr s) := by
  unfold execute_instruction
  rw [if_neg (by rw [h.2]; simp), if_neg (by rw [h.2]; simp), if_neg (by rw [h.2]; simp),
    if_pos h]

theorem execute_instruction_slt {instr : Nat} (b1 a1 b2 a2 : Nat) (s : State)
    (h : find_opcode instr = op_slt ∧ instr &&& 15 = 4) :
    execute_instruction instr b1 a1 b2 a2 s = some (exec_slt instr s) := by
  unfold execute_instruction
  rw [if_neg (by rw [h.2]; simp), if_neg (by rw [h.2]; simp), if_neg (by rw [h.2]; simp),
    if_neg (by rw [h.2]; simp), if_pos h]

theorem or_lt_65536 {a b : Nat} (ha : a < 65536) (hb : b < 65536) : a ||| b < 65536 :=
  Nat.or_lt_two_pow (n := 16) ha hb

theorem and_lt_65536 {a b : Nat} (ha : a < 65536) : a &&& b < 65536 :=
  lt_of_le_of_lt Nat.and_le_left ha

/-- The state after an ALU operation that writes `v`. -/
theorem alu_state (d v : Nat) (s s' : State)
    (h : s' = increment_pc 1 (if d ≠ 0 then set_register d v s else s)) :
    s'.registers = (if d ≠ 0 then Function.update s.registers d v else s.registers) ∧
    s'.memory = s.memory ∧ s'.L1 = s.L1 ∧ s'.L2 = s.L2 ∧ s'.out = s.out ∧
    s'.pc = (s.pc + 1) % 8192 := by
  subst h
  rw [increment_pc_one]
  split <;> exact ⟨rfl, rfl, rfl, rfl, rfl, rfl⟩

/-- C20: ALU semantics.  For every word decoding as add, sub, or, and, slt
(opcode 0 and function code 0 to 4; `srcA` = bits 10-12, `srcB` = bits 7-9,
`dst` = bits 4-6) and every state in which `a = registers[srcA]` and
`b = registers[srcB]` are 16-bit: the instruction executes, without halting;
when `dst != 0` the new `registers[dst]` is `(a + b) mod 2^16`,
`(a - b) mod 2^16` (wrapped to a non-negative value when `a < b`), `a OR b`,
`a AND b`, and 1 if `a < b` as unsigned integers else 0, respectively, and
every other register is unchanged; when `dst == 0` no register changes; memory,
both cache levels and the output are unchanged, and `pc` becomes
`(pc + 1) mod 8192`. -/
theorem C20_alu_semantics (instr b1 a1 b2 a2 : Nat) (s : State)
    (hop : find_opcode instr = 0) (hfn : instr &&& 15 ≤ 4)
    (ha : s.registers ((instr >>> 10) &&& 7) < 65536)
    (hb : s.registers ((instr >>> 7) &&& 7) < 65536) :
    ∃ s', execute_instruction instr b1 a1 b2 a2 s = some (false, s') ∧
      s'.registers =
        (if (instr >>> 4) &&& 7 ≠ 0 then
          Function.update s.registers ((instr >>> 4) &&& 7)
            (alu_spec (instr &&& 15) (s.registers ((instr >>> 10) &&& 7))
              (s.registers ((instr >>> 7) &&& 7)))
        else s.registers) ∧
      s'.memory = s.memory ∧ s'.L1 = s.L1 ∧ s'.L2 = s.L2 ∧ s'.out = s.out ∧
      s'.pc = (s.pc + 1) % 8192 := by
  generalize hfn' : instr &&& 15 = fn at hfn
  interval_cases fn
  · refine ⟨_, execute_instruction_add b1 a1 b2 a2 s ⟨hop, hfn'⟩, ?_⟩
    refine alu_state _ _ s _ ?_
    simp only [exec_add, alu_spec]
    rw [and_65535]
    congr 3
    omega
  · refine ⟨_, execute_instruction_sub b1 a1 b2 a2 s ⟨hop, hfn'⟩, ?_⟩
    refine alu_state _ _ s _ ?_
    simp only [exec_sub, alu_spec]
    rw [and_65535]
    congr 3
    simp only [toUnsigned]
    split <;> omega
  · refine ⟨_, execute_instruction_or b1 a1 b2 a2 s ⟨hop, hfn'⟩, ?_⟩
    refine alu_state _ _ s _ ?_
    simp only [exec_or, alu_spec]
    rw [and_65535, Nat.mod_eq_of_lt (or_lt_65536 ha hb)]
  · refine ⟨_, execute_instruction_and b1 a1 b2 a2 s ⟨hop, hfn'⟩, ?_⟩
    refine alu_state _ _ s _ ?_
    simp only [exec_and, alu_spec]
    rw [and_65535, Nat.mod_eq_of_lt (and_lt_65536 ha)]
  · refine ⟨_, execute_instruction_slt b1 a1 b2 a2 s ⟨hop, hfn'⟩, ?_⟩
    refine alu_state _ _ s _ ?_
    simp only [exec_slt, alu_spec]
    split_ifs <;> rfl

/-- Witness of C20: `sub $3,$1,$2` (word 1329) with `registers[1] = 1` and
`registers[2] = 2` writes `1 - 2 mod 2^16 = 65535` to register 3 and moves
`pc` from 0 to 1. -/
theorem C20_alu_semantics_witness :
    ∃ s', execute_instruction 1329 1 1 0 0
        { example_state 2 1 0 0 with registers := fun r => if r = 1 then 1 else 2 }
        = some (false, s') ∧
      s'.registers 3 = 65535 ∧ s'.registers 1 = 1 ∧ s'.pc = 1 := by
  obtain ⟨s', h, hreg, -, -, -, -, hpc⟩ :=
    C20_alu_semantics 1329 1 1 0 0
      { example_state 2 1 0 0 with registers := fun r => if r = 1 then 1 else 2 }
      (by decide) (by decide) (by decide) (by decide)
  refine ⟨s', h, ?_, ?_, hpc⟩
  · rw [hreg]
    decide
  · rw [hreg]
    decide

/-! ## The immediate instructions -/

/-- The sign extension of `slti` (the mask 65408) gives, as an `unsigned`, the
immediate of `to_signed_binary` modulo `2^16`. -/
theorem slti_imm_eq (instr : Nat) :
    toUnsigned (if ((instr &&& 127 : Nat) : Int) > 63
        then int_or ((instr &&& 127 : Nat) : Int) 65408 else ((instr &&& 127 : Nat) : Int))
      = (signed_imm instr % 65536).toNat := by
  rw [signed_imm_eq, and_127]
  have hlt : instr % 128 < 128 := Nat.mod_lt _ (by decide)
  generalize instr % 128 = m at hlt
  interval_cases m <;> decide

/-- What `slti` does. -/
theorem exec_slti_spec (instr : Nat) (s : State) :
    (exec_slti instr s).1 = false ∧
    (exec_slti instr s).2.pc = (s.pc + 1) % 8192 ∧
    (exec_slti instr s).2.memory = s.memory ∧ (exec_slti instr s).2.L1 = s.L1 ∧
    (exec_slti instr s).2.L2 = s.L2 ∧ (exec_slti instr s).2.out = s.out ∧
    (exec_slti instr s).2.registers =
      (if (instr >>> 7) &&& 7 ≠ 0 then
        Function.update s.registers ((instr >>> 7) &&& 7)
          (if s.registers ((instr >>> 10) &&& 7) < (signed_imm instr % 65536).toNat
            then 1 else 0)
      else s.registers) := by
  have e := slti_imm_eq instr
  simp only [exec_slti, increment_pc_one, increment_pc_memory, increment_pc_L1,
    increment_pc_L2, increment_pc_out, increment_pc_registers]
  rw [e]
  split_ifs <;> simp

/-- C21: the immediate instructions use the sign-extended 7-bit immediate `s`
(`s = imm` if `imm <= 63`, else `imm - 128`; `srcA` = bits 10-12, `dst` = bits
7-9).  Every `addi` word executes without halting and, when `dst != 0`, leaves
`(registers[srcA] + s) mod 2^16` in `registers[dst]`; every `slti` word
executes without halting and, when `dst != 0`, leaves 1 in `registers[dst]` if
`registers[srcA] < s mod 2^16` as unsigned values and 0 otherwise; every other
register is unchanged, and with `dst == 0` no register changes; memory, caches
and output are unchanged and `pc` becomes `(pc + 1) mod 8192`.  The two sign
extensions (`to_signed_binary` for `addi`, the mask 65408 for `slti`) denote
the same 16-bit value `s mod 2^16`. -/
theorem C21_immediate_instructions (instr b1 a1 b2 a2 : Nat) (s : State) :
    (signed_imm instr = if instr &&& 127 ≤ 63 then ((instr &&& 127 : Nat) : Int)
      else ((instr &&& 127 : Nat) : Int) - 128) ∧
    (find_opcode instr = op_addi →
      ∃ s', execute_instruction instr b1 a1 b2 a2 s = some (false, s') ∧
        s'.registers =
          (if (instr >>> 7) &&& 7 ≠ 0 then
            Function.update s.registers ((instr >>> 7) &&& 7)
              ((((s.registers ((instr >>> 10) &&& 7) : Nat) : Int) + signed_imm instr)
                % 65536).toNat
          else s.registers) ∧
        s'.memory = s.memory ∧ s'.L1 = s.L1 ∧ s'.L2 = s.L2 ∧ s'.out = s.out ∧
        s'.pc = (s.pc + 1) % 8192) ∧
    (find_opcode instr = op_slti →
      ∃ s', execute_instruction instr b1 a1 b2 a2 s = some (false, s') ∧
        s'.registers =
          (if (instr >>> 7) &&& 7 ≠ 0 then
            Function.update s.registers ((instr >>> 7) &&& 7)
              (if s.registers ((instr >>> 10) &&& 7) < (signed_imm instr % 65536).toNat
                then 1 else 0)
          else s.registers) ∧
        s'.memory = s.memory ∧ s'.L1 = s.L1 ∧ s'.L2 = s.L2 ∧ s'.out = s.out ∧
        s'.pc = (s.pc + 1) % 8192) ∧
    toUnsigned (if ((instr &&& 127 : Nat) : Int) > 63
        then int_or ((instr &&& 127 : Nat) : Int) 65408 else ((instr &&& 127 : Nat) : Int))
      = (signed_imm instr % 65536).toNat ∧
    toUnsigned (signed_imm instr) % 65536 = (signed_imm instr % 65536).toNat := by
  refine ⟨by rw [signed_imm_eq, and_127], fun hop => ?_, fun hop => ?_, slti_imm_eq instr, ?_⟩
  · obtain ⟨e1, e2, e3, e4, e5, e6, e7⟩ := exec_addi_spec instr s
    refine ⟨(exec_addi instr s).2, ?_, ?_, e3, e4, e5, e6, e2⟩
    · rw [execute_instruction_addi b1 a1 b2 a2 s hop, ← e1]
    · have hval : ((s.registers ((instr >>> 10) &&& 7) + toUnsigned (signed_imm instr))
          % 4294967296) &&& 65535
          = ((((s.registers ((instr >>> 10) &&& 7) : Nat) : Int) + signed_imm instr)
            % 65536).toNat := by
        rw [and_65535]
        simp only [toUnsigned]
        omega
      rw [e7, hval]
  · obtain ⟨e1, e2, e3, e4, e5, e6, e7⟩ := exec_slti_spec instr s
    refine ⟨(exec_slti instr s).2, ?_, e7, e3, e4, e5, e6, e2⟩
    rw [execute_instruction_slti b1 a1 b2 a2 s hop, ← e1]
  · simp only [toUnsigned]
    omega

/-- Witness of C21: `addi $1,$0,-3` (word 8445) on zero registers leaves
65533 in register 1, and `slti $2,$0,-3` (word 57725) leaves 1 in register 2,
since `0 < 65533`. -/
theorem C21_immediate_instructions_witness :
    (∃ s', execute_instruction 8445 1 1 0 0 (example_state 2 1 0 0) = some (false, s') ∧
      s'.registers 1 = 65533 ∧ s'.pc = 1) ∧
    (∃ s', execute_instruction 57725 1 1 0 0 (example_state 2 1 0 0) = some (false, s') ∧
      s'.registers 2 = 1 ∧ s'.pc = 1) := by
  constructor
  · obtain ⟨s', h, hreg, -, -, -, -, hpc⟩ :=
      (C21_immediate_instructions 8445 1 1 0 0 (example_state 2 1 0 0)).2.1 (by decide)
    refine ⟨s', h, ?_, hpc⟩
    rw [hreg]
    decide
  · obtain ⟨s', h, hreg, -, -, -, -, hpc⟩ :=
      (C21_immediate_instructions 57725 1 1 0 0 (example_state 2 1 0 0)).2.2.1 (by decide)
    refine ⟨s', h, ?_, hpc⟩
    rw [hreg]
    decide

/-! ## `jal` -/

/-- C22: for every `jal` word (opcode 3) and every state with `pc` in
`[0, 8192)`: the instruction executes and returns false (it never halts, also
when the immediate equals `pc`); afterwards `registers[7] = pc_before + 1`,
written unconditionally and without a mask (8192 when `pc_before = 8191`),
`pc` is the low 13 bits of the word, and the other registers, memory, both
caches and the output are unchanged. -/
theorem C22_jal_semantics (instr b1 a1 b2 a2 : Nat) (s : State)
    (hop : find_opcode instr = op_jal) (hpc : s.pc < 8192) :
    ∃ s', execute_instruction instr b1 a1 b2 a2 s = some (false, s') ∧
      s'.registers 7 = s.pc + 1 ∧ (∀ r, r ≠ 7 → s'.registers r = s.registers r) ∧
      s'.pc = instr &&& 8191 ∧ s'.memory = s.memory ∧ s'.L1 = s.L1 ∧ s'.L2 = s.L2 ∧
      s'.out = s.out := by
  have hlt : instr &&& 8191 < 8192 := by rw [and_8191]; exact Nat.mod_lt _ (by decide)
  refine ⟨(exec_jal instr s).2, execute_instruction_jal b1 a1 b2 a2 s hop, ?_, ?_, ?_,
    rfl, rfl, rfl, rfl⟩
  · simp only [exec_jal, set_pc_registers, set_register_registers, Function.update_same]
    omega
  · intro r hr
    simp only [exec_jal, set_pc_registers, set_register_registers]
    exact Function.update_noteq hr _ _
  · simp only [exec_jal]
    rw [set_pc_pc, toUnsigned_natCast _ (by omega)]
    omega

/-- Witness of C22: `jal 8191` (word 32767) at `pc = 8191` does not halt and
leaves 8192 in register 7. -/
theorem C22_jal_semantics_witness :
    ∃ s', execute_instruction 32767 1 1 0 0 { example_state 2 1 0 0 with pc := 8191 }
        = some (false, s') ∧
      s'.registers 7 = 8192 ∧ s'.pc = 8191 := by
  obtain ⟨s', h, h7, -, hpc, -⟩ :=
    C22_jal_semantics 32767 1 1 0 0 { example_state 2 1 0 0 with pc := 8191 }
      (by decide) (by decide)
  exact ⟨s', h, h7, hpc⟩

/-! ## Program loading -/

/-- The loop of `load_machine_code` over lines that are all in sequence and in
range, followed by other lines: the words are stored and the loop goes on
with the rest. -/
theorem load_machine_code_from_append (pre : List (Nat × Nat))
    (rest : List (Option (Nat × Nat))) (e : Nat) (mem : Nat → Nat)
    (h : ∀ k (hk : k < pre.length), (pre.get ⟨k, hk⟩).1 = e + k ∧ e + k < MEM_SIZE) :
    ∃ mem', load_machine_code_from e (pre.map some ++ rest) mem
        = load_machine_code_from (e + pre.length) rest mem' ∧
      (∀ k (hk : k < pre.length), mem' (e + k) = (pre.get ⟨k, hk⟩).2) ∧
      (∀ a, (a < e ∨ e + pre.length ≤ a) → mem' a = mem a) := by
  induction pre generalizing e mem with
  | nil => exact ⟨mem, by simp, fun k hk => absurd hk (Nat.not_lt_zero _), fun _ _ => rfl⟩
  | cons l pre ih =>
    obtain ⟨addr, instr⟩ := l
    have h0 := h 0 (Nat.zero_lt_succ _)
    simp only [List.get_eq_getElem, List.getElem_cons_zero, Nat.add_zero] at h0
    obtain ⟨ha, hlt⟩ := h0
    subst ha
    obtain ⟨mem', h1, h2, h3⟩ := ih (addr + 1) (Function.update mem addr instr) (fun k hk => by
      have := h (k + 1) (Nat.succ_lt_succ hk)
      simp only [List.get_eq_getElem, List.getElem_cons_succ] at this ⊢
      constructor
      · omega
      · omega)
    refine ⟨mem', ?_, ?_, ?_⟩
    · simp only [List.map_cons, List.cons_append, load_machine_code_from, ne_eq,
        not_true_eq_false, if_false, ge_iff_le, Nat.not_le.2 hlt, List.length_cons]
      have e2 : addr + (pre.length + 1) = addr + 1 + pre.length := by omega
      rw [e2]
      exact h1
    · intro k hk
      cases k with
      | zero =>
        simp only [List.get_eq_getElem, List.getElem_cons_zero, Nat.add_zero]
        rw [h3 addr (Or.inl (Nat.lt_succ_self addr)), Function.update_same]
      | succ k =>
        have := h2 k (Nat.lt_of_succ_lt_succ hk)
        simp only [List.get_eq_getElem, List.getElem_cons_succ] at this ⊢
        rw [← this]
        congr 1
        omega
    · intro a ha'
      simp only [List.length_cons] at ha'
      rw [h3 a (by omega), Function.update_noteq (by omega)]

/-- A load that ends without error has read lines that are all in sequence
and in range. -/
theorem load_machine_code_from_ok (lines : List (Nat × Nat)) (e : Nat) (mem : Nat → Nat)
    (h : (load_machine_code_from e (lines.map some) mem).1 = none) :
    ∀ k (hk : k < lines.length), (lines.get ⟨k, hk⟩).1 = e + k ∧ e + k < MEM_SIZE := by
  induction lines generalizing e mem with
  | nil => intro k hk; exact absurd hk (Nat.not_lt_zero _)
  | cons l lines ih =>
    obtain ⟨addr, instr⟩ := l
    simp only [List.map_cons, load_machine_code_from] at h
    by_cases h1 : addr ≠ e
    · rw [if_pos h1] at h
      cases h
    rw [if_neg h1] at h
    by_cases h2 : addr ≥ MEM_SIZE
    · rw [if_pos h2] at h
      cases h
    rw [if_neg h2] at h
    have h1' : addr = e := not_not.1 h1
    subst h1'
    intro k hk
    cases k with
    | zero => exact ⟨rfl, Nat.not_le.1 h2⟩
    | succ k =>
      have := ih (addr + 1) _ h k (Nat.lt_of_succ_lt_succ hk)
      simp only [List.get_eq_getElem, List.getElem_cons_succ] at this ⊢
      constructor <;> omega

/-- The load of an image whose first `j` lines are in sequence and in range:
the loop reaches line `j` with these lines stored. -/
theorem load_machine_code_first_lines (lines : List (Nat × Nat)) (j : Nat) (hj : j ≤ lines.length)
    (mem : Nat → Nat)
    (h : ∀ k (hk : k < lines.length), k < j → (lines.get ⟨k, hk⟩).1 = k ∧ k < MEM_SIZE) :
    load_machine_code (lines.map some) mem
      = load_machine_code_from j ((lines.drop j).map some) (stored lines j mem) := by
  have hlen : (lines.take j).length = j := by
    rw [List.length_take]; omega
  obtain ⟨mem', h1, h2, h3⟩ := load_machine_code_from_append (lines.take j)
    ((lines.drop j).map some) 0 mem (fun k hk => by
      rw [hlen] at hk
      have := h k (by omega) hk
      simp only [List.get_eq_getElem, List.getElem_take, Nat.zero_add] at this ⊢
      exact this)
  have hmem : mem' = stored lines j mem := by
    funext a
    unfold stored
    by_cases ha : a < j
    · rw [if_pos ha]
      have := h2 a (by rw [hlen]; exact ha)
      simp only [Nat.zero_add, List.get_eq_getElem, List.getElem_take] at this
      rw [this, List.getD_eq_getElem _ _ (by omega)]
    · rw [if_neg ha]
      exact h3 a (Or.inr (by rw [hlen]; omega))
  unfold load_machine_code
  rw [← List.map_append, List.take_append_drop, hlen, Nat.zero_add, hmem] at h1
  exact h1

/-- C23: program loading, over the sequence of well-formed lines
`(address_k, word_k)`, `k = 0..n-1`, of an image.  `load_machine_code` ends
without error if and only if `address_k = k` for every `k` and `n <= 8192`;
then `memory[k] = word_k` for every `k < n` and every cell at an index
`>= n` is unchanged.  At the first line `j` whose address is not the next
expected address `j` or is `>= 8192` it exits with the error (out of sequence
when the address is not `j`, too big otherwise), having stored the lines
before `j` only. -/
theorem C23_program_loading (lines : List (Nat × Nat)) (mem : Nat → Nat) :
    ((load_machine_code (lines.map some) mem).1 = none ↔
      (∀ k (hk : k < lines.length), (lines.get ⟨k, hk⟩).1 = k) ∧ lines.length ≤ 8192) ∧
    ((load_machine_code (lines.map some) mem).1 = none →
      (∀ k (hk : k < lines.length),
        (load_machine_code (lines.map some) mem).2 k = (lines.get ⟨k, hk⟩).2) ∧
      (∀ a, lines.length ≤ a → (load_machine_code (lines.map some) mem).2 a = mem a)) ∧
    (∀ j (hj : j < lines.length),
      (∀ k (hk : k < lines.length), k < j → (lines.get ⟨k, hk⟩).1 = k ∧ k < 8192) →
      ((lines.get ⟨j, hj⟩).1 ≠ j ∨ (lines.get ⟨j, hj⟩).1 ≥ 8192) →
      (load_machine_code (lines.map some) mem).1 =
        some (if (lines.get ⟨j, hj⟩).1 ≠ j
          then LoadError.out_of_sequence (lines.get ⟨j, hj⟩).1 else LoadError.too_big) ∧
      (∀ k (hk : k < lines.length), k < j →
        (load_machine_code (lines.map some) mem).2 k = (lines.get ⟨k, hk⟩).2) ∧
      (∀ a, j ≤ a → (load_machine_code (lines.map some) mem).2 a = mem a)) := by
  have hgood : (∀ k (hk : k < lines.length), (lines.get ⟨k, hk⟩).1 = k) → lines.length ≤ 8192 →
      load_machine_code (lines.map some) mem = (none, stored lines lines.length mem) := by
    intro h1 h2
    rw [load_machine_code_first_lines lines lines.length (le_refl _) mem
      (fun k hk _ => ⟨h1 k hk, by rw [MEM_SIZE_eq]; omega⟩)]
    simp [load_machine_code_from]
  have hok : (load_machine_code (lines.map some) mem).1 = none →
      (∀ k (hk : k < lines.length), (lines.get ⟨k, hk⟩).1 = k) ∧ lines.length ≤ 8192 := by
    intro h
    have h' := load_machine_code_from_ok lines 0 mem h
    simp only [Nat.zero_add, MEM_SIZE_eq] at h'
    refine ⟨fun k hk => (h' k hk).1, ?_⟩
    by_cases hn : lines.length = 0
    · omega
    · have := (h' (lines.length - 1) (by omega)).2
      omega
  refine ⟨⟨hok, fun h => ?_⟩, fun h => ?_, fun j hj hpre hbad => ?_⟩
  · rw [hgood h.1 h.2]
  · obtain ⟨h1, h2⟩ := hok h
    rw [hgood h1 h2]
    refine ⟨fun k hk => ?_, fun a ha => ?_⟩
    · simp only [stored, if_pos hk]
      rw [List.getD_eq_getElem _ _ hk]
      rfl
    · simp only [stored, if_neg (Nat.not_lt.2 ha)]
  · rw [load_machine_code_first_lines lines j (le_of_lt hj) mem
      (fun k hk hkj => by rw [MEM_SIZE_eq]; exact hpre k hk hkj)]
    have hl : lines.drop j = lines.get ⟨j, hj⟩ :: lines.drop (j + 1) :=
      List.drop_eq_getElem_cons hj
    rw [hl]
    generalize lines.get ⟨j, hj⟩ = l at hbad ⊢
    obtain ⟨addr, instr⟩ := l
    have hres : load_machine_code_from j (List.map some ((addr, instr) :: List.drop (j + 1) lines))
        (stored lines j mem)
        = (some (if addr ≠ j then LoadError.out_of_sequence addr
            else LoadError.too_big), stored lines j mem) := by
      simp only [List.map_cons, load_machine_code_from]
      by_cases c : addr ≠ j
      · rw [if_pos c, if_pos c]
      · rw [if_neg c, if_neg c, if_pos (by rw [MEM_SIZE_eq]; exact hbad.resolve_left c)]
    rw [hres]
    refine ⟨rfl, fun k hk hkj => ?_, fun a ha => ?_⟩
    · simp only [stored, if_pos hkj]
      rw [List.getD_eq_getElem _ _ hk]
      rfl
    · simp only [stored, if_neg (Nat.not_lt.2 ha)]

/-- Witness of C23: the image `ram[0] = 8325; ram[1] = 16385` loads, and the
image whose second line has address 2 exits out of sequence with the first
word stored only. -/
theorem C23_program_loading_witness :
    (load_machine_code ([(0, 8325), (1, 16385)].map some) (fun _ => 0)).1 = none ∧
    (load_machine_code ([(0, 8325), (1, 16385)].map some) (fun _ => 0)).2 1 = 16385 ∧
    (load_machine_code ([(0, 8325), (2, 16385)].map some) (fun _ => 0)).1
      = some (LoadError.out_of_sequence 2) ∧
    (load_machine_code ([(0, 8325), (2, 16385)].map some) (fun _ => 0)).2 1 = 0 := by
  have h1 := C23_program_loading [(0, 8325), (1, 16385)] (fun _ => 0)
  have h2 := C23_program_loading [(0, 8325), (2, 16385)] (fun _ => 0)
  have hok := h1.1.2 ⟨by decide, by decide⟩
  have hbad := h2.2.2 1 (by decide) (by decide) (by decide)
  exact ⟨hok, (h1.2.1 hok).1 1 (by decide), hbad.1, hbad.2.2 1 (le_refl _)⟩

/-! ## The instructions that do not touch the caches -/

/-- The instructions other than `lw` and `sw` print nothing but the diagnostic
of the invalid instruction. -/
theorem execute_instruction_out {instr b1 a1 b2 a2 : Nat} {s : State} {r : Bool × State}
    (h : execute_instruction instr b1 a1 b2 a2 s = some r)
    (hlw : find_opcode instr ≠ op_lw) (hsw : find_opcode instr ≠ op_sw) :
    r.2.out = s.out ∨ r.2.out = s.out ++ [Output.invalid_instruction s.pc] := by
  revert r
  apply execute_instruction_cases
    (fun o => ∀ {r : Bool × State}, o = some r →
      r.2.out = s.out ∨ r.2.out = s.out ++ [Output.invalid_instruction s.pc])
  case hlw => intro e; exact absurd e hlw
  case hsw => intro e; exact absurd e hsw
  case hinv => intro r h; cases h; exact Or.inr rfl
  all_goals
    intro _ r h
    cases h
    simp only [exec_add, exec_sub, exec_or, exec_and, exec_slt, exec_jr, exec_slti, exec_jeq,
      exec_addi, exec_j, exec_jal]
    first
      | exact Or.inl rfl
      | (split_ifs <;> exact Or.inl rfl)

/-- C24: only `lw` and `sw` touch the cache hierarchy.  Every word whose
opcode is not that of `lw` or `sw` (the words that decode to add, sub, or, and,
slt, jr, slti, addi, jeq, j, jal or to the invalid instruction) executes and
leaves both cache levels as they are (every way with its valid flag, tag and
block data, and every recency list), leaves memory unchanged and prints no
`HIT`, `MISS` or `SW` log entry: the output is unchanged, or has gained the
diagnostic of the invalid instruction.  And `lw` never changes memory. -/
theorem C24_only_lw_sw_touch_caches (instr b1 a1 b2 a2 : Nat) (s : State) :
    (find_opcode instr ≠ op_lw → find_opcode instr ≠ op_sw →
      ∃ r, execute_instruction instr b1 a1 b2 a2 s = some r ∧
        r.2.L1 = s.L1 ∧ r.2.L2 = s.L2 ∧ r.2.memory = s.memory ∧
        (r.2.out = s.out ∨ r.2.out = s.out ++ [Output.invalid_instruction s.pc])) ∧
    (find_opcode instr = op_lw → ∀ r, execute_instruction instr b1 a1 b2 a2 s = some r →
      r.2.memory = s.memory) := by
  constructor
  · intro hlw hsw
    obtain ⟨r, hr⟩ := execute_instruction_defined instr b1 a1 b2 a2 s hlw hsw
    obtain ⟨h1, h2, h3⟩ := execute_instruction_levels hr hlw hsw
    exact ⟨r, hr, h1, h2, h3, execute_instruction_out hr hlw hsw⟩
  · intro hop r hr
    rw [execute_instruction_lw b1 a1 b2 a2 s hop] at hr
    obtain ⟨rt, -, -, -, hmem, -⟩ := exec_lw_cases hr
    exact hmem

/-- Witness of C24: `jal 5` (word 24581) after an `lw` that filled L1 leaves
L1, L2, memory and the output as they are; and the `lw` itself (word 32768)
left memory unchanged. -/
theorem C24_only_lw_sw_touch_caches_witness :
    (∃ r, execute_instruction 24581 1 1 0 0
        (state_after ⟨⟨2, 1, 1⟩, none⟩ [32768] (example_state 2 1 0 0)) = some r ∧
      r.2.L1 = (state_after ⟨⟨2, 1, 1⟩, none⟩ [32768] (example_state 2 1 0 0)).L1 ∧
      r.2.L1.MRU = [[0], []]) ∧
    ∃ r, execute_instruction 32768 1 1 0 0 (example_state 2 1 0 0) = some r ∧
      r.2.memory = (example_state 2 1 0 0).memory := by
  constructor
  · obtain ⟨r, hr, h1, -⟩ :=
      (C24_only_lw_sw_touch_caches 24581 1 1 0 0
        (state_after ⟨⟨2, 1, 1⟩, none⟩ [32768] (example_state 2 1 0 0))).1
        (by decide) (by decide)
    refine ⟨r, hr, h1, ?_⟩
    rw [h1]
    decide
  · exact ⟨_, rfl, (C24_only_lw_sw_touch_caches 32768 1 1 0 0 (example_state 2 1 0 0)).2
      (by decide) _ rfl⟩

/-! ## A load that returns a stale word -/

/-- C25 (fails on the code): cache transparency does not hold for a
set-associative level.  With the cache `2,2,1` (one row of two ways, blocks of
one word) and the image

    0: addi $1,$0,5     1: lw $2,10($0)     2: sw $1,10($0)
    3: lw $3,10($0)     4: halt

the image loads, the run loop halts after five instructions, and the last
`lw`, an L1 hit with `dst = 3` at the effective address 10, leaves
`registers[3] = 0` although `memory[10] = 5`: the first `lw` put the block
of address 10 in way 0, the `sw` wrote memory and installed the block again
in the free way 1, and the hit loop returns the word of way 0. -/
theorem C25_stale_load_after_store :
    (load_machine_code
      ([(0, 8325), (1, 33034), (2, 41098), (3, 33162), (4, 16388)].map some)
      (fun _ => 0)).1 = none ∧
    ∃ s0 s, main_init ⟨⟨2, 2, 1⟩, none⟩
        (load_machine_code
          ([(0, 8325), (1, 33034), (2, 41098), (3, 33162), (4, 16388)].map some)
          (fun _ => 0)).2 = some s0 ∧
      run_loop ⟨⟨2, 2, 1⟩, none⟩ 5 s0 = some (true, s) ∧
      s.out = [Output.log CacheName.L1 Status.MISS 1 10 0,
               Output.log CacheName.L1 Status.SW 2 10 0,
               Output.log CacheName.L1 Status.HIT 3 10 0] ∧
      s.registers 1 = 5 ∧ s.memory 10 = 5 ∧ s.registers 3 = 0 ∧
      s.L1.cache = [⟨0, 1, 10⟩, ⟨0, 1, 10⟩] ∧ s.L1.blockdata = [[0], [5]] :=
  ⟨by decide, _, _, rfl, rfl, by decide, by decide, by decide, by decide, by decide, by decide⟩

/-! ## Coherence of the direct-mapped levels -/

theorem block_index (t R r B i : Nat) (hi : i < B) : ((t * R + r) * B + i) / B = t * R + r := by
  rw [Nat.add_comm, Nat.add_mul_div_right _ _ (by omega), Nat.div_eq_of_lt hi, Nat.zero_add]

/-- An install into a coherent direct-mapped level of the block of address `p`,
fetched from a memory that differs from the old one inside the block of `p`
only, leaves the level coherent with the new memory. -/
theorem install_coherent {c c' : CacheLevel} {memory memory' : Nat → Nat} {B p : Nat}
    {rt : Nat × Nat} {block : List Nat}
    (inv : LevelInv c 1 B) (hco : Coherent c memory B)
    (hrt : row_and_tag p B c.cache.length 1 = some rt)
    (hf : fetch_block memory' (p / B * B) B = some block)
    (hi : install c rt.1 1 rt.2 block = some c')
    (hmem : ∀ a, a / B ≠ p / B → memory' a = memory a) :
    Coherent c' memory' B := by
  obtain ⟨hB, -, hR, hrow, htag⟩ := row_and_tag_eq_some hrt
  rw [Nat.div_one] at hR hrow htag
  obtain ⟨hlen, -, hblk⟩ := fetch_block_eq_some hf
  obtain ⟨-, k, d, w, -, hw, hk1, hk2, -, hc, hb, -, -⟩ := install_spec inv hlen hi
  have hk : k = rt.1 := by omega
  subst hk
  have hklt : rt.1 < c.cache.length := (List.getElem?_eq_some_iff.1 hw).1
  have hlen' : c'.cache.length = c.cache.length := by rw [hc, List.length_set]
  intro r w' b hw' hv hb' i hi'
  rw [hlen']
  by_cases hr : r = rt.1
  · subst hr
    rw [hc, List.getElem?_set_self hklt] at hw'
    rw [hb, List.getElem?_set_self (by rw [inv.blockdata_length]; exact hklt)] at hb'
    cases hw'
    cases hb'
    rw [hblk i hi']
    simp only
    rw [htag, hrow, Nat.div_add_mod']
  · rw [hc, List.getElem?_set_ne (Ne.symm hr)] at hw'
    rw [hb, List.getElem?_set_ne (Ne.symm hr)] at hb'
    rw [hco r w' b hw' hv hb' i hi']
    congr 1
    symm
    apply hmem
    rw [block_index _ _ _ _ _ hi']
    intro e
    apply hr
    have hrlt : r < c.cache.length := (List.getElem?_eq_some_iff.1 hw').1
    rw [hrow, ← e, Nat.mul_add_mod_of_lt hrlt] 

theorem coherent_of_eq {c c' : CacheLevel} {memory : Nat → Nat} {B : Nat}
    (hc : c'.cache = c.cache) (hb : c'.blockdata = c.blockdata) (hco : Coherent c memory B) :
    Coherent c' memory B := by
  intro r w b hw hv hb' i hi
  rw [hc] at hw ⊢
  rw [hb] at hb'
  exact hco r w b hw hv hb' i hi

theorem coherent_zero (c : CacheLevel) (memory : Nat → Nat) : Coherent c memory 0 :=
  fun _ _ _ _ _ _ i hi => absurd hi (Nat.not_lt_zero i)

theorem hit_read_tables {c : CacheLevel} {row assoc i p B d : Nat} {regs : Nat → Nat}
    {hr : (Nat → Nat) × CacheLevel}
    (h : hit_read c row assoc i p B d regs = some hr) :
    hr.2.cache = c.cache ∧ hr.2.blockdata = c.blockdata := by
  obtain ⟨d', -, h1, h2, -⟩ := updateMRU_eq_some (hit_read_eq_some.1 h).1
  exact ⟨h1, h2⟩

/-- One instruction keeps direct-mapped levels coherent with memory. -/
theorem execute_instruction_coherent {instr b1 b2 a2 : Nat} {s : State} {r : Bool × State}
    (h : execute_instruction instr b1 1 b2 a2 s = some r)
    (i1 : LevelInv s.L1 1 b1) (i2 : LevelInv s.L2 a2 b2) (ha2 : b2 ≠ 0 → a2 = 1)
    (c1 : Coherent s.L1 s.memory b1) (c2 : Coherent s.L2 s.memory b2) :
    Coherent r.2.L1 r.2.memory b1 ∧ Coherent r.2.L2 r.2.memory b2 := by
  by_cases hlw : find_opcode instr = op_lw
  · rw [execute_instruction_lw _ _ _ _ s hlw] at h
    obtain ⟨rt, hrt, -, -, emem, hcases⟩ := exec_lw_cases h
    rw [emem]
    rcases hcases with ⟨i, hr, -, hhit, -, e2, e3, -⟩ | ⟨-, -, rt2, i, hr, -, -, hhit, -, e2, e3, -⟩ |
      ⟨-, -, -, ⟨blk, hf, hi⟩, e3, -⟩ |
      ⟨-, hb, rt2, hrt2, -, -, ⟨blk, hf, hi⟩, ⟨blk2, hf2, hi2⟩, -⟩
    · obtain ⟨h1, h2⟩ := hit_read_tables hhit
      rw [e2, e3]
      exact ⟨coherent_of_eq h1 h2 c1, c2⟩
    · obtain ⟨h1, h2⟩ := hit_read_tables hhit
      rw [e2, e3]
      exact ⟨c1, coherent_of_eq h1 h2 c2⟩
    · rw [e3]
      exact ⟨install_coherent i1 c1 hrt hf hi (fun _ _ => rfl), c2⟩
    · have := ha2 hb
      subst this
      exact ⟨install_coherent i1 c1 hrt hf hi (fun _ _ => rfl),
        install_coherent i2 c2 hrt2 hf2 hi2 (fun _ _ => rfl)⟩
  by_cases hsw : find_opcode instr = op_sw
  · rw [execute_instruction_sw _ _ _ _ s hsw] at h
    obtain ⟨-, -, -, emem, rt, blk, hrt, hf, hi, h0, h1⟩ := exec_sw_some h
    have hmem : ∀ B a, a / B ≠ pointer_of instr s / B → r.2.memory a = s.memory a := by
      intro B a ha
      rw [emem, Function.update_noteq]
      intro e
      exact ha (by rw [e])
    refine ⟨install_coherent i1 c1 hrt hf hi (hmem b1), ?_⟩
    by_cases hb : b2 = 0
    · subst hb
      exact coherent_zero _ _
    · obtain ⟨rt2, blk2, hrt2, hf2, hi2, -⟩ := h1 hb
      have := ha2 hb
      subst this
      exact install_coherent i2 c2 hrt2 hf2 hi2 (hmem b2)
  · obtain ⟨e1, e2, e3⟩ := execute_instruction_levels h hlw hsw
    rw [e1, e2, e3]
    exact ⟨c1, c2⟩

theorem make_level_coherent (rows assoc : Nat) (memory : Nat → Nat) (B : Nat) :
    Coherent (make_level rows assoc) memory B := by
  intro r w b hw hv
  have hmem : w ∈ (make_level rows assoc).cache := List.mem_iff_getElem?.2 ⟨r, hw⟩
  simp only [make_level, List.mem_flatMap, List.mem_replicate] at hmem
  obtain ⟨_, -, -, rfl⟩ := hmem
  exact absurd rfl hv

theorem no_level_coherent (memory : Nat → Nat) (B : Nat) : Coherent no_level memory B := by
  intro r w b hw
  simp [no_level] at hw

theorem run_words_coherent {cfg : Config} (ws : List Nat) {s s' : State}
    (h : run_words cfg ws s = some s') (ha1 : cfg.L1.assoc = 1)
    (ha2 : cfg.blocks2 ≠ 0 → cfg.assoc2 = 1)
    (i1 : LevelInv s.L1 cfg.L1.assoc cfg.L1.blocksize)
    (i2 : LevelInv s.L2 cfg.assoc2 cfg.blocks2)
    (c1 : Coherent s.L1 s.memory cfg.L1.blocksize)
    (c2 : Coherent s.L2 s.memory cfg.blocks2) :
    Coherent s'.L1 s'.memory cfg.L1.blocksize ∧ Coherent s'.L2 s'.memory cfg.blocks2 := by
  induction ws generalizing s with
  | nil =>
    simp only [run_words, Option.some.injEq] at h
    subst h
    exact ⟨c1, c2⟩
  | cons w ws ih =>
    simp only [run_words, Option.bind_eq_bind, Option.bind_eq_some] at h
    obtain ⟨r, hr, hrest⟩ := h
    obtain ⟨j1, j2⟩ := execute_instruction_inv hr i1 i2
    have hr' := hr
    simp only [step, ha1] at hr'
    rw [ha1] at i1
    obtain ⟨d1, d2⟩ := execute_instruction_coherent hr' i1 i2 ha2 c1 c2
    exact ih hrest j1 j2 d1 d2

theorem reachable_coherent {cfg : Config} {s : State} (h : Reachable cfg s)
    (ha1 : cfg.L1.assoc = 1) (ha2 : ∀ l2, cfg.L2 = some l2 → l2.assoc = 1) :
    Coherent s.L1 s.memory cfg.L1.blocksize ∧ Coherent s.L2 s.memory cfg.blocks2 := by
  obtain ⟨memory, s0, ws, h0, hrun⟩ := h
  obtain ⟨i1, i2⟩ := main_init_inv h0
  obtain ⟨-, -, -, -, ⟨rows, e1⟩, e2⟩ := main_init_eq_some h0
  have ha2' : cfg.blocks2 ≠ 0 → cfg.assoc2 = 1 := by
    intro hb
    cases hL2 : cfg.L2 with
    | none => exact absurd (Config.blocks2_of_L2_none hL2) hb
    | some l2 =>
      simp only [Config.assoc2, hL2]
      exact ha2 l2 hL2
  refine run_words_coherent ws hrun ha1 ha2' i1 i2 ?_ ?_
  · rw [e1]; exact make_level_coherent _ _ _ _
  · rcases e2 with e2 | ⟨rows2, assoc2, e2⟩
    · rw [e2]; exact no_level_coherent _ _
    · rw [e2]; exact make_level_coherent _ _ _ _

/-! ## The sizes of the tables -/

theorem updateMRU_lengths {c c' : CacheLevel} {row k assoc : Nat}
    (h : updateMRU c row k assoc = some c') :
    c'.cache.length = c.cache.length ∧ c'.MRU.length = c.MRU.length := by
  obtain ⟨d, -, h1, -, -, h2⟩ := updateMRU_eq_some h
  rw [h1, h2, List.length_set]
  exact ⟨rfl, rfl⟩

theorem install_lengths {c c' : CacheLevel} {row assoc tag : Nat} {blk : List Nat}
    (h : install c row assoc tag blk = some c') :
    c'.cache.length = c.cache.length ∧ c'.MRU.length = c.MRU.length := by
  simp only [install, Option.bind_eq_bind, Option.bind_eq_some] at h
  obtain ⟨free, -, h⟩ := h
  cases free with
  | some i =>
    simp only [Option.bind_eq_some] at h
    obtain ⟨w, -, b0, -, h⟩ := h
    obtain ⟨h1, h2⟩ := updateMRU_lengths h
    rw [h1, h2, List.length_set]
    exact ⟨rfl, rfl⟩
  | none =>
    simp only [Option.bind_eq_some] at h
    obtain ⟨d0, -, k, -, w, -, b0, -, h⟩ := h
    obtain ⟨h1, h2⟩ := updateMRU_lengths h
    rw [h1, h2, List.length_set]
    exact ⟨rfl, rfl⟩

theorem hit_read_lengths {c : CacheLevel} {row assoc i p B d : Nat} {regs : Nat → Nat}
    {hr : (Nat → Nat) × CacheLevel}
    (h : hit_read c row assoc i p B d regs = some hr) :
    hr.2.cache.length = c.cache.length ∧ hr.2.MRU.length = c.MRU.length :=
  updateMRU_lengths (hit_read_eq_some.1 h).1

/-- One instruction keeps the number of ways and of rows of both levels. -/
theorem execute_instruction_lengths {instr b1 a1 b2 a2 : Nat} {s : State} {r : Bool × State}
    (h : execute_instruction instr b1 a1 b2 a2 s = some r) :
    (r.2.L1.cache.length = s.L1.cache.length ∧ r.2.L1.MRU.length = s.L1.MRU.length) ∧
    (r.2.L2.cache.length = s.L2.cache.length ∧ r.2.L2.MRU.length = s.L2.MRU.length) := by
  by_cases hlw : find_opcode instr = op_lw
  · rw [execute_instruction_lw _ _ _ _ s hlw] at h
    obtain ⟨rt, hrt, -, -, emem, hcases⟩ := exec_lw_cases h
    rcases hcases with ⟨i, hr, -, hhit, -, e2, e3, -⟩ | ⟨-, -, rt2, i, hr, -, -, hhit, -, e2, e3, -⟩ |
      ⟨-, -, -, ⟨blk, hf, hi⟩, e3, -⟩ |
      ⟨-, hb, rt2, hrt2, -, -, ⟨blk, hf, hi⟩, ⟨blk2, hf2, hi2⟩, -⟩
    · rw [e2, e3]
      exact ⟨hit_read_lengths hhit, rfl, rfl⟩
    · rw [e2, e3]
      exact ⟨⟨rfl, rfl⟩, hit_read_lengths hhit⟩
    · rw [e3]
      exact ⟨install_lengths hi, rfl, rfl⟩
    · exact ⟨install_lengths hi, install_lengths hi2⟩
  by_cases hsw : find_opcode instr = op_sw
  · rw [execute_instruction_sw _ _ _ _ s hsw] at h
    obtain ⟨-, -, -, emem, rt, blk, hrt, hf, hi, h0, h1⟩ := exec_sw_some h
    refine ⟨install_lengths hi, ?_⟩
    by_cases hb : b2 = 0
    · rw [(h0 hb).1]
      exact ⟨rfl, rfl⟩
    · obtain ⟨rt2, blk2, hrt2, hf2, hi2, -⟩ := h1 hb
      exact install_lengths hi2
  · obtain ⟨e1, e2, -⟩ := execute_instruction_levels h hlw hsw
    rw [e1, e2]
    exact ⟨⟨rfl, rfl⟩, rfl, rfl⟩

theorem run_words_lengths {cfg : Config} (ws : List Nat) {s s' : State}
    (h : run_words cfg ws s = some s') :
    (s'.L1.cache.length = s.L1.cache.length ∧ s'.L1.MRU.length = s.L1.MRU.length) ∧
    (s'.L2.cache.length = s.L2.cache.length ∧ s'.L2.MRU.length = s.L2.MRU.length) := by
  induction ws generalizing s with
  | nil =>
    simp only [run_words, Option.some.injEq] at h
    subst h
    exact ⟨⟨rfl, rfl⟩, rfl, rfl⟩
  | cons w ws ih =>
    simp only [run_words, Option.bind_eq_bind, Option.bind_eq_some] at h
    obtain ⟨r, hr, hrest⟩ := h
    obtain ⟨⟨h1, h2⟩, h3, h4⟩ := execute_instruction_lengths hr
    obtain ⟨⟨k1, k2⟩, k3, k4⟩ := ih hrest
    exact ⟨⟨k1.trans h1, k2.trans h2⟩, k3.trans h3, k4.trans h4⟩

theorem make_level_lengths (rows assoc : Nat) :
    (make_level rows assoc).cache.length = rows * assoc ∧
    (make_level rows assoc).MRU.length = rows := by
  constructor
  · exact length_flatMap_replicate rows assoc _
  · simp [make_level]

/-- The tables `main` builds: `size / (assoc * blocksize)` rows per level. -/
theorem main_init_lengths {cfg : Config} {memory : Nat → Nat} {s : State}
    (h : main_init cfg memory = some s) :
    cfg.L1.assoc * cfg.L1.blocksize ≠ 0 ∧
    s.L1.MRU.length = cfg.L1.size / (cfg.L1.assoc * cfg.L1.blocksize) ∧
    s.L1.cache.length = cfg.L1.size / (cfg.L1.assoc * cfg.L1.blocksize) * cfg.L1.assoc ∧
    (cfg.L2 = none → s.L2.cache.length = 0 ∧ s.L2.MRU.length = 0) ∧
    (∀ l2, cfg.L2 = some l2 → l2.assoc * l2.blocksize ≠ 0 ∧
      s.L2.MRU.length = l2.size / (l2.assoc * l2.blocksize) ∧
      s.L2.cache.length = l2.size / (l2.assoc * l2.blocksize) * l2.assoc) := by
  unfold main_init at h
  split at h
  · cases h
  · next hne =>
    cases hL2 : cfg.L2 with
    | none =>
      simp only [hL2, Option.some.injEq] at h
      subst h
      exact ⟨hne, (make_level_lengths _ _).2, (make_level_lengths _ _).1,
        (fun _ => ⟨rfl, rfl⟩), (fun l2 e => by cases e)⟩
    | some l2 =>
      simp only [hL2] at h
      split at h
      · cases h
      · next hne2 =>
        simp only [Option.some.injEq] at h
        subst h
        refine ⟨hne, (make_level_lengths _ _).2, (make_level_lengths _ _).1,
          (fun e => by cases e), fun l2' e => ?_⟩
        cases e
        exact ⟨hne2, (make_level_lengths _ _).2, (make_level_lengths _ _).1⟩

/-- In every reachable state the tables have the sizes `main` gave them. -/
theorem reachable_lengths {cfg : Config} {s : State} (h : Reachable cfg s) :
    cfg.L1.assoc * cfg.L1.blocksize ≠ 0 ∧
    s.L1.MRU.length = cfg.L1.size / (cfg.L1.assoc * cfg.L1.blocksize) ∧
    s.L1.cache.length = cfg.L1.size / (cfg.L1.assoc * cfg.L1.blocksize) * cfg.L1.assoc ∧
    (cfg.L2 = none → s.L2.cache.length = 0 ∧ s.L2.MRU.length = 0) ∧
    (∀ l2, cfg.L2 = some l2 → l2.assoc * l2.blocksize ≠ 0 ∧
      s.L2.MRU.length = l2.size / (l2.assoc * l2.blocksize) ∧
      s.L2.cache.length = l2.size / (l2.assoc * l2.blocksize) * l2.assoc) := by
  obtain ⟨memory, s0, ws, h0, hrun⟩ := h
  obtain ⟨⟨k1, k2⟩, k3, k4⟩ := run_words_lengths ws hrun
  obtain ⟨h1, h2, h3, h4, h5⟩ := main_init_lengths h0
  rw [k1, k2, k3, k4]
  exact ⟨h1, h2, h3, h4, h5⟩

/-- A hit in a coherent direct-mapped level reads the memory word of the
address. -/
theorem hit_coherent_value {c : CacheLevel} {memory : Nat → Nat} {B p d i : Nat}
    {rt : Nat × Nat} {regs : Nat → Nat} {hr : (Nat → Nat) × CacheLevel}
    (hco : Coherent c memory B) (hrt : row_and_tag p B c.cache.length 1 = some rt)
    (hscan : scan_hit c.cache (rt.1 * 1) rt.2 1 0 = some (some i))
    (hh : hit_read c rt.1 1 i p B d regs = some hr) (hd : d ≠ 0) :
    hr.1 d = memory p := by
  obtain ⟨hB, -, hR, hrow, htag⟩ := row_and_tag_eq_some hrt
  rw [Nat.div_one] at hR hrow htag
  obtain ⟨-, hi, ⟨w, hw, hp⟩, -⟩ := (scan_ways_eq_some_iff _ _ _ _ _ _).1 hscan
  simp only [decide_eq_true_eq] at hp
  obtain ⟨blk, v, hblk, hv, e⟩ := hit_read_value hh hd
  have e0 : rt.1 * 1 + i = rt.1 := by omega
  rw [e0] at hw hblk
  have := hco rt.1 w blk hw hp.1 hblk (p % B) (Nat.mod_lt _ (Nat.pos_of_ne_zero hB))
  rw [hv, hp.2, htag, hrow, Nat.div_add_mod', Nat.div_add_mod'] at this
  rw [e, Function.update_same]
  exact Option.some.inj this

/-- C26: direct-mapped coherence.  When every configured level has
associativity 1, in every reachable state each valid way of L1 and of L2, of
row `r` and tag `t`, holds a block of `B` words that are the current memory
words `memory[(t * rowCount + r) * B + i]`, `i < B`, where
`rowCount = size / (assoc * B)` and `B` is the block size of the level.
Consequently every executed `lw` with `dst != 0`, served by an L1 hit, an L2
hit or a miss, loads exactly `memory[addr]`; and an `lw` whose block is in its
L1 row does execute, as an L1 hit.  (No other condition on the configuration
is needed.) -/
theorem C26_direct_mapped_coherence (cfg : Config) (s : State) (hreach : Reachable cfg s)
    (ha1 : cfg.L1.assoc = 1) (ha2 : ∀ l2, cfg.L2 = some l2 → l2.assoc = 1) :
    (∀ (r : Nat) (w : Way), s.L1.cache[r]? = some w → w.valid ≠ 0 →
      ∃ b, s.L1.blockdata[r]? = some b ∧ b.length = cfg.L1.blocksize ∧
        ∀ i, i < cfg.L1.blocksize → b[i]? = some (s.memory
          ((w.tag * (cfg.L1.size / (cfg.L1.assoc * cfg.L1.blocksize)) + r)
            * cfg.L1.blocksize + i))) ∧
    (∀ l2, cfg.L2 = some l2 → ∀ (r : Nat) (w : Way), s.L2.cache[r]? = some w → w.valid ≠ 0 →
      ∃ b, s.L2.blockdata[r]? = some b ∧ b.length = l2.blocksize ∧
        ∀ i, i < l2.blocksize → b[i]? = some (s.memory
          ((w.tag * (l2.size / (l2.assoc * l2.blocksize)) + r) * l2.blocksize + i))) ∧
    (∀ (instr : Nat) (r : Bool × State), find_opcode instr = op_lw →
      (instr >>> 7) &&& 7 ≠ 0 → step cfg instr s = some r →
      r.2.registers ((instr >>> 7) &&& 7) = s.memory (pointer_of instr s)) ∧
    (∀ (instr : Nat) (rt : Nat × Nat), find_opcode instr = op_lw →
      row_and_tag (pointer_of instr s) cfg.L1.blocksize s.L1.cache.length 1 = some rt →
      (∃ w, s.L1.cache[rt.1]? = some w ∧ w.valid ≠ 0 ∧ w.tag = rt.2) →
      ∃ r, step cfg instr s = some r ∧
        r.2.out = s.out ++
          [Output.log CacheName.L1 Status.HIT s.pc (pointer_of instr s) rt.1]) := by
  obtain ⟨i1, i2⟩ := reachable_inv hreach
  obtain ⟨c1, c2⟩ := reachable_coherent hreach ha1 ha2
  obtain ⟨-, -, hlen1, -, hlen2⟩ := reachable_lengths hreach
  have hb2 : cfg.blocks2 ≠ 0 → cfg.assoc2 = 1 := by
    intro hb
    cases hL2 : cfg.L2 with
    | none => exact absurd (Config.blocks2_of_L2_none hL2) hb
    | some l2 =>
      simp only [Config.assoc2, hL2]
      exact ha2 l2 hL2
  refine ⟨fun r w hw hv => ?_, fun l2 hL2 r w hw hv => ?_, fun instr r hop hd hstep => ?_,
    fun instr rt hop hrt hhit => ?_⟩
  · obtain ⟨b, hb, hlen⟩ := i1.data_length r w hw hv
    refine ⟨b, hb, hlen, fun i hi => ?_⟩
    have := c1 r w b hw hv hb i hi
    rw [hlen1, ha1, Nat.mul_one] at this
    rw [ha1]
    exact this
  · obtain ⟨b, hb, hlen⟩ := i2.data_length r w hw hv
    have e1 : cfg.blocks2 = l2.blocksize := by simp [Config.blocks2, hL2]
    rw [e1] at hlen c2
    refine ⟨b, hb, hlen, fun i hi => ?_⟩
    have := c2 r w b hw hv hb i hi
    rw [(hlen2 l2 hL2).2.2, ha2 l2 hL2, Nat.mul_one] at this
    rw [ha2 l2 hL2]
    exact this
  · simp only [step, ha1] at hstep
    rw [execute_instruction_lw _ _ _ _ s hop] at hstep
    obtain ⟨rt, hrt, -, -, -, hcases⟩ := exec_lw_cases hstep
    rcases hcases with ⟨i, hr, hscan, hhit, e1, -⟩ |
      ⟨-, hb, rt2, i, hr, hrt2, hscan, hhit, e1, -⟩ | ⟨-, -, e1, -⟩ | ⟨-, -, rt2, -, -, e1, -⟩
    · rw [e1]
      exact hit_coherent_value c1 hrt hscan hhit hd
    · rw [e1]
      rw [hb2 hb] at hrt2 hscan hhit
      exact hit_coherent_value c2 hrt2 hscan hhit hd
    · rw [e1, if_pos hd, Function.update_same]
    · rw [e1, if_pos hd, Function.update_same]
  · rw [ha1] at i1
    obtain ⟨r, hr, -, -, -, -, -, -, hout⟩ :=
      lw_L1_hit_step cfg.blocks2 cfg.assoc2 i1 hrt
        ⟨0, Nat.one_pos, by simpa using hhit⟩
    refine ⟨r, ?_, hout⟩
    simp only [step, ha1]
    rw [execute_instruction_lw _ _ _ _ s hop]
    exact hr

/-- Witness of C26: direct-mapped L1 `2,1,1`; after `addi $1,$0,5` and
`sw $1,10($0)` the way of row 0 holds the word 5 of memory cell 10, and
`lw $3,10($0)` reads 5. -/
theorem C26_direct_mapped_coherence_witness :
    ∃ r, step ⟨⟨2, 1, 1⟩, none⟩ 33162
        (state_after ⟨⟨2, 1, 1⟩, none⟩ [8325, 41098] (example_state 2 1 0 0)) = some r ∧
      r.2.registers 3 = 5 ∧
      (state_after ⟨⟨2, 1, 1⟩, none⟩ [8325, 41098] (example_state 2 1 0 0)).L1.blockdata
        = [[5], []] := by
  have H := C26_direct_mapped_coherence ⟨⟨2, 1, 1⟩, none⟩
    (state_after ⟨⟨2, 1, 1⟩, none⟩ [8325, 41098] (example_state 2 1 0 0))
    ⟨fun _ => 0, example_state 2 1 0 0, [8325, 41098], rfl, rfl⟩ rfl
    (fun l2 e => by cases e)
  obtain ⟨r, hr, -⟩ := H.2.2.2 33162 (0, 5) (by decide) (by decide)
    ⟨⟨0, 1, 5⟩, by decide, by decide, by decide⟩
  exact ⟨r, hr, (H.2.2.1 33162 r (by decide) (by decide) hr).trans (by decide), by decide⟩

/-! ## Evictions -/

/-- A duplicate-free list that holds all `n` numbers of an interval has at
least `n` elements. -/
theorem interval_subset_length {l : List Nat} {a n : Nat}
    (h : ∀ x, a ≤ x → x < a + n → x ∈ l) : n ≤ l.length := by
  have hsub : List.range' a n ⊆ l := fun x hx => by
    have := List.mem_range'_1.1 hx
    exact h x this.1 this.2
  have := (List.subperm_of_subset (List.nodup_range' a n) hsub).length_le
  simpa using this

/-- The deque of a row of a consistent level in which the free-way loop finds
no free way: it has exactly `assoc` elements, and its front is a way of the
row. -/
theorem full_row_deque {c : CacheLevel} {assoc blocks row : Nat}
    (inv : LevelInv c assoc blocks) (ha : 0 < assoc) (hrow : row < c.MRU.length)
    (hfull : scan_free c.cache (row * assoc) assoc 0 = some none) :
    ∃ d k, c.MRU[row]? = some d ∧ d.length = assoc ∧ d.head? = some k ∧
      row * assoc ≤ k ∧ k < row * assoc + assoc ∧ k < c.cache.length := by
  have hd : c.MRU[row]? = some (c.MRU.get ⟨row, hrow⟩) := List.getElem?_eq_getElem hrow
  generalize c.MRU.get ⟨row, hrow⟩ = d at hd
  obtain ⟨hnd, hmem, hle⟩ := inv.deque hd
  have hall := (scan_ways_eq_none_iff _ _ _ _ _).1 hfull
  have hge : assoc ≤ d.length := by
    apply interval_subset_length (a := row * assoc)
    intro x h1 h2
    obtain ⟨w, hw, hp⟩ := hall (x - row * assoc) (Nat.zero_le _) (by omega)
    rw [Nat.add_sub_cancel' h1] at hw
    simp only [decide_eq_false_iff_not] at hp
    exact (hmem x).2 ⟨h1, h2, w, hw, hp⟩
  have hlen : d.length = assoc := Nat.le_antisymm hle hge
  cases d with
  | nil => simp only [List.length_nil] at hlen; omega
  | cons k t =>
    obtain ⟨h1, h2, w, hw, -⟩ := (hmem k).1 (List.mem_cons_self k t)
    exact ⟨k :: t, k, hd, hlen, rfl, h1, h2, getElem?_isSome_lt hw⟩

/-- The deque of a row of a consistent level after a touch of a way of the row
is not longer than `assoc`. -/
theorem touched_deque_length {c : CacheLevel} {assoc blocks row k : Nat} {d : List Nat}
    (inv : LevelInv c assoc blocks) (hd : c.MRU[row]? = some d)
    (hk1 : row * assoc ≤ k) (hk2 : k < row * assoc + assoc) :
    (d.filter (fun x => x ≠ k) ++ [k]).length ≤ assoc := by
  obtain ⟨hnd, hmem, -⟩ := inv.deque hd
  obtain ⟨hnd', hmem'⟩ := touched_deque_props (k := k) hnd
  apply nodup_interval_length (a := row * assoc) hnd'
  intro x hx
  rcases (hmem' x).1 hx with rfl | ⟨-, hxd⟩
  · exact ⟨hk1, hk2⟩
  · obtain ⟨h1, h2, -⟩ := (hmem x).1 hxd
    exact ⟨h1, h2⟩

/-- An install into a row of a consistent level is defined. -/
theorem install_total {c : CacheLevel} {assoc blocks row : Nat}
    (inv : LevelInv c assoc blocks) (ha : 0 < assoc) (hrow : row < c.MRU.length)
    (tag : Nat) (block : List Nat) :
    ∃ c', install c row assoc tag block = some c' := by
  have hin : ∀ j, j < assoc → row * assoc + j < c.cache.length := by
    intro j hj
    rw [inv.cache_length]
    exact row_index_lt hrow (by omega)
  obtain ⟨free, hfree⟩ := scan_ways_total (fun w => decide (w.valid = 0)) c.cache
    (row * assoc) assoc 0 (fun j _ hj => hin j (by omega))
  have hmru : ∀ (c1 : CacheLevel) (k : Nat), c1.MRU = c.MRU →
      ∃ c', updateMRU c1 row k assoc = some c' := by
    intro c1 k e
    simp only [updateMRU, e, List.getElem?_eq_getElem hrow, Option.bind_eq_bind,
      Option.some_bind, Option.pure_def]
    exact ⟨_, rfl⟩
  cases free with
  | some i =>
    obtain ⟨-, hi, -, -⟩ := (scan_ways_eq_some_iff _ _ _ _ _ _).1 hfree
    have hlt := hin i (by omega)
    have hlt' : row * assoc + i < c.blockdata.length := by rw [inv.blockdata_length]; exact hlt
    obtain ⟨c', hc'⟩ := hmru
      { c with cache := c.cache.set (row * assoc + i)
                 { c.cache[row * assoc + i] with valid := 1, tag := tag },
               blockdata := c.blockdata.set (row * assoc + i) block }
      (row * assoc + i) rfl
    refine ⟨c', ?_⟩
    simp only [install, scan_free, hfree, Option.bind_eq_bind, Option.some_bind,
      List.getElem?_eq_getElem hlt, List.getElem?_eq_getElem hlt']
    exact hc'
  | none =>
    obtain ⟨d, k, hd, -, hhead, -, -, hklt⟩ := full_row_deque inv ha hrow hfree
    have hklt' : k < c.blockdata.length := by rw [inv.blockdata_length]; exact hklt
    obtain ⟨c', hc'⟩ := hmru
      { c with cache := c.cache.set k { c.cache[k] with tag := tag },
               blockdata := c.blockdata.set k block }
      k rfl
    refine ⟨c', ?_⟩
    simp only [install, scan_free, hfree, Option.bind_eq_bind, Option.some_bind, hd, hhead,
      List.getElem?_eq_getElem hklt, List.getElem?_eq_getElem hklt']
    exact hc'

/-- On a consistent level `updateMRU` on a way of the row does not take its
`pop_front` branch. -/
theorem updateMRU_no_pop {c : CacheLevel} {assoc blocks row k : Nat} {d : List Nat}
    (inv : LevelInv c assoc blocks) (hd : c.MRU[row]? = some d)
    (hk1 : row * assoc ≤ k) (hk2 : k < row * assoc + assoc) :
    ¬ ((d.filter (fun x => x ≠ k) ++ [k]).length > assoc) ∧
    updateMRU c row k assoc = some { c with
      MRU := c.MRU.set row (d.filter (fun x => x ≠ k) ++ [k]),
      touches := k :: c.touches } := by
  have hle := touched_deque_length inv hd hk1 hk2
  refine ⟨Nat.not_lt.2 hle, ?_⟩
  simp only [updateMRU, hd, Option.bind_eq_bind, Option.some_bind, Option.pure_def,
    if_neg (Nat.not_lt.2 hle)]

/-- C27: eviction is always well-defined.  In every reachable state the
associativity of every configured level is at least 1, and for every row of L1
and of L2: whenever the free-way loop of an install finds no way with
`valid == 0` in the row, the recency list of the row has exactly
`associativity` elements (so it is not empty), its front is an index
`row * assoc + i`, `i < assoc`, of that same row, inside the tables, and the
install is defined: `front()` is never taken on an empty deque and the eviction
never overwrites a way of another row.  And `updateMRU` on a way of the row
never takes its `pop_front` branch (`size > assoc`): the new deque is the old
one with the way moved to the back. -/
theorem C27_eviction_well_defined (cfg : Config) (s : State) (hreach : Reachable cfg s) :
    0 < cfg.L1.assoc ∧ (∀ l2, cfg.L2 = some l2 → 0 < l2.assoc) ∧
    (∀ row, row < s.L1.MRU.length →
      scan_free s.L1.cache (row * cfg.L1.assoc) cfg.L1.assoc 0 = some none →
      (∃ d k, s.L1.MRU[row]? = some d ∧ d.length = cfg.L1.assoc ∧ d.head? = some k ∧
        row * cfg.L1.assoc ≤ k ∧ k < row * cfg.L1.assoc + cfg.L1.assoc ∧
        k < s.L1.cache.length) ∧
      ∀ tag block, ∃ c', install s.L1 row cfg.L1.assoc tag block = some c') ∧
    (∀ row, row < s.L2.MRU.length →
      scan_free s.L2.cache (row * cfg.assoc2) cfg.assoc2 0 = some none →
      (∃ d k, s.L2.MRU[row]? = some d ∧ d.length = cfg.assoc2 ∧ d.head? = some k ∧
        row * cfg.assoc2 ≤ k ∧ k < row * cfg.assoc2 + cfg.assoc2 ∧
        k < s.L2.cache.length) ∧
      ∀ tag block, ∃ c', install s.L2 row cfg.assoc2 tag block = some c') ∧
    (∀ row k d, s.L1.MRU[row]? = some d →
      row * cfg.L1.assoc ≤ k → k < row * cfg.L1.assoc + cfg.L1.assoc →
      ¬ ((d.filter (fun x => x ≠ k) ++ [k]).length > cfg.L1.assoc) ∧
      updateMRU s.L1 row k cfg.L1.assoc = some { s.L1 with
        MRU := s.L1.MRU.set row (d.filter (fun x => x ≠ k) ++ [k]),
        touches := k :: s.L1.touches }) ∧
    (∀ row k d, s.L2.MRU[row]? = some d →
      row * cfg.assoc2 ≤ k → k < row * cfg.assoc2 + cfg.assoc2 →
      ¬ ((d.filter (fun x => x ≠ k) ++ [k]).length > cfg.assoc2) ∧
      updateMRU s.L2 row k cfg.assoc2 = some { s.L2 with
        MRU := s.L2.MRU.set row (d.filter (fun x => x ≠ k) ++ [k]),
        touches := k :: s.L2.touches }) := by
  obtain ⟨i1, i2⟩ := reachable_inv hreach
  obtain ⟨hne, -, -, hnone, hsome⟩ := reachable_lengths hreach
  have ha1 : 0 < cfg.L1.assoc := Nat.pos_of_ne_zero (fun e => hne (by rw [e, Nat.zero_mul]))
  have hl2 : ∀ l2, cfg.L2 = some l2 → 0 < l2.assoc := fun l2 h =>
    Nat.pos_of_ne_zero (fun e => (hsome l2 h).1 (by rw [e, Nat.zero_mul]))
  refine ⟨ha1, hl2, fun row hrow hfull => ⟨full_row_deque i1 ha1 hrow hfull,
      fun tag block => install_total i1 ha1 hrow tag block⟩,
    fun row hrow hfull => ?_, fun row k d hd h1 h2 => updateMRU_no_pop i1 hd h1 h2,
    fun row k d hd h1 h2 => updateMRU_no_pop i2 hd h1 h2⟩
  have ha2 : 0 < cfg.assoc2 := by
    cases hL2 : cfg.L2 with
    | none =>
      rw [(hnone hL2).2] at hrow
      exact absurd hrow (Nat.not_lt_zero _)
    | some l2 =>
      simp only [Config.assoc2, hL2]
      exact hl2 l2 hL2
  exact ⟨full_row_deque i2 ha2 hrow hfull, fun tag block => install_total i2 ha2 hrow tag block⟩

/-- Witness of C27: L1 `2,2,1` (one row of two ways) after `lw` of the
addresses 0 and 1: the row has no free way and its deque is `[0, 1]`, with both
ways of the row, front 0. -/
theorem C27_eviction_well_defined_witness :
    (state_after ⟨⟨2, 2, 1⟩, none⟩ [32768, 32769] (example_state 1 2 0 0)).L1.MRU = [[0, 1]] ∧
    ∃ d k, (state_after ⟨⟨2, 2, 1⟩, none⟩ [32768, 32769] (example_state 1 2 0 0)).L1.MRU[0]?
        = some d ∧ d.length = 2 ∧ d.head? = some k ∧ 0 * 2 ≤ k ∧ k < 0 * 2 + 2 ∧
      k < (state_after ⟨⟨2, 2, 1⟩, none⟩ [32768, 32769]
        (example_state 1 2 0 0)).L1.cache.length :=
  ⟨by decide,
    ((C27_eviction_well_defined ⟨⟨2, 2, 1⟩, none⟩
      (state_after ⟨⟨2, 2, 1⟩, none⟩ [32768, 32769] (example_state 1 2 0 0))
      ⟨fun _ => 0, example_state 1 2 0 0, [32768, 32769], rfl, rfl⟩).2.2.1 0
      (by decide) (by decide)).1⟩

/-! ## Indexing under a valid configuration -/

/-- The words of the block of an address below 8192 are below 8192, for the
block sizes that divide 8192. -/
theorem block_in_memory {B addr i : Nat} (hB : B ∈ [1, 2, 4, 8, 16, 32, 64])
    (haddr : addr < 8192) (hi : i < B) : addr / B * B + i < MEM_SIZE := by
  rw [MEM_SIZE_eq]
  simp only [List.mem_cons, List.mem_singleton, List.not_mem_nil, or_false] at hB
  rcases hB with rfl | rfl | rfl | rfl | rfl | rfl | rfl <;> omega

theorem fetch_block_total {B addr : Nat} (memory : Nat → Nat)
    (hB : B ∈ [1, 2, 4, 8, 16, 32, 64]) (haddr : addr < 8192) :
    ∃ blk, fetch_block memory (addr / B * B) B = some blk := by
  unfold fetch_block
  rw [if_pos (fun i hi => block_in_memory hB haddr hi)]
  exact ⟨_, rfl⟩

theorem block_size_pos {B : Nat} (hB : B ∈ [1, 2, 4, 8, 16, 32, 64]) : B ≠ 0 := by
  intro e
  subst e
  simp at hB

/-- The indices one level uses for an address: the level is consistent, has
`rows >= 1` rows of `assoc >= 1` ways and a block size that divides 8192. -/
theorem level_indexing {c : CacheLevel} {assoc B rows : Nat} (inv : LevelInv c assoc B)
    (hlen : c.cache.length = rows * assoc) (ha : 0 < assoc)
    (hB : B ∈ [1, 2, 4, 8, 16, 32, 64]) (hrows : 1 ≤ rows)
    (memory : Nat → Nat) (addr : Nat) (haddr : addr < 8192) :
    ∃ rt, row_and_tag addr B c.cache.length assoc = some rt ∧
      rt.1 = addr / B % rows ∧ rt.2 = addr / B / rows ∧ rt.1 < rows ∧
      (∀ i, i < assoc → rt.1 * assoc + i < rows * assoc ∧
        rt.1 * assoc + i < c.cache.length ∧ rt.1 * assoc + i < c.blockdata.length) ∧
      (∀ i, i < B → addr / B * B + i < 8192) ∧
      (∃ blk, fetch_block memory (addr / B * B) B = some blk) ∧
      (∀ i, scan_hit c.cache (rt.1 * assoc) rt.2 assoc 0 = some (some i) →
        i < assoc ∧ ∃ b, c.blockdata[rt.1 * assoc + i]? = some b ∧ addr % B < b.length) := by
  have hB0 := block_size_pos hB
  have hq : c.cache.length / assoc = rows := by
    rw [hlen, Nat.mul_div_cancel _ ha]
  have hrt : row_and_tag addr B c.cache.length assoc
      = some (addr / B % rows, addr / B / rows) := by
    unfold row_and_tag
    rw [hq, if_neg (by omega)]
  have hrlt : addr / B % rows < rows := Nat.mod_lt _ hrows
  refine ⟨_, hrt, rfl, rfl, hrlt, fun i hi => ?_, fun i hi => ?_, fetch_block_total memory hB haddr,
    fun i hscan => ?_⟩
  · have h1 : addr / B % rows * assoc + i < rows * assoc := row_index_lt hrlt (by omega)
    exact ⟨h1, by rw [hlen]; exact h1, by rw [inv.blockdata_length, hlen]; exact h1⟩
  · have := block_in_memory hB haddr hi
    rw [MEM_SIZE_eq] at this
    exact this
  · obtain ⟨-, hi, ⟨w, hw, hp⟩, -⟩ := (scan_ways_eq_some_iff _ _ _ _ _ _).1 hscan
    simp only [decide_eq_true_eq] at hp
    obtain ⟨b, hb, hbl⟩ := inv.data_length _ w hw hp.1
    exact ⟨by omega, b, hb, by rw [hbl]; exact Nat.mod_lt _ (Nat.pos_of_ne_zero hB0)⟩

/-! ## Loads and stores are defined under a valid configuration -/

theorem ValidLevel.indexing {c : CacheLevel} {assoc B : Nat} (v : ValidLevel c assoc B)
    (addr : Nat) (haddr : addr < 8192) :
    ∃ rt, row_and_tag addr B c.cache.length assoc = some rt ∧ rt.1 < c.MRU.length ∧
      (∃ hit, scan_hit c.cache (rt.1 * assoc) rt.2 assoc 0 = some hit) ∧
      (∀ memory : Nat → Nat, ∃ blk, fetch_block memory (addr / B * B) B = some blk) ∧
      (∀ tag block, ∃ c', install c rt.1 assoc tag block = some c') := by
  obtain ⟨inv, ha, hB, hrows⟩ := v
  obtain ⟨rt, hrt, -, -, hlt, hin, -, -, -⟩ :=
    level_indexing inv inv.cache_length ha hB hrows (fun _ => 0) addr haddr
  refine ⟨rt, hrt, hlt, ?_, fun memory => fetch_block_total memory hB haddr,
    fun tag block => install_total inv ha hlt tag block⟩
  exact scan_ways_total _ c.cache (rt.1 * assoc) assoc 0 (fun j _ hj => (hin j (by omega)).2.1)

theorem lw_fill_total {p d b1 a1 b2 a2 : Nat} {rt : Nat × Nat} {s : State} (hp : p < 8192)
    (v1 : ValidLevel s.L1 a1 b1) (hrt : row_and_tag p b1 s.L1.cache.length a1 = some rt)
    (v2 : b2 ≠ 0 → ValidLevel s.L2 a2 b2) :
    ∃ r, lw_fill p d b1 a1 b2 a2 rt.1 rt.2 s = some r := by
  obtain ⟨rt', hrt', -, -, hf1, hi1⟩ := v1.indexing p hp
  rw [hrt] at hrt'
  cases hrt'
  obtain ⟨blk1, hblk1⟩ := hf1 s.memory
  obtain ⟨l1, hl1⟩ := hi1 rt.2 blk1
  by_cases hb : b2 = 0
  · by_cases hd : d = 0 <;>
      simp [lw_fill, hb, hd, hblk1, hl1, set_register]
  · obtain ⟨rt2, hrt2, -, -, hf2, hi2⟩ := (v2 hb).indexing p hp
    obtain ⟨blk2, hblk2⟩ := hf2 s.memory
    obtain ⟨l2, hl2⟩ := hi2 rt2.2 blk2
    by_cases hd : d = 0 <;>
      simp [lw_fill, hb, hd, hblk1, hl1, set_register, hrt2, hblk2, hl2]

theorem exec_lw_total {instr b1 a1 b2 a2 : Nat} {s : State}
    (v1 : ValidLevel s.L1 a1 b1) (v2 : b2 ≠ 0 → ValidLevel s.L2 a2 b2) :
    ∃ r, exec_lw instr b1 a1 b2 a2 s = some r := by
  have hp := (pointer_of_eq instr s).2
  obtain ⟨rt, hrt, hrow, ⟨hit, hhit⟩, -, -⟩ := v1.indexing _ hp
  cases hit with
  | some i =>
    obtain ⟨hr, hh⟩ := hit_read_total v1.1 (block_size_pos v1.2.2.1) hrow hhit
      (pointer_of instr s) ((instr >>> 7) &&& 7) s.registers
    exact exec_lw_L1_hit_defined hrt hhit hh
  | none =>
    by_cases hb : b2 = 0
    · subst hb
      obtain ⟨r, hr⟩ := lw_fill_total (d := (instr >>> 7) &&& 7)
        (s := print_log_entry CacheName.L1 Status.MISS s.pc (pointer_of instr s) rt.1 s)
        hp v1 hrt v2
      exact ⟨r, by simp [exec_lw, hrt, hhit, hr]⟩
    · obtain ⟨rt2, hrt2, hrow2, ⟨hit2, hhit2⟩, -, -⟩ := (v2 hb).indexing _ hp
      cases hit2 with
      | some i =>
        obtain ⟨hr, hh⟩ := hit_read_total (v2 hb).1 (block_size_pos (v2 hb).2.2.1) hrow2 hhit2
          (pointer_of instr s) ((instr >>> 7) &&& 7) s.registers
        exact exec_lw_L2_hit_defined hrt hhit hb hrt2 hhit2 hh
      | none =>
        obtain ⟨r, hr⟩ := lw_fill_total (d := (instr >>> 7) &&& 7)
          (s := print_log_entry CacheName.L2 Status.MISS s.pc (pointer_of instr s) rt2.1
            (print_log_entry CacheName.L1 Status.MISS s.pc (pointer_of instr s) rt.1 s))
          hp v1 hrt v2
        exact ⟨r, by simp [exec_lw, lw_L2, hrt, hhit, hb, hrt2, hhit2, hr]⟩

theorem exec_sw_total {instr b1 a1 b2 a2 : Nat} {s : State}
    (v1 : ValidLevel s.L1 a1 b1) (v2 : b2 ≠ 0 → ValidLevel s.L2 a2 b2) :
    ∃ r, exec_sw instr b1 a1 b2 a2 s = some r := by
  have hp := (pointer_of_eq instr s).2
  obtain ⟨rt, hrt, -, -, hf1, hi1⟩ := v1.indexing _ hp
  obtain ⟨blk1, hblk1⟩ := hf1
    (Function.update s.memory (pointer_of instr s) (s.registers ((instr >>> 7) &&& 7)))
  obtain ⟨l1, hl1⟩ := hi1 rt.2 blk1
  by_cases hb : b2 = 0
  · simp [exec_sw, hb, hrt, hblk1, hl1]
  · obtain ⟨rt2, hrt2, -, -, hf2, hi2⟩ := (v2 hb).indexing _ hp
    obtain ⟨blk2, hblk2⟩ := hf2
      (Function.update s.memory (pointer_of instr s) (s.registers ((instr >>> 7) &&& 7)))
    obtain ⟨l2, hl2⟩ := hi2 rt2.2 blk2
    simp [exec_sw, hb, hrt, hblk1, hl1, hrt2, hblk2, hl2]

/-- C28: all indexing is in range under a valid configuration.  In every
reachable state, for every level whose block size is one of 1, 2, 4, 8, 16,
32, 64 and whose `rowCount = size / (assoc * blockSize)` is at least 1 (the
associativity is then at least 1), and every address `addr < 8192`: the
computed row is below `rowCount`, every way index `row * assoc + i`
(`i < assoc`) is below `rowCount * assoc`, the length of the cache table,
every block-fetch index `(addr / blockSize) * blockSize + i` (`i < blockSize`)
is below 8192, and on a hit the offset `addr mod blockSize` is below the length
of the block data of the way.  When every configured level is valid in this
sense, every instruction word executes: no index is out of range and no
divisor is zero. -/
theorem C28_indexing_in_range (cfg : Config) (s : State) (hreach : Reachable cfg s)
    (addr : Nat) (haddr : addr < 8192) :
    (cfg.L1.blocksize ∈ [1, 2, 4, 8, 16, 32, 64] →
      1 ≤ cfg.L1.size / (cfg.L1.assoc * cfg.L1.blocksize) →
      0 < cfg.L1.assoc ∧
      s.L1.cache.length = cfg.L1.size / (cfg.L1.assoc * cfg.L1.blocksize) * cfg.L1.assoc ∧
      IndexingInRange s.L1 s.memory cfg.L1.assoc cfg.L1.blocksize
        (cfg.L1.size / (cfg.L1.assoc * cfg.L1.blocksize)) addr) ∧
    (∀ l2, cfg.L2 = some l2 → l2.blocksize ∈ [1, 2, 4, 8, 16, 32, 64] →
      1 ≤ l2.size / (l2.assoc * l2.blocksize) →
      0 < l2.assoc ∧
      s.L2.cache.length = l2.size / (l2.assoc * l2.blocksize) * l2.assoc ∧
      IndexingInRange s.L2 s.memory l2.assoc l2.blocksize
        (l2.size / (l2.assoc * l2.blocksize)) addr) ∧
    (cfg.L1.blocksize ∈ [1, 2, 4, 8, 16, 32, 64] →
      1 ≤ cfg.L1.size / (cfg.L1.assoc * cfg.L1.blocksize) →
      (∀ l2, cfg.L2 = some l2 → l2.blocksize ∈ [1, 2, 4, 8, 16, 32, 64] ∧
        1 ≤ l2.size / (l2.assoc * l2.blocksize)) →
      ∀ instr, ∃ r, step cfg instr s = some r) := by
  obtain ⟨i1, i2⟩ := reachable_inv hreach
  obtain ⟨hne, hmru1, hlen1, hnone, hsome⟩ := reachable_lengths hreach
  have ha1 : 0 < cfg.L1.assoc := Nat.pos_of_ne_zero (fun e => hne (by rw [e, Nat.zero_mul]))
  refine ⟨fun hB hrows => ⟨ha1, hlen1,
      level_indexing i1 hlen1 ha1 hB hrows s.memory addr haddr⟩,
    fun l2 hL2 hB hrows => ?_, fun hB hrows h2 instr => ?_⟩
  · obtain ⟨hne2, -, hlen2⟩ := hsome l2 hL2
    have ha2 : 0 < l2.assoc := Nat.pos_of_ne_zero (fun e => hne2 (by rw [e, Nat.zero_mul]))
    have e1 : cfg.assoc2 = l2.assoc := by simp [Config.assoc2, hL2]
    have e2 : cfg.blocks2 = l2.blocksize := by simp [Config.blocks2, hL2]
    rw [e1, e2] at i2
    exact ⟨ha2, hlen2, level_indexing i2 hlen2 ha2 hB hrows s.memory addr haddr⟩
  · have v1 : ValidLevel s.L1 cfg.L1.assoc cfg.L1.blocksize :=
      ⟨i1, ha1, hB, by rw [hmru1]; exact hrows⟩
    have v2 : cfg.blocks2 ≠ 0 → ValidLevel s.L2 cfg.assoc2 cfg.blocks2 := by
      intro hb
      cases hL2 : cfg.L2 with
      | none => exact absurd (Config.blocks2_of_L2_none hL2) hb
      | some l2 =>
        obtain ⟨hne2, hmru2, -⟩ := hsome l2 hL2
        have e1 : cfg.assoc2 = l2.assoc := by simp [Config.assoc2, hL2]
        have e2 : cfg.blocks2 = l2.blocksize := by simp [Config.blocks2, hL2]
        rw [e1, e2] at i2 ⊢
        exact ⟨i2, Nat.pos_of_ne_zero (fun e => hne2 (by rw [e, Nat.zero_mul])),
          (h2 l2 hL2).1, by rw [hmru2]; exact (h2 l2 hL2).2⟩
    unfold step
    by_cases hlw : find_opcode instr = op_lw
    · rw [execute_instruction_lw _ _ _ _ s hlw]
      exact exec_lw_total v1 v2
    by_cases hsw : find_opcode instr = op_sw
    · rw [execute_instruction_sw _ _ _ _ s hsw]
      exact exec_sw_total v1 v2
    exact execute_instruction_defined instr _ _ _ _ s hlw hsw

/-- Witness of C28: L1 `4,2,2` (one row of two ways, blocks of two words), the
start state and the address 8191: row 0, tag 4095, block fetch from 8190; and
`lw $2,10($0)` executes. -/
theorem C28_indexing_in_range_witness :
    IndexingInRange (example_state 1 2 0 0).L1 (example_state 1 2 0 0).memory 2 2 1 8191 ∧
    row_and_tag 8191 2 (example_state 1 2 0 0).L1.cache.length 2 = some (0, 4095) ∧
    ∃ r, step ⟨⟨4, 2, 2⟩, none⟩ 33034 (example_state 1 2 0 0) = some r := by
  have H := C28_indexing_in_range ⟨⟨4, 2, 2⟩, none⟩ (example_state 1 2 0 0)
    ⟨fun _ => 0, example_state 1 2 0 0, [], rfl, rfl⟩ 8191 (by decide)
  exact ⟨(H.1 (by decide) (by decide)).2.2, by decide,
    H.2.2 (by decide) (by decide) (fun l2 e => by cases e) 33034⟩

/-! ## Address decomposition -/

/-- C29: address decomposition is lossless.  For every address (in particular
every `addr < 8192`), block size `B >= 1` and a level of `R >= 1` rows of
`assoc >= 1` ways (a cache table of `R * assoc` entries): the lw/sw branches
compute `row = (addr / B) mod R` and `tag = (addr / B) div R`, and with
`offset = addr mod B`, `addr = (tag * R + row) * B + offset`.  Hence two
addresses with the same tag and row lie in the same block, and two addresses
in different blocks never share both tag and row. -/
theorem C29_address_decomposition (addr B R assoc : Nat) (hB : 1 ≤ B) (hR : 1 ≤ R)
    (ha : 1 ≤ assoc) :
    ∃ rt, row_and_tag addr B (R * assoc) assoc = some rt ∧
      rt.1 = addr / B % R ∧ rt.2 = addr / B / R ∧
      addr = (rt.2 * R + rt.1) * B + addr % B ∧
      ∀ addr2 rt2, row_and_tag addr2 B (R * assoc) assoc = some rt2 →
        (rt2 = rt → addr2 / B = addr / B) ∧ (addr2 / B ≠ addr / B → rt2 ≠ rt) := by
  have hq : R * assoc / assoc = R := Nat.mul_div_cancel _ ha
  have hrt : ∀ a, row_and_tag a B (R * assoc) assoc = some (a / B % R, a / B / R) := by
    intro a
    unfold row_and_tag
    rw [hq, if_neg (by omega)]
  have hsame : ∀ addr2 rt2, row_and_tag addr2 B (R * assoc) assoc = some rt2 →
      rt2 = (addr / B % R, addr / B / R) → addr2 / B = addr / B := by
    intro addr2 rt2 h2 e
    rw [hrt addr2] at h2
    cases h2
    simp only [Prod.mk.injEq] at e
    rw [← Nat.div_add_mod' (addr2 / B) R, ← Nat.div_add_mod' (addr / B) R, e.1, e.2]
  refine ⟨_, hrt addr, rfl, rfl, ?_, fun addr2 rt2 h2 => ⟨hsame addr2 rt2 h2,
    fun hne e => hne (hsame addr2 rt2 h2 e)⟩⟩
  simp only
  rw [Nat.div_add_mod', Nat.div_add_mod']

/-- Witness of C29: address 8191 with blocks of 4 words and 8 rows of 2 ways:
row 7, tag 255, offset 3, and `8191 = (255 * 8 + 7) * 4 + 3`. -/
theorem C29_address_decomposition_witness :
    row_and_tag 8191 4 (8 * 2) 2 = some (7, 255) ∧ 8191 = (255 * 8 + 7) * 4 + 8191 % 4 := by
  obtain ⟨rt, h1, h2, h3, h4, -⟩ :=
    C29_address_decomposition 8191 4 8 2 (by decide) (by decide) (by decide)
  have e : rt = (7, 255) := Prod.ext h2 h3
  subst e
  exact ⟨h1, h4⟩

end E20
